import Mathlib

/-!
Verification of the path-addressed JSON text-patch engine of
`src/features/modals/NodeModal/index.tsx`.

JavaScript strings are modelled as `List Char`; JSON values produced by
`JSON.parse` are modelled by `JsonValue` (number literals keep their source
token, which is irrelevant to every claim checked here).  All functions are
translated from the source file; the single external call, jsonc-parser's
`modify`, is modelled from the spec (see `resolve` and `jsoncModify`).
-/

namespace NodeModal

/-- JSON whitespace characters accepted by `JSON.parse`. -/
def isWsChar (c : Char) : Bool :=
  c = ' ' || c = '\n' || c = '\t' || c = '\r'

/-- The token `null`. -/
def nullTok : List Char := ['n', 'u', 'l', 'l']

/-- The token `true`. -/
def trueTok : List Char := ['t', 'r', 'u', 'e']

/-- The token `false`. -/
def falseTok : List Char := ['f', 'a', 'l', 's', 'e']

/-- In-memory JSON values, as produced by `JSON.parse`.  Number literals are
kept as their source token. -/
inductive JsonValue where
  | null : JsonValue
  | bool : Bool → JsonValue
  | num : List Char → JsonValue
  | str : List Char → JsonValue
  | arr : List JsonValue → JsonValue
  | obj : List (List Char × JsonValue) → JsonValue

/-- Lower-case hexadecimal digit for `n < 16`. -/
def hexDig (n : Nat) : Char :=
  if n < 10 then Char.ofNat (48 + n) else Char.ofNat (87 + n)

/-- Escaping of one character inside a JSON string literal, as done by
`JSON.stringify`. -/
def escChar (c : Char) : List Char :=
  if c = '"' then ['\\', '"']
  else if c = '\\' then ['\\', '\\']
  else if c = '\n' then ['\\', 'n']
  else if c = '\r' then ['\\', 'r']
  else if c = '\t' then ['\\', 't']
  else if c = Char.ofNat 8 then ['\\', 'b']
  else if c = Char.ofNat 12 then ['\\', 'f']
  else if c.toNat < 32 then
    ['\\', 'u', '0', '0', hexDig (c.toNat / 16), hexDig (c.toNat % 16)]
  else [c]

/-- Escaped body of a JSON string literal. -/
def escBody (s : List Char) : List Char := (s.map escChar).flatten

/-- A quoted JSON string literal, as produced by `JSON.stringify`. -/
def quoteStr (s : List Char) : List Char := '"' :: escBody s ++ ['"']

mutual

/-- Compact (no added whitespace) serialization of a JSON value. -/
def serializeCompact : JsonValue → List Char
  | .null => nullTok
  | .bool true => trueTok
  | .bool false => falseTok
  | .num t => t
  | .str s => quoteStr s
  | .arr vs => '[' :: serializeItems vs ++ [']']
  | .obj ms => '{' :: serializeMembers ms ++ ['}']

/-- Comma-separated compact serialization of array items. -/
def serializeItems : List JsonValue → List Char
  | [] => []
  | [v] => serializeCompact v
  | v :: w :: vs => serializeCompact v ++ ',' :: serializeItems (w :: vs)

/-- Comma-separated compact serialization of object members. -/
def serializeMembers : List (List Char × JsonValue) → List Char
  | [] => []
  | [(k, v)] => quoteStr k ++ ':' :: serializeCompact v
  | (k, v) :: m :: ms =>
      quoteStr k ++ ':' :: serializeCompact v ++ ',' :: serializeMembers (m :: ms)

end

/-- `n` spaces. -/
def spacesN (n : Nat) : List Char := List.replicate n ' '

mutual

/-- `JSON.stringify(v, null, 2)` at surrounding indentation `ind`. -/
def stringifyI : JsonValue → Nat → List Char
  | .null, _ => nullTok
  | .bool true, _ => trueTok
  | .bool false, _ => falseTok
  | .num t, _ => t
  | .str s, _ => quoteStr s
  | .arr [], _ => ['[', ']']
  | .arr (v :: vs), ind =>
      '[' :: '\n' :: stringifyItemsI (v :: vs) (ind + 2) ++ '\n' :: spacesN ind ++ [']']
  | .obj [], _ => ['{', '}']
  | .obj (m :: ms), ind =>
      '{' :: '\n' :: stringifyMembersI (m :: ms) (ind + 2) ++ '\n' :: spacesN ind ++ ['}']

/-- Indented serialization of array items, one per line. -/
def stringifyItemsI : List JsonValue → Nat → List Char
  | [], _ => []
  | [v], ind => spacesN ind ++ stringifyI v ind
  | v :: w :: vs, ind =>
      spacesN ind ++ stringifyI v ind ++ ',' :: '\n' :: stringifyItemsI (w :: vs) ind

/-- Indented serialization of object members, one per line. -/
def stringifyMembersI : List (List Char × JsonValue) → Nat → List Char
  | [], _ => []
  | [(k, v)], ind => spacesN ind ++ quoteStr k ++ ':' :: ' ' :: stringifyI v ind
  | (k, v) :: m :: ms, ind =>
      spacesN ind ++ quoteStr k ++ ':' :: ' ' :: stringifyI v ind ++
        ',' :: '\n' :: stringifyMembersI (m :: ms) ind

end

/-- Numeric value of a hexadecimal digit. -/
def hexVal (c : Char) : Option Nat :=
  if '0' ≤ c ∧ c ≤ '9' then some (c.toNat - 48)
  else if 'a' ≤ c ∧ c ≤ 'f' then some (c.toNat - 87)
  else if 'A' ≤ c ∧ c ≤ 'F' then some (c.toNat - 55)
  else none

/-- The decoded character of a single-character escape, if the character is
a legal one. -/
def escCode (e : Char) : Option Char :=
  if e = '"' then some '"'
  else if e = '\\' then some '\\'
  else if e = '/' then some '/'
  else if e = 'b' then some (Char.ofNat 8)
  else if e = 'f' then some (Char.ofNat 12)
  else if e = 'n' then some '\n'
  else if e = 'r' then some '\r'
  else if e = 't' then some '\t'
  else none

/-- Parse the body of a JSON string literal (the part after the opening
quote); returns the decoded characters and the input after the closing
quote.  Mirrors the string grammar accepted by `JSON.parse`. -/
def parseStrBody : List Char → Option (List Char × List Char)
  | [] => none
  | c :: r =>
    if c = '"' then some ([], r)
    else if c = '\\' then
      match r with
      | [] => none
      | e :: r' =>
        if e = 'u' then
          match r' with
          | h1 :: h2 :: h3 :: h4 :: r'' =>
            match hexVal h1, hexVal h2, hexVal h3, hexVal h4 with
            | some a, some b, some g, some d =>
              (parseStrBody r'').map
                (fun p => (Char.ofNat (((a * 16 + b) * 16 + g) * 16 + d) :: p.1, p.2))
            | _, _, _, _ => none
          | _ => none
        else
          match escCode e with
          | some dec => (parseStrBody r').map (fun p => (dec :: p.1, p.2))
          | none => none
    else if c.toNat < 32 then none
    else (parseStrBody r).map (fun p => (c :: p.1, p.2))

/-- Characters that may appear in a number token. -/
def numChar (c : Char) : Bool :=
  c.isDigit || c = '-' || c = '+' || c = '.' || c = 'e' || c = 'E'

/-- Consume one or more digits. -/
def vDigits1 : List Char → Option (List Char)
  | c :: r => if c.isDigit then some (r.dropWhile Char.isDigit) else none
  | [] => none

/-- Consume the integer part of a JSON number (`0`, or nonzero digit then
digits). -/
def vInt : List Char → Option (List Char)
  | c :: r =>
    if c = '0' then some r
    else if c.isDigit then some (r.dropWhile Char.isDigit) else none
  | [] => none

/-- Consume an optional fraction part. -/
def vFrac : List Char → Option (List Char)
  | c :: r => if c = '.' then vDigits1 r else some (c :: r)
  | [] => some []

/-- Consume an optional exponent part. -/
def vExp : List Char → Option (List Char)
  | c :: r =>
    if c = 'e' || c = 'E' then
      match r with
      | [] => none
      | d :: r' => if d = '+' || d = '-' then vDigits1 r' else vDigits1 (d :: r')
    else some (c :: r)
  | [] => some []

/-- Whether a token is a syntactically valid JSON number literal. -/
def validNumber (s : List Char) : Bool :=
  let s1 := match s with
    | [] => ([] : List Char)
    | c :: r => if c = '-' then r else c :: r
  match vInt s1 with
  | none => false
  | some r1 =>
    match vFrac r1 with
    | none => false
    | some r2 =>
      match vExp r2 with
      | none => false
      | some r3 => r3.isEmpty

/-- Insert a member into an object, overwriting the value of an existing key
in place (JavaScript object-property assignment: last value wins, first
position kept). -/
def objInsert (ms : List (List Char × JsonValue)) (k : List Char) (v : JsonValue) :
    List (List Char × JsonValue) :=
  match ms with
  | [] => [(k, v)]
  | (k', v') :: t => if k' = k then (k, v) :: t else (k', v') :: objInsert t k v

/-- Drop leading JSON whitespace. -/
def dropWs (s : List Char) : List Char := s.dropWhile isWsChar

/-- The leading JSON whitespace of a string. -/
def takeWs (s : List Char) : List Char := s.takeWhile isWsChar

mutual

/-- Fueled recursive-descent JSON value parser (the model of `JSON.parse`,
up to the final end-of-input check done by `parseJson`).  Returns the value
and the remaining input. -/
def parseVal : Nat → List Char → Option (JsonValue × List Char)
  | 0, _ => none
  | f + 1, s =>
    match dropWs s with
    | [] => none
    | c :: r =>
      if c = 'n' then
        match r with
        | 'u' :: 'l' :: 'l' :: r' => some (.null, r')
        | _ => none
      else if c = 't' then
        match r with
        | 'r' :: 'u' :: 'e' :: r' => some (.bool true, r')
        | _ => none
      else if c = 'f' then
        match r with
        | 'a' :: 'l' :: 's' :: 'e' :: r' => some (.bool false, r')
        | _ => none
      else if c = '"' then (parseStrBody r).map (fun p => (.str p.1, p.2))
      else if c = '{' then
        match dropWs r with
        | [] => none
        | c' :: r' =>
          if c' = '}' then some (.obj [], r')
          else
            match parseMember f (c' :: r') with
            | some (k, v, r₁) => parseMembersTail f (objInsert [] k v) r₁
            | none => none
      else if c = '[' then
        match dropWs r with
        | [] => none
        | c' :: r' =>
          if c' = ']' then some (.arr [], r')
          else
            match parseVal f (c' :: r') with
            | some (v, r₁) => parseElemsTail f [v] r₁
            | none => none
      else if c.isDigit || c = '-' then
        let tok := (c :: r).takeWhile numChar
        if validNumber tok then some (.num tok, (c :: r).dropWhile numChar) else none
      else none

/-- Parse one `"key": value` object member. -/
def parseMember : Nat → List Char → Option (List Char × JsonValue × List Char)
  | 0, _ => none
  | f + 1, s =>
    match dropWs s with
    | [] => none
    | c :: r =>
      if c = '"' then
        match parseStrBody r with
        | some (k, r₁) =>
          match dropWs r₁ with
          | [] => none
          | c' :: r₂ =>
            if c' = ':' then
              match parseVal f r₂ with
              | some (v, r₃) => some (k, v, r₃)
              | none => none
            else none
        | none => none
      else none

/-- Parse the remaining members of an object after the first one. -/
def parseMembersTail : Nat → List (List Char × JsonValue) → List Char →
    Option (JsonValue × List Char)
  | 0, _, _ => none
  | f + 1, acc, s =>
    match dropWs s with
    | [] => none
    | c :: r =>
      if c = ',' then
        match parseMember f r with
        | some (k, v, r₁) => parseMembersTail f (objInsert acc k v) r₁
        | none => none
      else if c = '}' then some (.obj acc, r)
      else none

/-- Parse the remaining elements of an array after the first one. -/
def parseElemsTail : Nat → List JsonValue → List Char → Option (JsonValue × List Char)
  | 0, _, _ => none
  | f + 1, acc, s =>
    match dropWs s with
    | [] => none
    | c :: r =>
      if c = ',' then
        match parseVal f r with
        | some (v, r₁) => parseElemsTail f (acc ++ [v]) r₁
        | none => none
      else if c = ']' then some (.arr acc, r)
      else none

end

/-- The model of `JSON.parse`: parse a complete document, requiring only
trailing whitespace after the value. -/
def parseJson (s : List Char) : Option JsonValue :=
  match parseVal (s.length + 1) s with
  | some (v, r) => if (dropWs r).isEmpty then some v else none
  | none => none

/-- Whether an object member list already binds a key. -/
def hasKey (ms : List (List Char × JsonValue)) (k : List Char) : Bool :=
  ms.any (fun m => m.1 = k)

mutual

/-- Well-formedness of an in-memory JSON value: number tokens are valid
number literals and object keys are distinct (both hold of every value
`JSON.parse` can produce). -/
def wfV : JsonValue → Bool
  | .null => true
  | .bool _ => true
  | .num t => validNumber t
  | .str _ => true
  | .arr vs => wfArr vs
  | .obj ms => wfObj ms

/-- Well-formedness of a list of array elements. -/
def wfArr : List JsonValue → Bool
  | [] => true
  | v :: vs => wfV v && wfArr vs

/-- Well-formedness of an object member list. -/
def wfObj : List (List Char × JsonValue) → Bool
  | [] => true
  | (k, v) :: ms => wfV v && !hasKey ms k && wfObj ms

end

/-- Skip the raw text of a string literal body up to and including the
closing quote (escape pairs are skipped blindly); returns the consumed raw
characters and the rest. -/
def skipStr : List Char → Option (List Char × List Char)
  | [] => none
  | c :: r =>
    if c = '"' then some (['"'], r)
    else if c = '\\' then
      match r with
      | [] => none
      | e :: r' => (skipStr r').map (fun p => (c :: e :: p.1, p.2))
    else (skipStr r).map (fun p => (c :: p.1, p.2))

/-- Bracket-depth scanner used to skip a container value: consumes until the
bracket depth returns to zero, tracking string literals and escapes.  The
flags are (in-string, after-backslash). -/
def scanDepth : Nat → Bool → Bool → List Char → Option (List Char × List Char)
  | _, _, _, [] => none
  | d, true, true, c :: s => (scanDepth d true false s).map (fun p => (c :: p.1, p.2))
  | d, true, false, c :: s =>
    if c = '\\' then (scanDepth d true true s).map (fun p => (c :: p.1, p.2))
    else if c = '"' then (scanDepth d false false s).map (fun p => (c :: p.1, p.2))
    else (scanDepth d true false s).map (fun p => (c :: p.1, p.2))
  | d, false, _, c :: s =>
    if c = '"' then (scanDepth d true false s).map (fun p => (c :: p.1, p.2))
    else if c = '{' || c = '[' then (scanDepth (d + 1) false false s).map (fun p => (c :: p.1, p.2))
    else if c = '}' || c = ']' then
      if d = 1 then some ([c], s) else (scanDepth (d - 1) false false s).map (fun p => (c :: p.1, p.2))
    else (scanDepth d false false s).map (fun p => (c :: p.1, p.2))

/-- Skip one JSON value token starting at the head of the input (no leading
whitespace): a string, a bracketed container, a number token, or a keyword
token.  Returns the consumed span and the rest. -/
def skipValue : List Char → Option (List Char × List Char)
  | [] => none
  | c :: r =>
    if c = '"' then (skipStr r).map (fun p => (c :: p.1, p.2))
    else if c = '{' || c = '[' then (scanDepth 1 false false r).map (fun p => (c :: p.1, p.2))
    else if c.isDigit || c = '-' then
      some ((c :: r).takeWhile numChar, (c :: r).dropWhile numChar)
    else if c.isAlpha then
      some ((c :: r).takeWhile Char.isAlpha, (c :: r).dropWhile Char.isAlpha)
    else none

/-- Whether a value span may legally end here: end of input, whitespace, or
closing/separator punctuation. -/
def delimOk : List Char → Bool
  | [] => true
  | c :: _ => isWsChar c || c = ',' || c = '}' || c = ']'

/-- A path segment: an object key or an array index (`NodeData["path"]`
elements are strings or numbers). -/
inductive Seg where
  | key : List Char → Seg
  | idx : Nat → Seg
deriving DecidableEq

/-- Modelled from the spec: skip forward over the first `i` array elements
(value, optional whitespace, comma); returns the consumed text and the rest,
positioned at the start of element `i`'s surrounding whitespace.  Fails when
the array ends before element `i`. -/
def elemSkip : Nat → List Char → Option (List Char × List Char)
  | 0, s => some ([], s)
  | i + 1, s =>
    let w := takeWs s
    match skipValue (dropWs s) with
    | some (t₀, s₁) =>
      let w₁ := takeWs s₁
      match dropWs s₁ with
      | [] => none
      | c :: s₂ =>
        if c = ',' then (elemSkip i s₂).map (fun q => (w ++ t₀ ++ w₁ ++ c :: q.1, q.2))
        else none
    | none => none

mutual

/-- Modelled from the spec: the replacement mode of the PathResolver of
jsonc-parser's `modify` (the external library call in `applyEditToJson`).
Walks the path against the document text and returns the decomposition
`(before, target, after)` of the text around the value currently at the
path.  A path whose node does not exist fails here; the node-absent
insertion mode of spec 4.1 is modelled separately by `resolveIns`. -/
def resolve : Nat → List Char → List Seg → Option (List Char × List Char × List Char)
  | 0, _, _ => none
  | f + 1, s, p =>
    let w := takeWs s
    let s' := dropWs s
    match p with
    | [] =>
      match skipValue s' with
      | some (t, a) => if delimOk a then some (w, t, a) else none
      | none => none
    | .key k :: ps =>
      match s' with
      | [] => none
      | c :: s₁ =>
        if c = '{' then (membLoop f k ps s₁).map (fun q => (w ++ c :: q.1, q.2.1, q.2.2))
        else none
    | .idx i :: ps =>
      match s' with
      | [] => none
      | c :: s₁ =>
        if c = '[' then
          match elemSkip i s₁ with
          | some (pre, rest) =>
            (resolve f rest ps).map (fun q => (w ++ c :: pre ++ q.1, q.2.1, q.2.2))
          | none => none
        else none

/-- Modelled from the spec: scan the members of an object for key `k`,
descending into its value with the remaining path on a match. -/
def membLoop : Nat → List Char → List Seg → List Char → Option (List Char × List Char × List Char)
  | 0, _, _, _ => none
  | g + 1, k, ps, s =>
    let w := takeWs s
    match dropWs s with
    | [] => none
    | c :: s₁ =>
      if c = '"' then
        match parseStrBody s₁ with
        | some (key, s₂) =>
          let rawkey := s₁.take (s₁.length - s₂.length)
          let w₂ := takeWs s₂
          match dropWs s₂ with
          | [] => none
          | c₂ :: s₄ =>
            if c₂ = ':' then
              if key = k then
                (resolve g s₄ ps).map
                  (fun q => (w ++ c :: rawkey ++ w₂ ++ c₂ :: q.1, q.2.1, q.2.2))
              else
                let wv := takeWs s₄
                match skipValue (dropWs s₄) with
                | some (t₀, s₅) =>
                  let w₃ := takeWs s₅
                  match dropWs s₅ with
                  | [] => none
                  | c₃ :: s₇ =>
                    if c₃ = ',' then
                      (membLoop g k ps s₇).map
                        (fun q =>
                          (w ++ c :: rawkey ++ w₂ ++ c₂ :: wv ++ t₀ ++ w₃ ++ c₃ :: q.1,
                            q.2.1, q.2.2))
                    else none
                | none => none
            else none
        | none => none
      else none

end

/-- Modelled from the spec (4.1 node-absent case): walk the elements of a
nonempty array interior looking for index `i`; when the array ends before
element `i` (the index is beyond the current length), return the split just
after the last element's value, where the new element is appended.  Fails
when element `i` exists (replacement territory) or the text is malformed. -/
def elemsIns : Nat → List Char → Option (List Char × List Char)
  | 0, _ => none
  | i + 1, s =>
    let w := takeWs s
    match skipValue (dropWs s) with
    | none => none
    | some (t₀, s₅) =>
      let w₁ := takeWs s₅
      match dropWs s₅ with
      | [] => none
      | c :: s₇ =>
        if c = ',' then (elemsIns i s₇).map (fun q => (w ++ t₀ ++ w₁ ++ c :: q.1, q.2))
        else if c = ']' then some (w ++ t₀, s₅)
        else none

/-- Modelled from the spec (4.1 node-absent case): scan the members of an
object interior for key `k`; when the closing brace is reached without
finding it, return the insertion split and the inserted member text — right
after the opening brace for an empty object, and after the last member's
value (with a leading comma) otherwise.  Fails when key `k` already
exists. -/
def membIns : Nat → List Char → JsonValue → List Char →
    Option (List Char × List Char × List Char)
  | 0, _, _, _ => none
  | g + 1, k, nv, s =>
    let w := takeWs s
    match dropWs s with
    | [] => none
    | c :: s₁ =>
      if c = '}' then some ([], quoteStr k ++ ':' :: ' ' :: serializeCompact nv, s)
      else if c = '"' then
        match parseStrBody s₁ with
        | some (key, s₂) =>
          if key = k then none
          else
            let rawkey := s₁.take (s₁.length - s₂.length)
            let w₂ := takeWs s₂
            match dropWs s₂ with
            | [] => none
            | c₂ :: s₄ =>
              if c₂ = ':' then
                let wv := takeWs s₄
                match skipValue (dropWs s₄) with
                | some (t₀, s₅) =>
                  let w₃ := takeWs s₅
                  match dropWs s₅ with
                  | [] => none
                  | c₃ :: s₇ =>
                    if c₃ = ',' then
                      (membIns g k nv s₇).map
                        (fun q =>
                          (w ++ c :: rawkey ++ w₂ ++ c₂ :: wv ++ t₀ ++ w₃ ++ c₃ :: q.1,
                            q.2.1, q.2.2))
                    else if c₃ = '}' then
                      some (w ++ c :: rawkey ++ w₂ ++ c₂ :: wv ++ t₀,
                        ',' :: (quoteStr k ++ ':' :: ' ' :: serializeCompact nv), s₅)
                    else none
                | none => none
              else none
        | none => none
      else none

mutual

/-- Modelled from the spec (2, 4.1): the insertion mode of jsonc-parser's
`modify`, consulted when the replacement resolver fails.  Navigates every
segment but the last exactly like `resolve`; at the last segment it inserts
a new member when the parent container exists and the key is missing or the
index is beyond the current array length, returning
`(before, insertedText, after)` with `before ++ after` the whole document.
A missing parent (spec 7 AddressError) still fails. -/
def resolveIns : Nat → List Char → List Seg → JsonValue →
    Option (List Char × List Char × List Char)
  | 0, _, _, _ => none
  | f + 1, s, p, nv =>
    let w := takeWs s
    let s' := dropWs s
    match p with
    | [] => none
    | .key k :: ps =>
      match s' with
      | [] => none
      | c :: s₁ =>
        if c = '{' then
          match ps with
          | [] => (membIns f k nv s₁).map (fun q => (w ++ c :: q.1, q.2.1, q.2.2))
          | _ :: _ => (membLoopI f k ps nv s₁).map (fun q => (w ++ c :: q.1, q.2.1, q.2.2))
        else none
    | .idx i :: ps =>
      match s' with
      | [] => none
      | c :: s₁ =>
        if c = '[' then
          match ps with
          | [] =>
            match dropWs s₁ with
            | [] => none
            | c₁ :: _ =>
              if c₁ = ']' then some (w ++ [c], serializeCompact nv, s₁)
              else
                (elemsIns i s₁).map
                  (fun q => (w ++ c :: q.1, ',' :: serializeCompact nv, q.2))
          | _ :: _ =>
            match elemSkip i s₁ with
            | some (pre, rest) =>
              (resolveIns f rest ps nv).map (fun q => (w ++ c :: pre ++ q.1, q.2.1, q.2.2))
            | none => none
        else none

/-- Modelled from the spec: scan an object's members for an intermediate
path key, descending into its value with the remaining path (insertion
mode). -/
def membLoopI : Nat → List Char → List Seg → JsonValue → List Char →
    Option (List Char × List Char × List Char)
  | 0, _, _, _, _ => none
  | g + 1, k, ps, nv, s =>
    let w := takeWs s
    match dropWs s with
    | [] => none
    | c :: s₁ =>
      if c = '"' then
        match parseStrBody s₁ with
        | some (key, s₂) =>
          let rawkey := s₁.take (s₁.length - s₂.length)
          let w₂ := takeWs s₂
          match dropWs s₂ with
          | [] => none
          | c₂ :: s₄ =>
            if c₂ = ':' then
              if key = k then
                (resolveIns g s₄ ps nv).map
                  (fun q => (w ++ c :: rawkey ++ w₂ ++ c₂ :: q.1, q.2.1, q.2.2))
              else
                let wv := takeWs s₄
                match skipValue (dropWs s₄) with
                | some (t₀, s₅) =>
                  let w₃ := takeWs s₅
                  match dropWs s₅ with
                  | [] => none
                  | c₃ :: s₇ =>
                    if c₃ = ',' then
                      (membLoopI g k ps nv s₇).map
                        (fun q =>
                          (w ++ c :: rawkey ++ w₂ ++ c₂ :: wv ++ t₀ ++ w₃ ++ c₃ :: q.1,
                            q.2.1, q.2.2))
                    else none
                | none => none
            else none
        | none => none
      else none

end

/-- One textual splice instruction, as produced by jsonc-parser's `modify`. -/
structure Edit where
  offset : Nat
  length : Nat
  content : List Char
deriving DecidableEq

/-- `result.slice(0, e.offset) + e.content + result.slice(e.offset + e.length)`. -/
def spliceOne (r : List Char) (e : Edit) : List Char :=
  r.take e.offset ++ e.content ++ r.drop (e.offset + e.length)

/-- The edit-application loop of `applyEditToJson` (lines 84-94): copy the
edit list, reverse it, and splice each edit in turn. -/
def applyEdits (s : List Char) (edits : List Edit) : List Char :=
  edits.reverse.foldl spliceOne s

/-- `resolve` at its natural fuel. -/
def resolveTop (s : List Char) (p : List Seg) : Option (List Char × List Char × List Char) :=
  resolve (s.length + 1) s p

/-- `resolveIns` at its natural fuel. -/
def resolveInsTop (s : List Char) (p : List Seg) (nv : JsonValue) :
    Option (List Char × List Char × List Char) :=
  resolveIns (s.length + 1) s p nv

/-- Modelled from the spec: jsonc-parser's `modify(originalJson, nodePath,
newVal, {formattingOptions})`.  When the node exists it returns one edit
descriptor spanning the existing value's text range whose content is the
serialized new value; when the node is absent but its parent container
exists it returns one zero-length insertion descriptor carrying the new
member text (spec 4.1; the exact insertion formatting is an implementation
choice per spec 9); otherwise it throws (modelled as `none`). -/
def jsoncModify (s : List Char) (p : List Seg) (nv : JsonValue) : Option (List Edit) :=
  match resolveTop s p with
  | some q => some [⟨q.1.length, q.2.1.length, serializeCompact nv⟩]
  | none =>
    match resolveInsTop s p nv with
    | some q => some [⟨q.1.length, 0, q.2.1⟩]
    | none => none

/-- The value-coercion in the root-replacement branch (lines 58-64):
`JSON.parse(newValueRaw ?? "null")`, and on a parse error
`String(newValueRaw ?? "")`. -/
def coerceRoot (raw : Option (List Char)) : JsonValue :=
  match parseJson (match raw with | some r => r | none => nullTok) with
  | some v => v
  | none => .str (match raw with | some r => r | none => [])

/-- The value-coercion in the path-replacement branch (lines 73-78): the
same two-tier rule, written separately in the source. -/
def coercePath (raw : Option (List Char)) : JsonValue :=
  match parseJson (match raw with | some r => r | none => nullTok) with
  | some v => v
  | none => .str (match raw with | some r => r | none => [])

/-- `path.map(p => (typeof p === "number" ? p : String(p)))`. -/
def mapSeg : Seg → Seg
  | .idx n => .idx n
  | .key k => .key k

/-- The body of the outer `try` of `applyEditToJson`; an exception escaping
it is `Except.error`. -/
def applyEditBody (originalJson : List Char) (path : Option (List Seg))
    (newValueRaw : Option (List Char)) : Except Unit (List Char) :=
  match path with
  | some (seg :: segs) =>
    let nodePath := (seg :: segs).map mapSeg
    let newVal := coercePath newValueRaw
    match jsoncModify originalJson nodePath newVal with
    | some edits => .ok (applyEdits originalJson edits)
    | none => .error ()
  | _ =>
    match parseJson originalJson with
    | none => .error ()
    | some _ => .ok (stringifyI (coerceRoot newValueRaw) 0)

/-- `applyEditToJson(originalJson, path, newValueRaw)`: the whole operation,
with the outer `catch` returning the original document. -/
def applyEditToJson (originalJson : List Char) (path : Option (List Seg))
    (newValueRaw : Option (List Char)) : List Char :=
  match applyEditBody originalJson path newValueRaw with
  | .ok r => r
  | .error _ => originalJson

/-- Modelled from the spec: the scalar payload of one row of
`NodeData["text"]` (the `types/graph` module is not part of the provided
source); rows carry leaf values, and container-typed rows are dropped by
`normalizeNodeData` without reading their value. -/
inductive RowVal where
  | rstr : List Char → RowVal
  | rnum : List Char → RowVal
  | rbool : Bool → RowVal
  | rnull : RowVal
deriving DecidableEq

/-- Modelled from the spec: one row of `NodeData["text"]`: an optional key,
a value, and a type tag such as `"string"`, `"number"`, `"array"`,
`"object"`. -/
structure Row where
  key : Option (List Char)
  value : RowVal
  type : List Char
deriving DecidableEq

/-- A row value as a JSON value (what `obj[row.key] = row.value` stores). -/
def rowValToJson : RowVal → JsonValue
  | .rstr s => .str s
  | .rnum t => .num t
  | .rbool b => .bool b
  | .rnull => .null

/-- JavaScript string conversion of a row value (template literal
`${nodeRows[0].value}`). -/
def jsToStr : RowVal → List Char
  | .rstr s => s
  | .rnum t => t
  | .rbool true => trueTok
  | .rbool false => falseTok
  | .rnull => nullTok

/-- JavaScript truthiness of `row.key` (absent or empty keys are falsy). -/
def keyTruthy : Option (List Char) → Bool
  | none => false
  | some s => !s.isEmpty

/-- `row.type !== "array" && row.type !== "object"`. -/
def rowScalar (r : Row) : Bool :=
  !(r.type == "array".data) && !(r.type == "object".data)

/-- The object accumulated by the `forEach` loop of `normalizeNodeData`. -/
def buildObj (rows : List Row) : List (List Char × JsonValue) :=
  rows.foldl
    (fun acc r =>
      if rowScalar r && keyTruthy r.key then objInsert acc (r.key.getD []) (rowValToJson r.value)
      else acc)
    []

/-- `normalizeNodeData(nodeRows)` (lines 20-31). -/
def normalizeNodeData (nodeRows : Option (List Row)) : List Char :=
  match nodeRows with
  | none => ['{', '}']
  | some [] => ['{', '}']
  | some (r :: rs) =>
    if rs.isEmpty && !keyTruthy r.key then jsToStr r.value
    else stringifyI (.obj (buildObj (r :: rs))) 0

/-- `typeof seg === "number" ? seg : `"${seg}"`` rendered to text. -/
def renderSeg : Seg → List Char
  | .idx n => (Nat.repr n).data
  | .key s => '"' :: s ++ ['"']

/-- `jsonPathToString(path)` (lines 34-38). -/
def jsonPathToString (path : Option (List Seg)) : List Char :=
  match path with
  | none => ['$']
  | some [] => ['$']
  | some (g :: gs) =>
    '$' :: '[' :: List.intercalate [']', '['] ((g :: gs).map renderSeg) ++ [']']

/-- Descending comparison on edit offsets (the sort key of the spec's
PatchApplier). -/
def editGE (d e : Edit) : Prop := e.offset ≤ d.offset

instance : DecidableRel editGE := fun d e => Nat.decLe e.offset d.offset

instance : IsTotal Edit editGE := ⟨fun d e => Nat.le_total e.offset d.offset⟩

instance : IsTrans Edit editGE := ⟨fun _ _ _ h1 h2 => Nat.le_trans h2 h1⟩

/-- Modelled from the spec: the PatchApplier algorithm of §4.3 — sort the
descriptors by offset descending, then apply each by string-splicing. -/
def applyEditsSortedDesc (s : List Char) (edits : List Edit) : List Char :=
  (List.insertionSort editGE edits).foldl spliceOne s

/-- Two edit descriptors are valid together when their spans do not overlap
and they start at distinct offsets. -/
def editSep (d e : Edit) : Prop :=
  (d.offset + d.length ≤ e.offset ∨ e.offset + e.length ≤ d.offset) ∧ d.offset ≠ e.offset

instance (d e : Edit) : Decidable (editSep d e) := by unfold editSep; infer_instance

/-- Ascending, non-overlapping order of a descriptor list (the order in
which jsonc-parser emits edits). -/
def ascNonOverlap (l : List Edit) : Prop :=
  l.Pairwise (fun d e => d.offset + d.length ≤ e.offset ∧ d.offset < e.offset)

/-- The text of the remaining members of an indented object serialization,
from just after a member's value to the closing brace. -/
def membersTailText : List (List Char × JsonValue) → Nat → Nat → List Char
  | [], _, io => '\n' :: spacesN io ++ ['}']
  | (k, v) :: ms, ii, io =>
      ',' :: '\n' :: spacesN ii ++ quoteStr k ++ ':' :: ' ' :: stringifyI v ii ++
        membersTailText ms ii io

/-- The text of the remaining elements of an indented array serialization,
from just after an element to the closing bracket. -/
def elemsTailText : List JsonValue → Nat → Nat → List Char
  | [], _, io => '\n' :: spacesN io ++ [']']
  | v :: vs, ii, io =>
      ',' :: '\n' :: spacesN ii ++ stringifyI v ii ++ elemsTailText vs ii io

mutual

/-- Size measure of a JSON value, for strong induction. -/
def jsize : JsonValue → Nat
  | .null => 1
  | .bool _ => 1
  | .num _ => 1
  | .str _ => 1
  | .arr vs => jsizeA vs + 1
  | .obj ms => jsizeO ms + 1

/-- Size measure of an element list. -/
def jsizeA : List JsonValue → Nat
  | [] => 0
  | v :: vs => jsize v + jsizeA vs + 1

/-- Size measure of a member list. -/
def jsizeO : List (List Char × JsonValue) → Nat
  | [] => 0
  | (_, v) :: ms => jsize v + jsizeO ms + 1

end

/-! ### Whitespace splitting lemmas -/

theorem allWs_takeWs (s : List Char) : ∀ c ∈ takeWs s, isWsChar c = true := by
  intro c hc
  exact List.mem_takeWhile_imp hc

theorem takeWs_dropWs (s : List Char) : takeWs s ++ dropWs s = s :=
  List.takeWhile_append_dropWhile ..

theorem takeWs_append_of {w : List Char} (h : Char) (r : List Char)
    (hw : ∀ c ∈ w, isWsChar c = true) (hh : isWsChar h = false) :
    takeWs (w ++ h :: r) = w := by
  induction w with
  | nil => simp [takeWs, List.takeWhile, hh]
  | cons c w ih =>
    have hc : isWsChar c = true := hw c (by simp)
    simp only [List.cons_append, takeWs, List.takeWhile, hc]
    have := ih (fun c hc => hw c (by simp [hc]))
    simpa [takeWs] using this

theorem dropWs_append_of {w : List Char} (h : Char) (r : List Char)
    (hw : ∀ c ∈ w, isWsChar c = true) (hh : isWsChar h = false) :
    dropWs (w ++ h :: r) = h :: r := by
  induction w with
  | nil => simp [dropWs, List.dropWhile, hh]
  | cons c w ih =>
    have hc : isWsChar c = true := hw c (by simp)
    simp only [List.cons_append, dropWs, List.dropWhile, hc]
    exact ih (fun c hc => hw c (by simp [hc]))

theorem dropWs_head_not_ws {s : List Char} {c : Char} {r : List Char}
    (h : dropWs s = c :: r) : isWsChar c = false := by
  induction s with
  | nil => simp [dropWs, List.dropWhile] at h
  | cons x s ih =>
    by_cases hx : isWsChar x
    · simp [dropWs, List.dropWhile, hx] at h
      exact ih h
    · simp [dropWs, List.dropWhile, hx] at h
      obtain ⟨h1, _⟩ := h
      subst h1
      simpa using hx

/-! ### Branch unfolding lemmas for the raw scanners -/

theorem skipStr_nil : skipStr [] = none := rfl

theorem skipStr_quote (s : List Char) : skipStr ('"' :: s) = some (['"'], s) := by
  conv_lhs => rw [skipStr.eq_def]
  simp

theorem skipStr_esc (e : Char) (s : List Char) :
    skipStr ('\\' :: e :: s) = (skipStr s).map (fun p => ('\\' :: e :: p.1, p.2)) := by
  conv_lhs => rw [skipStr.eq_def]
  simp

theorem skipStr_esc_nil : skipStr ['\\'] = none := by
  conv_lhs => rw [skipStr.eq_def]
  simp

theorem skipStr_other {c : Char} (h1 : c ≠ '"') (h2 : c ≠ '\\') (s : List Char) :
    skipStr (c :: s) = (skipStr s).map (fun p => (c :: p.1, p.2)) := by
  conv_lhs => rw [skipStr.eq_def]
  simp [h1, h2]

theorem scanDepth_nil (d : Nat) (i e : Bool) : scanDepth d i e [] = none := by
  cases i <;> cases e <;> rfl

theorem scanDepth_esc (d : Nat) (c : Char) (s : List Char) :
    scanDepth d true true (c :: s) = (scanDepth d true false s).map (fun p => (c :: p.1, p.2)) := by
  conv_lhs => rw [scanDepth.eq_def]

theorem scanDepth_str_bs (d : Nat) (s : List Char) :
    scanDepth d true false ('\\' :: s) =
      (scanDepth d true true s).map (fun p => ('\\' :: p.1, p.2)) := by
  conv_lhs => rw [scanDepth.eq_def]
  simp

theorem scanDepth_str_quote (d : Nat) (s : List Char) :
    scanDepth d true false ('"' :: s) =
      (scanDepth d false false s).map (fun p => ('"' :: p.1, p.2)) := by
  conv_lhs => rw [scanDepth.eq_def]
  simp

theorem scanDepth_str_other {c : Char} (h1 : c ≠ '\\') (h2 : c ≠ '"') (d : Nat) (s : List Char) :
    scanDepth d true false (c :: s) =
      (scanDepth d true false s).map (fun p => (c :: p.1, p.2)) := by
  conv_lhs => rw [scanDepth.eq_def]
  simp [h1, h2]

theorem scanDepth_out_quote (d : Nat) (e : Bool) (s : List Char) :
    scanDepth d false e ('"' :: s) =
      (scanDepth d true false s).map (fun p => ('"' :: p.1, p.2)) := by
  cases e <;>
  · conv_lhs => rw [scanDepth.eq_def]
    simp

theorem scanDepth_out_open {c : Char} (h1 : c ≠ '"') (h2 : c = '{' ∨ c = '[')
    (d : Nat) (e : Bool) (s : List Char) :
    scanDepth d false e (c :: s) =
      (scanDepth (d + 1) false false s).map (fun p => (c :: p.1, p.2)) := by
  cases e <;>
  · conv_lhs => rw [scanDepth.eq_def]
    rcases h2 with h | h <;> simp [h1, h]

theorem scanDepth_out_close_hit {c : Char} (h1 : c ≠ '"') (h2a : c ≠ '{') (h2b : c ≠ '[')
    (h3 : c = '}' ∨ c = ']') (e : Bool) (s : List Char) :
    scanDepth 1 false e (c :: s) = some ([c], s) := by
  cases e <;>
  · conv_lhs => rw [scanDepth.eq_def]
    rcases h3 with h | h <;> simp [h1, h2a, h2b, h]

theorem scanDepth_out_close_go {c : Char} (h1 : c ≠ '"') (h2a : c ≠ '{') (h2b : c ≠ '[')
    (h3 : c = '}' ∨ c = ']') (d : Nat) (e : Bool) (s : List Char) (hd : d ≠ 1) :
    scanDepth d false e (c :: s) =
      (scanDepth (d - 1) false false s).map (fun p => (c :: p.1, p.2)) := by
  cases e <;>
  · conv_lhs => rw [scanDepth.eq_def]
    rcases h3 with h | h <;> simp [h1, h2a, h2b, h, hd]

theorem scanDepth_out_other {c : Char} (h1 : c ≠ '"') (h2a : c ≠ '{') (h2b : c ≠ '[')
    (h3a : c ≠ '}') (h3b : c ≠ ']') (d : Nat) (e : Bool) (s : List Char) :
    scanDepth d false e (c :: s) =
      (scanDepth d false false s).map (fun p => (c :: p.1, p.2)) := by
  cases e <;>
  · conv_lhs => rw [scanDepth.eq_def]
    simp [h1, h2a, h2b, h3a, h3b]

/-! ### Generic takeWhile/dropWhile splitting -/

theorem takeWhile_all_append {p : Char → Bool} {w : List Char} (hw : ∀ c ∈ w, p c = true)
    {h : Char} (hh : p h = false) (r : List Char) : (w ++ h :: r).takeWhile p = w := by
  induction w with
  | nil => simp [List.takeWhile, hh]
  | cons c w ih =>
    have hc : p c = true := hw c (by simp)
    simp only [List.cons_append, List.takeWhile, hc]
    simp [ih (fun c hc => hw c (by simp [hc]))]

theorem dropWhile_all_append {p : Char → Bool} {w : List Char} (hw : ∀ c ∈ w, p c = true)
    {h : Char} (hh : p h = false) (r : List Char) : (w ++ h :: r).dropWhile p = h :: r := by
  induction w with
  | nil => simp [List.dropWhile, hh]
  | cons c w ih =>
    have hc : p c = true := hw c (by simp)
    simp only [List.cons_append, List.dropWhile, hc]
    exact ih (fun c hc => hw c (by simp [hc]))

theorem dropWhile_head_false {p : Char → Bool} {s : List Char} {c : Char} {r : List Char}
    (h : s.dropWhile p = c :: r) : p c = false := by
  induction s with
  | nil => simp [List.dropWhile] at h
  | cons x s ih =>
    by_cases hx : p x
    · simp [List.dropWhile, hx] at h
      exact ih h
    · simp [List.dropWhile, hx] at h
      obtain ⟨h1, _⟩ := h
      subst h1
      simpa using hx

theorem takeWhile_all (p : Char → Bool) (s : List Char) :
    ∀ c ∈ s.takeWhile p, p c = true := fun _ hc => List.mem_takeWhile_imp hc

/-! ### Prefix determinism of the raw scanners -/

/-- A scanner step that consumes a fixed prefix and then defers to another
scanner preserves prefix determinism. -/
theorem prefixDet_step (G F : List Char → Option (List Char × List Char)) (pre : List Char)
    (hFG : ∀ x, F (pre ++ x) = (G x).map (fun p => (pre ++ p.1, p.2)))
    (s : List Char)
    (ih : ∀ t r, G s = some (t, r) → s = t ++ r ∧ ∀ r', G (t ++ r') = some (t, r')) :
    ∀ t r, F (pre ++ s) = some (t, r) → pre ++ s = t ++ r ∧ ∀ r', F (t ++ r') = some (t, r') := by
  intro t r h
  rw [hFG s] at h
  cases hk : G s with
  | none => rw [hk] at h; cases h
  | some p =>
    obtain ⟨t', r''⟩ := p
    rw [hk] at h
    simp only [Option.map_some'] at h
    injection h with h'
    rw [Prod.ext_iff] at h'
    obtain ⟨h1, h2⟩ := h'
    simp only at h1 h2
    obtain ⟨hdec, hext⟩ := ih t' r'' hk
    subst hdec
    rw [← h1, ← h2]
    refine ⟨by simp, fun r' => ?_⟩
    rw [List.append_assoc, hFG, hext r']
    simp

theorem skipStr_spec : ∀ (s t r : List Char), skipStr s = some (t, r) →
    s = t ++ r ∧ ∀ r', skipStr (t ++ r') = some (t, r')
  | [], t, r => by rw [skipStr_nil]; intro h; cases h
  | c :: s, t, r => by
    by_cases h1 : c = '"'
    · subst h1
      rw [skipStr_quote]
      intro h
      injection h with h'
      rw [Prod.ext_iff] at h'
      obtain ⟨hq1, hq2⟩ := h'
      simp only at hq1 hq2
      subst hq1; subst hq2
      exact ⟨rfl, fun r' => skipStr_quote r'⟩
    · by_cases h2 : c = '\\'
      · subst h2
        cases s with
        | nil => rw [skipStr_esc_nil]; intro h; cases h
        | cons e s' =>
          exact prefixDet_step skipStr skipStr ['\\', e]
            (fun x => skipStr_esc e x) s' (fun t r => skipStr_spec s' t r) t r
      · exact prefixDet_step skipStr skipStr [c]
          (fun x => skipStr_other h1 h2 x) s (fun t r => skipStr_spec s t r) t r

theorem scanDepth_spec : ∀ (s : List Char) (d : Nat) (i e : Bool) (t r : List Char),
    scanDepth d i e s = some (t, r) →
    s = t ++ r ∧ ∀ r', scanDepth d i e (t ++ r') = some (t, r')
  | [], d, i, e, t, r => by rw [scanDepth_nil]; intro h; cases h
  | c :: s, d, true, true, t, r => by
    exact prefixDet_step (scanDepth d true false) (scanDepth d true true) [c]
      (fun x => scanDepth_esc d c x) s (fun t r => scanDepth_spec s d true false t r) t r
  | c :: s, d, true, false, t, r => by
    by_cases h1 : c = '\\'
    · subst h1
      exact prefixDet_step (scanDepth d true true) (scanDepth d true false) ['\\']
        (fun x => scanDepth_str_bs d x) s (fun t r => scanDepth_spec s d true true t r) t r
    · by_cases h2 : c = '"'
      · subst h2
        exact prefixDet_step (scanDepth d false false) (scanDepth d true false) ['"']
          (fun x => scanDepth_str_quote d x) s (fun t r => scanDepth_spec s d false false t r) t r
      · exact prefixDet_step (scanDepth d true false) (scanDepth d true false) [c]
          (fun x => scanDepth_str_other h1 h2 d x) s
          (fun t r => scanDepth_spec s d true false t r) t r
  | c :: s, d, false, e, t, r => by
    by_cases h1 : c = '"'
    · subst h1
      exact prefixDet_step (scanDepth d true false) (scanDepth d false e) ['"']
        (fun x => scanDepth_out_quote d e x) s (fun t r => scanDepth_spec s d true false t r) t r
    · by_cases h2 : c = '{' ∨ c = '['
      · exact prefixDet_step (scanDepth (d + 1) false false) (scanDepth d false e) [c]
          (fun x => scanDepth_out_open h1 h2 d e x) s
          (fun t r => scanDepth_spec s (d + 1) false false t r) t r
      · have h2a : c ≠ '{' := fun h => h2 (Or.inl h)
        have h2b : c ≠ '[' := fun h => h2 (Or.inr h)
        by_cases h3 : c = '}' ∨ c = ']'
        · by_cases h4 : d = 1
          · subst h4
            rw [scanDepth_out_close_hit h1 h2a h2b h3 e]
            intro h
            injection h with h'
            rw [Prod.ext_iff] at h'
            obtain ⟨hq1, hq2⟩ := h'
            simp only at hq1 hq2
            subst hq1; subst hq2
            exact ⟨rfl, fun r' => scanDepth_out_close_hit h1 h2a h2b h3 e r'⟩
          · exact prefixDet_step (scanDepth (d - 1) false false) (scanDepth d false e) [c]
              (fun x => scanDepth_out_close_go h1 h2a h2b h3 d e x h4) s
              (fun t r => scanDepth_spec s (d - 1) false false t r) t r
        · have h3a : c ≠ '}' := fun h => h3 (Or.inl h)
          have h3b : c ≠ ']' := fun h => h3 (Or.inr h)
          exact prefixDet_step (scanDepth d false false) (scanDepth d false e) [c]
            (fun x => scanDepth_out_other h1 h2a h2b h3a h3b d e x) s
            (fun t r => scanDepth_spec s d false false t r) t r

/-! ### Branch unfolding and prefix determinism for `parseStrBody` -/

theorem psb_nil : parseStrBody [] = none := rfl

theorem psb_quote (s : List Char) : parseStrBody ('"' :: s) = some ([], s) := by
  conv_lhs => rw [parseStrBody.eq_def]
  simp

theorem psb_bs_nil : parseStrBody ['\\'] = none := by
  conv_lhs => rw [parseStrBody.eq_def]
  simp

theorem psb_esc_code {e : Char} {dec : Char} (he : e ≠ 'u') (hc : escCode e = some dec)
    (s : List Char) :
    parseStrBody ('\\' :: e :: s) = (parseStrBody s).map (fun p => (dec :: p.1, p.2)) := by
  conv_lhs => rw [parseStrBody.eq_def]
  simp [he, hc]

theorem psb_esc_bad {e : Char} (he : e ≠ 'u') (hc : escCode e = none) (s : List Char) :
    parseStrBody ('\\' :: e :: s) = none := by
  conv_lhs => rw [parseStrBody.eq_def]
  simp [he, hc]

theorem psb_u0 : parseStrBody ['\\', 'u'] = none := by
  conv_lhs => rw [parseStrBody.eq_def]
  simp

theorem psb_u1 (h1 : Char) : parseStrBody ['\\', 'u', h1] = none := by
  conv_lhs => rw [parseStrBody.eq_def]
  simp

theorem psb_u2 (h1 h2 : Char) : parseStrBody ['\\', 'u', h1, h2] = none := by
  conv_lhs => rw [parseStrBody.eq_def]
  simp

theorem psb_u3 (h1 h2 h3 : Char) : parseStrBody ['\\', 'u', h1, h2, h3] = none := by
  conv_lhs => rw [parseStrBody.eq_def]
  simp

theorem psb_u_ok {h1 h2 h3 h4 : Char} {a b g d : Nat}
    (e1 : hexVal h1 = some a) (e2 : hexVal h2 = some b) (e3 : hexVal h3 = some g)
    (e4 : hexVal h4 = some d) (s : List Char) :
    parseStrBody ('\\' :: 'u' :: h1 :: h2 :: h3 :: h4 :: s) =
      (parseStrBody s).map
        (fun p => (Char.ofNat (((a * 16 + b) * 16 + g) * 16 + d) :: p.1, p.2)) := by
  conv_lhs => rw [parseStrBody.eq_def]
  simp [e1, e2, e3, e4]

theorem psb_u_fail {h1 h2 h3 h4 : Char}
    (hfail : hexVal h1 = none ∨ hexVal h2 = none ∨ hexVal h3 = none ∨ hexVal h4 = none)
    (s : List Char) :
    parseStrBody ('\\' :: 'u' :: h1 :: h2 :: h3 :: h4 :: s) = none := by
  conv_lhs => rw [parseStrBody.eq_def]
  cases e1 : hexVal h1 <;> cases e2 : hexVal h2 <;> cases e3 : hexVal h3 <;>
    cases e4 : hexVal h4 <;> simp_all

theorem psb_ctrl {c : Char} (hq : c ≠ '"') (hb : c ≠ '\\') (hc : c.toNat < 32)
    (s : List Char) : parseStrBody (c :: s) = none := by
  conv_lhs => rw [parseStrBody.eq_def]
  simp [hq, hb, hc]

theorem psb_other {c : Char} (hq : c ≠ '"') (hb : c ≠ '\\') (hc : ¬c.toNat < 32)
    (s : List Char) :
    parseStrBody (c :: s) = (parseStrBody s).map (fun p => (c :: p.1, p.2)) := by
  conv_lhs => rw [parseStrBody.eq_def]
  simp [hq, hb, hc]

/-- Like `prefixDet_step`, for the decoding scanner: the consumed raw prefix
and the decoded character may differ. -/
theorem psbDet_step (pre : List Char) (d : Char)
    (hstep : ∀ x, parseStrBody (pre ++ x) = (parseStrBody x).map (fun p => (d :: p.1, p.2)))
    (s : List Char)
    (ih : ∀ k r, parseStrBody s = some (k, r) →
      ∃ raw, s = raw ++ r ∧ ∀ r', parseStrBody (raw ++ r') = some (k, r')) :
    ∀ k r, parseStrBody (pre ++ s) = some (k, r) →
      ∃ raw, pre ++ s = raw ++ r ∧ ∀ r', parseStrBody (raw ++ r') = some (k, r') := by
  intro k r h
  rw [hstep s] at h
  cases hk : parseStrBody s with
  | none => rw [hk] at h; cases h
  | some p =>
    obtain ⟨k', r''⟩ := p
    rw [hk] at h
    simp only [Option.map_some'] at h
    injection h with h'
    rw [Prod.ext_iff] at h'
    obtain ⟨hk1, hk2⟩ := h'
    simp only at hk1 hk2
    obtain ⟨raw, hdec, hext⟩ := ih k' r'' hk
    subst hdec
    subst hk1; subst hk2
    refine ⟨pre ++ raw, by simp, fun r' => ?_⟩
    rw [List.append_assoc, hstep, hext r']
    simp

theorem parseStrBody_spec : ∀ (s k r : List Char), parseStrBody s = some (k, r) →
    ∃ raw, s = raw ++ r ∧ ∀ r', parseStrBody (raw ++ r') = some (k, r')
  | [], k, r => by rw [psb_nil]; intro h; cases h
  | c :: s, k, r => by
    by_cases h1 : c = '"'
    · subst h1
      rw [psb_quote]
      intro h
      injection h with h'
      rw [Prod.ext_iff] at h'
      obtain ⟨hq1, hq2⟩ := h'
      simp only at hq1 hq2
      subst hq1; subst hq2
      exact ⟨['"'], rfl, fun r' => psb_quote r'⟩
    · by_cases h2 : c = '\\'
      · subst h2
        cases s with
        | nil => rw [psb_bs_nil]; intro h; cases h
        | cons e s' =>
          by_cases hu : e = 'u'
          · subst hu
            match s' with
            | [] => rw [psb_u0]; intro h; cases h
            | [x1] => rw [psb_u1]; intro h; cases h
            | [x1, x2] => rw [psb_u2]; intro h; cases h
            | [x1, x2, x3] => rw [psb_u3]; intro h; cases h
            | x1 :: x2 :: x3 :: x4 :: s'' =>
              cases e1 : hexVal x1 with
              | none => rw [psb_u_fail (Or.inl e1)]; intro h; cases h
              | some a =>
                cases e2 : hexVal x2 with
                | none => rw [psb_u_fail (Or.inr (Or.inl e2))]; intro h; cases h
                | some b =>
                  cases e3 : hexVal x3 with
                  | none => rw [psb_u_fail (Or.inr (Or.inr (Or.inl e3)))]; intro h; cases h
                  | some g =>
                    cases e4 : hexVal x4 with
                    | none => rw [psb_u_fail (Or.inr (Or.inr (Or.inr e4)))]; intro h; cases h
                    | some d =>
                      exact psbDet_step ['\\', 'u', x1, x2, x3, x4] _
                        (fun x => psb_u_ok e1 e2 e3 e4 x) s''
                        (fun k r => parseStrBody_spec s'' k r) k r
          · cases hc : escCode e with
            | none => rw [psb_esc_bad hu hc]; intro h; cases h
            | some dec =>
              exact psbDet_step ['\\', e] dec (fun x => psb_esc_code hu hc x) s'
                (fun k r => parseStrBody_spec s' k r) k r
      · by_cases hc : c.toNat < 32
        · rw [psb_ctrl h1 h2 hc]; intro h; cases h
        · exact psbDet_step [c] c (fun x => psb_other h1 h2 hc x) s
            (fun k r => parseStrBody_spec s k r) k r

/-! ### Branch unfolding for `skipValue` and its determinism -/

theorem skipValue_nil : skipValue [] = none := rfl

theorem skipValue_quote (r : List Char) :
    skipValue ('"' :: r) = (skipStr r).map (fun p => ('"' :: p.1, p.2)) := by
  conv_lhs => rw [skipValue.eq_def]
  simp

theorem skipValue_open {c : Char} (hq : c ≠ '"') (h : c = '{' ∨ c = '[') (r : List Char) :
    skipValue (c :: r) = (scanDepth 1 false false r).map (fun p => (c :: p.1, p.2)) := by
  conv_lhs => rw [skipValue.eq_def]
  rcases h with h | h <;> simp [hq, h]

theorem skipValue_num {c : Char} (hq : c ≠ '"') (h2a : c ≠ '{') (h2b : c ≠ '[')
    (hnum : (c.isDigit || c = '-') = true) (r : List Char) :
    skipValue (c :: r) = some ((c :: r).takeWhile numChar, (c :: r).dropWhile numChar) := by
  conv_lhs => rw [skipValue.eq_def]
  simp [hq, h2a, h2b, hnum]

theorem skipValue_alpha {c : Char} (hq : c ≠ '"') (h2a : c ≠ '{') (h2b : c ≠ '[')
    (hnum : (c.isDigit || c = '-') = false) (hal : c.isAlpha = true) (r : List Char) :
    skipValue (c :: r) =
      some ((c :: r).takeWhile Char.isAlpha, (c :: r).dropWhile Char.isAlpha) := by
  conv_lhs => rw [skipValue.eq_def]
  simp [hq, h2a, h2b, hnum, hal]

theorem skipValue_bad {c : Char} (hq : c ≠ '"') (h2a : c ≠ '{') (h2b : c ≠ '[')
    (hnum : (c.isDigit || c = '-') = false) (hal : c.isAlpha = false) (r : List Char) :
    skipValue (c :: r) = none := by
  conv_lhs => rw [skipValue.eq_def]
  simp [hq, h2a, h2b, hnum, hal]

theorem skipValue_decomp {s t r : List Char} (h : skipValue s = some (t, r)) : s = t ++ r := by
  cases s with
  | nil => rw [skipValue_nil] at h; cases h
  | cons c s =>
    by_cases h1 : c = '"'
    · subst h1
      rw [skipValue_quote] at h
      cases hk : skipStr s with
      | none => rw [hk] at h; cases h
      | some p =>
        obtain ⟨t', r'⟩ := p
        rw [hk] at h
        simp only [Option.map_some'] at h
        injection h with h'
        rw [Prod.ext_iff] at h'
        obtain ⟨hq1, hq2⟩ := h'
        simp only at hq1 hq2
        subst hq2
        rw [← hq1, (skipStr_spec s t' r' hk).1]
        simp
    · by_cases h2 : c = '{' ∨ c = '['
      · rw [skipValue_open h1 h2] at h
        cases hk : scanDepth 1 false false s with
        | none => rw [hk] at h; cases h
        | some p =>
          obtain ⟨t', r'⟩ := p
          rw [hk] at h
          simp only [Option.map_some'] at h
          injection h with h'
          rw [Prod.ext_iff] at h'
          obtain ⟨hq1, hq2⟩ := h'
          simp only at hq1 hq2
          subst hq2
          rw [← hq1, (scanDepth_spec s 1 false false t' r' hk).1]
          simp
      · have h2a : c ≠ '{' := fun h => h2 (Or.inl h)
        have h2b : c ≠ '[' := fun h => h2 (Or.inr h)
        by_cases h3 : (c.isDigit || c = '-') = true
        · rw [skipValue_num h1 h2a h2b h3] at h
          injection h with h'
          rw [Prod.ext_iff] at h'
          obtain ⟨hq1, hq2⟩ := h'
          simp only at hq1 hq2
          rw [← hq1, ← hq2, List.takeWhile_append_dropWhile]
        · by_cases h4 : c.isAlpha = true
          · rw [skipValue_alpha h1 h2a h2b (by simpa using h3) h4] at h
            injection h with h'
            rw [Prod.ext_iff] at h'
            obtain ⟨hq1, hq2⟩ := h'
            simp only at hq1 hq2
            rw [← hq1, ← hq2, List.takeWhile_append_dropWhile]
          · rw [skipValue_bad h1 h2a h2b (by simpa using h3) (by simpa using h4)] at h
            cases h

/-- A successful `skipValue` whose rest is nonempty extends to any other rest
with the same head character. -/
theorem skipValue_extend {s t : List Char} {h : Char} {rr : List Char}
    (hs : skipValue s = some (t, h :: rr)) :
    ∀ rr', skipValue (t ++ h :: rr') = some (t, h :: rr') := by
  intro rr'
  cases s with
  | nil => rw [skipValue_nil] at hs; cases hs
  | cons c s =>
    by_cases h1 : c = '"'
    · subst h1
      rw [skipValue_quote] at hs
      cases hk : skipStr s with
      | none => rw [hk] at hs; cases hs
      | some p =>
        obtain ⟨t', r'⟩ := p
        rw [hk] at hs
        simp only [Option.map_some'] at hs
        injection hs with hs'
        rw [Prod.ext_iff] at hs'
        obtain ⟨hq1, hq2⟩ := hs'
        simp only at hq1 hq2
        subst hq2
        have hext := (skipStr_spec s t' (h :: rr) hk).2 (h :: rr')
        rw [← hq1]
        simp only [List.cons_append]
        rw [skipValue_quote, hext]
        simp
    · by_cases h2 : c = '{' ∨ c = '['
      · rw [skipValue_open h1 h2] at hs
        cases hk : scanDepth 1 false false s with
        | none => rw [hk] at hs; cases hs
        | some p =>
          obtain ⟨t', r'⟩ := p
          rw [hk] at hs
          simp only [Option.map_some'] at hs
          injection hs with hs'
          rw [Prod.ext_iff] at hs'
          obtain ⟨hq1, hq2⟩ := hs'
          simp only at hq1 hq2
          subst hq2
          have hext := (scanDepth_spec s 1 false false t' (h :: rr) hk).2 (h :: rr')
          rw [← hq1]
          simp only [List.cons_append]
          rw [skipValue_open h1 h2, hext]
          simp
      · have h2a : c ≠ '{' := fun hx => h2 (Or.inl hx)
        have h2b : c ≠ '[' := fun hx => h2 (Or.inr hx)
        by_cases h3 : (c.isDigit || c = '-') = true
        · rw [skipValue_num h1 h2a h2b h3] at hs
          injection hs with hs'
          rw [Prod.ext_iff] at hs'
          obtain ⟨hq1, hq2⟩ := hs'
          simp only at hq1 hq2
          have hhd : numChar h = false := dropWhile_head_false hq2
          have hall : ∀ x ∈ t, numChar x = true := by
            rw [← hq1]; exact takeWhile_all _ _
          have hnumc : numChar c = true := by
            rcases Bool.or_eq_true_iff.mp h3 with hd | hd
            · simp [numChar, hd]
            · simp [numChar, hd]
          have hthead : t = c :: t.tail := by
            rw [← hq1, List.takeWhile_cons_of_pos hnumc]
            simp
          rw [hthead]
          simp only [List.cons_append]
          rw [skipValue_num h1 h2a h2b h3]
          have htail_all : ∀ x ∈ t.tail ++ h :: rr', x ∈ t.tail ∨ x = h ∨ x ∈ rr' := by
            intro x hx
            rcases List.mem_append.mp hx with hx | hx
            · exact Or.inl hx
            · rcases List.mem_cons.mp hx with hx | hx
              · exact Or.inr (Or.inl hx)
              · exact Or.inr (Or.inr hx)
          have htw : (c :: (t.tail ++ h :: rr')).takeWhile numChar = c :: t.tail := by
            rw [List.takeWhile_cons_of_pos hnumc]
            congr 1
            exact takeWhile_all_append
              (fun x hx => hall x (by rw [hthead]; exact List.mem_cons_of_mem _ hx)) hhd rr'
          have hdw : (c :: (t.tail ++ h :: rr')).dropWhile numChar = h :: rr' := by
            rw [List.dropWhile_cons_of_pos hnumc]
            exact dropWhile_all_append
              (fun x hx => hall x (by rw [hthead]; exact List.mem_cons_of_mem _ hx)) hhd rr'
          rw [htw, hdw, ← hthead]
        · by_cases h4 : c.isAlpha = true
          · rw [skipValue_alpha h1 h2a h2b (by simpa using h3) h4] at hs
            injection hs with hs'
            rw [Prod.ext_iff] at hs'
            obtain ⟨hq1, hq2⟩ := hs'
            simp only at hq1 hq2
            have hhd : Char.isAlpha h = false := dropWhile_head_false hq2
            have hall : ∀ x ∈ t, Char.isAlpha x = true := by
              rw [← hq1]; exact takeWhile_all _ _
            have hthead : t = c :: t.tail := by
              rw [← hq1, List.takeWhile_cons_of_pos h4]
              simp
            rw [hthead]
            simp only [List.cons_append]
            rw [skipValue_alpha h1 h2a h2b (by simpa using h3) h4]
            have htw : (c :: (t.tail ++ h :: rr')).takeWhile Char.isAlpha = c :: t.tail := by
              rw [List.takeWhile_cons_of_pos h4]
              congr 1
              exact takeWhile_all_append
                (fun x hx => hall x (by rw [hthead]; exact List.mem_cons_of_mem _ hx)) hhd rr'
            have hdw : (c :: (t.tail ++ h :: rr')).dropWhile Char.isAlpha = h :: rr' := by
              rw [List.dropWhile_cons_of_pos h4]
              exact dropWhile_all_append
                (fun x hx => hall x (by rw [hthead]; exact List.mem_cons_of_mem _ hx)) hhd rr'
            rw [htw, hdw, ← hthead]
          · rw [skipValue_bad h1 h2a h2b (by simpa using h3) (by simpa using h4)] at hs
            cases hs

/-! ### Soundness of the resolver: a successful resolution decomposes the
input text -/

theorem elemSkip_sound : ∀ (i : Nat) (s pre rest : List Char),
    elemSkip i s = some (pre, rest) → s = pre ++ rest
  | 0, s, pre, rest => by
    intro h
    simp only [elemSkip] at h
    injection h with h'
    rw [Prod.ext_iff] at h'
    obtain ⟨hq1, hq2⟩ := h'
    simp only at hq1 hq2
    rw [← hq1, ← hq2]
    simp
  | i + 1, s, pre, rest => by
    intro h
    simp only [elemSkip] at h
    cases hsv : skipValue (dropWs s) with
    | none => rw [hsv] at h; cases h
    | some p =>
      obtain ⟨t₀, s₁⟩ := p
      rw [hsv] at h
      simp only at h
      cases hds : dropWs s₁ with
      | nil => rw [hds] at h; cases h
      | cons c s₂ =>
        rw [hds] at h
        simp only at h
        by_cases hc : c = ','
        · rw [if_pos hc] at h
          cases hes : elemSkip i s₂ with
          | none => rw [hes] at h; cases h
          | some q =>
            obtain ⟨q1, q2⟩ := q
            rw [hes] at h
            simp only [Option.map_some'] at h
            injection h with h'
            rw [Prod.ext_iff] at h'
            obtain ⟨hq1, hq2⟩ := h'
            simp only at hq1 hq2
            have ih := elemSkip_sound i s₂ q1 q2 hes
            rw [← hq1, ← hq2]
            calc s = takeWs s ++ dropWs s := (takeWs_dropWs s).symm
              _ = takeWs s ++ (t₀ ++ s₁) := by rw [skipValue_decomp hsv]
              _ = takeWs s ++ (t₀ ++ (takeWs s₁ ++ dropWs s₁)) := by rw [takeWs_dropWs]
              _ = takeWs s ++ (t₀ ++ (takeWs s₁ ++ (c :: s₂))) := by rw [hds]
              _ = takeWs s ++ (t₀ ++ (takeWs s₁ ++ (c :: (q1 ++ q2)))) := by rw [← ih]
              _ = takeWs s ++ t₀ ++ takeWs s₁ ++ c :: q1 ++ q2 := by simp
        · rw [if_neg hc] at h
          cases h

/-- The raw key text consumed by a member scan. -/
theorem rawkey_eq (raw s₂ : List Char) :
    (raw ++ s₂).take ((raw ++ s₂).length - s₂.length) = raw := by
  have hlen : (raw ++ s₂).length - s₂.length = raw.length := by simp
  rw [hlen]
  exact List.take_left raw s₂

theorem resolve_membLoop_sound : ∀ f : Nat,
    (∀ s p b t a, resolve f s p = some (b, t, a) → s = b ++ t ++ a) ∧
    (∀ k ps s b t a, membLoop f k ps s = some (b, t, a) → s = b ++ t ++ a) := by
  intro f
  induction f with
  | zero =>
    constructor
    · intro s p b t a h; simp [resolve] at h
    · intro k ps s b t a h; simp [membLoop] at h
  | succ f ih =>
    obtain ⟨ihr, ihm⟩ := ih
    constructor
    · intro s p b t a h
      cases p with
      | nil =>
        simp only [resolve] at h
        cases hsv : skipValue (dropWs s) with
        | none => rw [hsv] at h; cases h
        | some p0 =>
          obtain ⟨t₀, a₀⟩ := p0
          rw [hsv] at h
          simp only at h
          by_cases hd : delimOk a₀
          · rw [if_pos hd] at h
            simp only [Option.some.injEq, Prod.mk.injEq] at h
            obtain ⟨hb, ht, ha⟩ := h
            subst hb; subst ht; subst ha
            calc s = takeWs s ++ dropWs s := (takeWs_dropWs s).symm
              _ = takeWs s ++ (t₀ ++ a₀) := by rw [skipValue_decomp hsv]
              _ = takeWs s ++ t₀ ++ a₀ := by simp
          · rw [if_neg hd] at h; cases h
      | cons seg ps =>
        cases seg with
        | key k =>
          simp only [resolve] at h
          cases hds : dropWs s with
          | nil => rw [hds] at h; cases h
          | cons c s₁ =>
            rw [hds] at h
            simp only at h
            by_cases hc : c = '{'
            · rw [if_pos hc] at h
              cases hm : membLoop f k ps s₁ with
              | none => rw [hm] at h; cases h
              | some q =>
                obtain ⟨q1, q2, q3⟩ := q
                rw [hm] at h
                simp only [Option.map_some', Option.some.injEq, Prod.mk.injEq] at h
                obtain ⟨hb, ht, ha⟩ := h
                subst hb; subst ht; subst ha
                have ih1 := ihm k ps s₁ q1 q2 q3 hm
                calc s = takeWs s ++ dropWs s := (takeWs_dropWs s).symm
                  _ = takeWs s ++ (c :: s₁) := by rw [hds]
                  _ = takeWs s ++ (c :: (q1 ++ q2 ++ q3)) := by rw [← ih1]
                  _ = (takeWs s ++ c :: q1) ++ q2 ++ q3 := by simp
            · rw [if_neg hc] at h; cases h
        | idx i =>
          simp only [resolve] at h
          cases hds : dropWs s with
          | nil => rw [hds] at h; cases h
          | cons c s₁ =>
            rw [hds] at h
            simp only at h
            by_cases hc : c = '['
            · rw [if_pos hc] at h
              cases hes : elemSkip i s₁ with
              | none => rw [hes] at h; cases h
              | some pr =>
                obtain ⟨pre, rest⟩ := pr
                rw [hes] at h
                simp only at h
                cases hr : resolve f rest ps with
                | none => rw [hr] at h; cases h
                | some q =>
                  obtain ⟨q1, q2, q3⟩ := q
                  rw [hr] at h
                  simp only [Option.map_some', Option.some.injEq, Prod.mk.injEq] at h
                  obtain ⟨hb, ht, ha⟩ := h
                  subst hb; subst ht; subst ha
                  have ih1 := ihr rest ps q1 q2 q3 hr
                  have ih2 := elemSkip_sound i s₁ pre rest hes
                  calc s = takeWs s ++ dropWs s := (takeWs_dropWs s).symm
                    _ = takeWs s ++ (c :: s₁) := by rw [hds]
                    _ = takeWs s ++ (c :: (pre ++ rest)) := by rw [← ih2]
                    _ = takeWs s ++ (c :: (pre ++ (q1 ++ q2 ++ q3))) := by rw [← ih1]
                    _ = (takeWs s ++ c :: pre ++ q1) ++ q2 ++ q3 := by simp
            · rw [if_neg hc] at h; cases h
    · intro k ps s b t a h
      simp only [membLoop] at h
      cases hds : dropWs s with
      | nil => rw [hds] at h; cases h
      | cons c s₁ =>
        rw [hds] at h
        simp only at h
        by_cases hc : c = '"'
        · rw [if_pos hc] at h
          cases hp : parseStrBody s₁ with
          | none => rw [hp] at h; cases h
          | some pk =>
            obtain ⟨key, s₂⟩ := pk
            rw [hp] at h
            simp only at h
            cases hds2 : dropWs s₂ with
            | nil => rw [hds2] at h; cases h
            | cons c₂ s₄ =>
              rw [hds2] at h
              simp only at h
              by_cases hc2 : c₂ = ':'
              · rw [if_pos hc2] at h
                obtain ⟨raw, hraw, _⟩ := parseStrBody_spec s₁ key s₂ hp
                by_cases hkey : key = k
                · rw [if_pos hkey] at h
                  cases hr : resolve f s₄ ps with
                  | none => rw [hr] at h; cases h
                  | some q =>
                    obtain ⟨q1, q2, q3⟩ := q
                    rw [hr] at h
                    simp only [Option.map_some', Option.some.injEq, Prod.mk.injEq] at h
                    obtain ⟨hb, ht, ha⟩ := h
                    subst hb; subst ht; subst ha
                    have ih1 := ihr s₄ ps q1 q2 q3 hr
                    calc s = takeWs s ++ dropWs s := (takeWs_dropWs s).symm
                      _ = takeWs s ++ (c :: s₁) := by rw [hds]
                      _ = takeWs s ++ (c :: (raw ++ s₂)) := by rw [← hraw]
                      _ = takeWs s ++ (c :: (raw ++ (takeWs s₂ ++ dropWs s₂))) := by
                          rw [takeWs_dropWs]
                      _ = takeWs s ++ (c :: (raw ++ (takeWs s₂ ++ (c₂ :: s₄)))) := by rw [hds2]
                      _ = takeWs s ++ (c :: (raw ++ (takeWs s₂ ++ (c₂ :: (q1 ++ q2 ++ q3))))) := by
                          rw [← ih1]
                      _ = (takeWs s ++ c :: (s₁.take (s₁.length - s₂.length)) ++ takeWs s₂ ++
                            c₂ :: q1) ++ q2 ++ q3 := by
                          rw [hraw, rawkey_eq]
                          simp
                · rw [if_neg hkey] at h
                  cases hsv : skipValue (dropWs s₄) with
                  | none => rw [hsv] at h; cases h
                  | some pv =>
                    obtain ⟨t₀, s₅⟩ := pv
                    rw [hsv] at h
                    simp only at h
                    cases hds5 : dropWs s₅ with
                    | nil => rw [hds5] at h; cases h
                    | cons c₃ s₇ =>
                      rw [hds5] at h
                      simp only at h
                      by_cases hc3 : c₃ = ','
                      · rw [if_pos hc3] at h
                        cases hm : membLoop f k ps s₇ with
                        | none => rw [hm] at h; cases h
                        | some q =>
                          obtain ⟨q1, q2, q3⟩ := q
                          rw [hm] at h
                          simp only [Option.map_some', Option.some.injEq, Prod.mk.injEq] at h
                          obtain ⟨hb, ht, ha⟩ := h
                          subst hb; subst ht; subst ha
                          have ih1 := ihm k ps s₇ q1 q2 q3 hm
                          calc s = takeWs s ++ dropWs s := (takeWs_dropWs s).symm
                            _ = takeWs s ++ (c :: s₁) := by rw [hds]
                            _ = takeWs s ++ (c :: (raw ++ s₂)) := by rw [← hraw]
                            _ = takeWs s ++ (c :: (raw ++ (takeWs s₂ ++ dropWs s₂))) := by
                                rw [takeWs_dropWs]
                            _ = takeWs s ++ (c :: (raw ++ (takeWs s₂ ++ (c₂ :: s₄)))) := by
                                rw [hds2]
                            _ = takeWs s ++ (c :: (raw ++ (takeWs s₂ ++
                                  (c₂ :: (takeWs s₄ ++ dropWs s₄))))) := by rw [takeWs_dropWs]
                            _ = takeWs s ++ (c :: (raw ++ (takeWs s₂ ++
                                  (c₂ :: (takeWs s₄ ++ (t₀ ++ s₅)))))) := by
                                rw [skipValue_decomp hsv]
                            _ = takeWs s ++ (c :: (raw ++ (takeWs s₂ ++
                                  (c₂ :: (takeWs s₄ ++ (t₀ ++ (takeWs s₅ ++ dropWs s₅))))))) := by
                                rw [takeWs_dropWs]
                            _ = takeWs s ++ (c :: (raw ++ (takeWs s₂ ++
                                  (c₂ :: (takeWs s₄ ++ (t₀ ++ (takeWs s₅ ++
                                    (c₃ :: s₇)))))))) := by rw [hds5]
                            _ = takeWs s ++ (c :: (raw ++ (takeWs s₂ ++
                                  (c₂ :: (takeWs s₄ ++ (t₀ ++ (takeWs s₅ ++
                                    (c₃ :: (q1 ++ q2 ++ q3))))))))) := by rw [← ih1]
                            _ = (takeWs s ++ c :: (s₁.take (s₁.length - s₂.length)) ++ takeWs s₂ ++
                                  c₂ :: takeWs s₄ ++ t₀ ++ takeWs s₅ ++ c₃ :: q1) ++ q2 ++ q3 := by
                                rw [hraw, rawkey_eq]
                                simp
                      · rw [if_neg hc3] at h; cases h
              · rw [if_neg hc2] at h; cases h
        · rw [if_neg hc] at h; cases h

/-- Soundness of `resolve` at its natural fuel. -/
theorem resolveTop_sound {s : List Char} {p : List Seg} {b t a : List Char}
    (h : resolveTop s p = some (b, t, a)) : s = b ++ t ++ a :=
  (resolve_membLoop_sound (s.length + 1)).1 s p b t a h

/-! ### Splicing lemmas and the path-mode formula -/

theorem applyEdits_single (s : List Char) (e : Edit) : applyEdits s [e] = spliceOne s e := rfl

theorem spliceOne_decomp (b t a c : List Char) :
    spliceOne (b ++ t ++ a) ⟨b.length, t.length, c⟩ = b ++ c ++ a := by
  unfold spliceOne
  simp only []
  have h1 : (b ++ t ++ a).take b.length = b := by
    rw [List.append_assoc]
    exact List.take_left b (t ++ a)
  have h2 : (b ++ t ++ a).drop (b.length + t.length) = a := by
    have : b.length + t.length = (b ++ t).length := by simp
    rw [this]
    exact List.drop_left (b ++ t) a
  rw [h1, h2]

theorem mapSeg_id (g : Seg) : mapSeg g = g := by cases g <;> rfl

theorem mapSeg_map (l : List Seg) : l.map mapSeg = l := by
  induction l with
  | nil => rfl
  | cons g gs ih => simp [mapSeg_id, ih]

/-- Path-replacement mode: when the resolver finds the target span, the
result is the document with the span replaced by the compact serialization
of the coerced new value. -/
theorem applyEdit_path_formula {d : List Char} {seg : Seg} {segs : List Seg}
    {v : Option (List Char)} {b t a : List Char}
    (h : resolveTop d (seg :: segs) = some (b, t, a)) :
    applyEditToJson d (some (seg :: segs)) v = b ++ serializeCompact (coercePath v) ++ a := by
  unfold applyEditToJson applyEditBody
  simp only [mapSeg_map]
  unfold jsoncModify
  rw [h]
  simp only []
  rw [applyEdits_single]
  have hd : d = b ++ t ++ a := resolveTop_sound h
  rw [hd, spliceOne_decomp]

/-- Path mode applies the single insertion edit when the node is absent but
its parent exists. -/
theorem applyEdit_path_insert {d : List Char} {seg : Seg} {segs : List Seg}
    {v : Option (List Char)} {b c a : List Char}
    (h : resolveTop d (seg :: segs) = none)
    (hi : resolveInsTop d (seg :: segs) (coercePath v) = some (b, c, a)) :
    applyEditToJson d (some (seg :: segs)) v = applyEdits d [⟨b.length, 0, c⟩] := by
  unfold applyEditToJson applyEditBody
  simp only [mapSeg_map]
  unfold jsoncModify
  rw [h]
  simp only []
  rw [hi]

/-- Path mode falls back to the unchanged document when both the
replacement resolver and the insertion resolver fail. -/
theorem applyEdit_path_fallback {d : List Char} {seg : Seg} {segs : List Seg}
    {v : Option (List Char)}
    (h : resolveTop d (seg :: segs) = none)
    (hi : resolveInsTop d (seg :: segs) (coercePath v) = none) :
    applyEditToJson d (some (seg :: segs)) v = d := by
  unfold applyEditToJson applyEditBody
  simp only [mapSeg_map]
  unfold jsoncModify
  rw [h]
  simp only []
  rw [hi]

/-! ### Sorting machinery for the PatchApplier claims -/

theorem perm_strictSorted_eq : ∀ (l₁ l₂ : List Edit), l₁.Perm l₂ →
    l₁.Pairwise (fun d e => e.offset < d.offset) →
    l₂.Pairwise (fun d e => e.offset < d.offset) → l₁ = l₂
  | [], l₂, hp, _, _ => (hp.symm.eq_nil).symm ▸ rfl
  | a :: t₁, l₂, hp, h₁, h₂ => by
    cases l₂ with
    | nil => exact absurd hp.eq_nil (by simp)
    | cons b t₂ =>
      have hab : a = b := by
        by_contra hne
        have ha2 : a ∈ b :: t₂ := hp.mem_iff.mp (List.mem_cons_self a t₁)
        have ha3 : a ∈ t₂ := by
          rcases List.mem_cons.mp ha2 with h | h
          · exact absurd h hne
          · exact h
        have hb2 : b ∈ a :: t₁ := hp.symm.mem_iff.mp (List.mem_cons_self b t₂)
        have hb3 : b ∈ t₁ := by
          rcases List.mem_cons.mp hb2 with h | h
          · exact absurd h.symm hne
          · exact h
        have lt1 : b.offset < a.offset := List.rel_of_pairwise_cons h₁ hb3
        have lt2 : a.offset < b.offset := List.rel_of_pairwise_cons h₂ ha3
        omega
      subst hab
      have hp' : t₁.Perm t₂ := hp.cons_inv
      rw [perm_strictSorted_eq t₁ t₂ hp' h₁.of_cons h₂.of_cons]

/-- The offsets of a pairwise-separated list are pairwise distinct, and the
relation is symmetric, so it transfers over permutations. -/
theorem editSep_symm {d e : Edit} (h : editSep d e) : editSep e d := by
  obtain ⟨h1, h2⟩ := h
  exact ⟨h1.symm, fun he => h2 he.symm⟩

theorem insertionSort_strict {l : List Edit} (hne : l.Pairwise (fun d e => d.offset ≠ e.offset)) :
    (List.insertionSort editGE l).Pairwise (fun d e => e.offset < d.offset) := by
  have hsorted : (List.insertionSort editGE l).Pairwise editGE :=
    List.sorted_insertionSort editGE l
  have hperm : (List.insertionSort editGE l).Perm l := List.perm_insertionSort editGE l
  have hne' : (List.insertionSort editGE l).Pairwise (fun d e => d.offset ≠ e.offset) :=
    (hperm.pairwise_iff (fun h he => h he.symm)).mpr hne
  exact (hsorted.and hne').imp (fun h => by
    obtain ⟨h1, h2⟩ := h
    unfold editGE at h1
    omega)

/-- Sorting descending is invariant under permutation of distinct-offset
descriptor lists. -/
theorem insertionSort_perm_eq {l₁ l₂ : List Edit} (hp : l₁.Perm l₂)
    (hne : l₁.Pairwise (fun d e => d.offset ≠ e.offset)) :
    List.insertionSort editGE l₁ = List.insertionSort editGE l₂ := by
  have hne₂ : l₂.Pairwise (fun d e => d.offset ≠ e.offset) :=
    (hp.pairwise_iff (fun h he => h he.symm)).mp hne
  refine perm_strictSorted_eq _ _ ?_ (insertionSort_strict hne) (insertionSort_strict hne₂)
  exact (List.perm_insertionSort editGE l₁).trans (hp.trans (List.perm_insertionSort editGE l₂).symm)

/-- On a list already sorted ascending by offset with distinct offsets,
reversing is the same as sorting descending. -/
theorem insertionSort_eq_reverse {l : List Edit} (hasc : ascNonOverlap l) :
    List.insertionSort editGE l = l.reverse := by
  have hne : l.Pairwise (fun d e => d.offset ≠ e.offset) := by
    unfold ascNonOverlap at hasc
    exact hasc.imp (fun h => by omega)
  have hrev : l.reverse.Pairwise (fun d e => e.offset < d.offset) := by
    rw [List.pairwise_reverse]
    unfold ascNonOverlap at hasc
    exact hasc.imp (fun h => h.2)
  refine perm_strictSorted_eq _ _ ?_ (insertionSort_strict hne) hrev
  exact (List.perm_insertionSort editGE l).trans (List.reverse_perm l).symm

/-! ### Lemmas about `normalizeNodeData` and `jsonPathToString` -/

theorem foldl_filter_aux : ∀ (rows : List Row) (acc : List (List Char × JsonValue)),
    rows.foldl
      (fun acc r =>
        if rowScalar r && keyTruthy r.key then objInsert acc (r.key.getD []) (rowValToJson r.value)
        else acc) acc =
    (rows.filter (fun r => rowScalar r && keyTruthy r.key)).foldl
      (fun acc r =>
        if rowScalar r && keyTruthy r.key then objInsert acc (r.key.getD []) (rowValToJson r.value)
        else acc) acc
  | [], acc => rfl
  | r :: rows, acc => by
    by_cases h : (rowScalar r && keyTruthy r.key) = true
    · simp only [List.foldl_cons, List.filter_cons, h, if_pos h, if_true]
      exact foldl_filter_aux rows _
    · simp only [List.foldl_cons, List.filter_cons, h, if_neg h]
      simp only [Bool.false_eq_true, if_false]
      exact foldl_filter_aux rows acc

theorem buildObj_filter (rows : List Row) :
    buildObj rows = buildObj (rows.filter (fun r => rowScalar r && keyTruthy r.key)) :=
  foldl_filter_aux rows []

theorem intercalate_chunks : ∀ (g : Seg) (gs : List Seg),
    '[' :: List.intercalate [']', '['] ((g :: gs).map renderSeg) ++ [']'] =
      ((g :: gs).map (fun x => '[' :: renderSeg x ++ [']'])).flatten
  | g, [] => by simp [List.intercalate]
  | g, g' :: gs => by
    have ih := intercalate_chunks g' gs
    simp only [List.map_cons, List.intercalate, List.intersperse] at ih ⊢
    simp only [List.flatten_cons] at ih ⊢
    rw [← ih]
    simp

/-! ### Number token facts -/

theorem vDigits1_chars : ∀ (s r : List Char), vDigits1 s = some r →
    ∃ w, s = w ++ r ∧ ∀ c ∈ w, numChar c = true := by
  intro s r h
  cases s with
  | nil => simp [vDigits1] at h
  | cons c s =>
    simp only [vDigits1] at h
    by_cases hc : c.isDigit
    · rw [if_pos hc] at h
      injection h with h'
      refine ⟨c :: s.takeWhile Char.isDigit, ?_, ?_⟩
      · rw [← h']
        simp [List.takeWhile_append_dropWhile]
      · intro x hx
        rcases List.mem_cons.mp hx with hx | hx
        · subst hx; simp [numChar, hc]
        · have := List.mem_takeWhile_imp hx
          simp [numChar, this]
    · rw [if_neg hc] at h; cases h

theorem vInt_chars : ∀ (s r : List Char), vInt s = some r →
    ∃ w, s = w ++ r ∧ ∀ c ∈ w, numChar c = true := by
  intro s r h
  cases s with
  | nil => simp [vInt] at h
  | cons c s =>
    simp only [vInt] at h
    by_cases hc : c = '0'
    · rw [if_pos hc] at h
      injection h with h'
      subst h'
      exact ⟨[c], rfl, by intro x hx; simp at hx; subst hx; simp [numChar, hc]⟩
    · rw [if_neg hc] at h
      by_cases hd : c.isDigit
      · rw [if_pos hd] at h
        injection h with h'
        refine ⟨c :: s.takeWhile Char.isDigit, ?_, ?_⟩
        · rw [← h']
          simp [List.takeWhile_append_dropWhile]
        · intro x hx
          rcases List.mem_cons.mp hx with hx | hx
          · subst hx; simp [numChar, hd]
          · have := List.mem_takeWhile_imp hx
            simp [numChar, this]
      · rw [if_neg hd] at h; cases h

theorem vFrac_chars : ∀ (s r : List Char), vFrac s = some r →
    ∃ w, s = w ++ r ∧ ∀ c ∈ w, numChar c = true := by
  intro s r h
  cases s with
  | nil =>
    simp only [vFrac] at h
    injection h with h'
    subst h'
    exact ⟨[], rfl, by simp⟩
  | cons c s =>
    simp only [vFrac] at h
    by_cases hc : c = '.'
    · rw [if_pos hc] at h
      obtain ⟨w, hw, hall⟩ := vDigits1_chars s r h
      refine ⟨c :: w, by rw [hw]; rfl, ?_⟩
      intro x hx
      rcases List.mem_cons.mp hx with hx | hx
      · subst hx; simp [numChar, hc]
      · exact hall x hx
    · rw [if_neg hc] at h
      injection h with h'
      subst h'
      exact ⟨[], rfl, by simp⟩

theorem vExp_chars : ∀ (s r : List Char), vExp s = some r →
    ∃ w, s = w ++ r ∧ ∀ c ∈ w, numChar c = true := by
  intro s r h
  cases s with
  | nil =>
    simp only [vExp] at h
    injection h with h'
    subst h'
    exact ⟨[], rfl, by simp⟩
  | cons c s =>
    simp only [vExp] at h
    by_cases hc : (c = 'e' || c = 'E') = true
    · rw [if_pos hc] at h
      cases s with
      | nil => cases h
      | cons d s' =>
        simp only at h
        have hce : numChar c = true := by
          rcases Bool.or_eq_true_iff.mp hc with h' | h' <;> simp_all [numChar]
        by_cases hd : (d = '+' || d = '-') = true
        · rw [if_pos hd] at h
          obtain ⟨w, hw, hall⟩ := vDigits1_chars s' r h
          refine ⟨c :: d :: w, by rw [hw]; rfl, ?_⟩
          intro x hx
          rcases List.mem_cons.mp hx with hx | hx
          · subst hx; exact hce
          rcases List.mem_cons.mp hx with hx | hx
          · subst hx
            rcases Bool.or_eq_true_iff.mp hd with h' | h' <;> simp_all [numChar]
          · exact hall x hx
        · rw [if_neg hd] at h
          obtain ⟨w, hw, hall⟩ := vDigits1_chars (d :: s') r h
          refine ⟨c :: w, by rw [hw]; rfl, ?_⟩
          intro x hx
          rcases List.mem_cons.mp hx with hx | hx
          · subst hx; exact hce
          · exact hall x hx
    · rw [if_neg hc] at h
      injection h with h'
      subst h'
      exact ⟨[], rfl, by simp⟩

theorem validNumber_shape {t : List Char} (h : validNumber t = true) :
    (∃ c t', t = c :: t' ∧ (c.isDigit || c = '-') = true) ∧ ∀ c ∈ t, numChar c = true := by
  unfold validNumber at h
  cases t with
  | nil => simp at h; cases hvi : vInt [] <;> simp [hvi, vInt] at h
  | cons c t' =>
    simp only at h
    by_cases hm : c = '-'
    · rw [if_pos hm] at h
      cases hvi : vInt t' with
      | none => rw [hvi] at h; simp at h
      | some r1 =>
        simp only [hvi] at h
        cases hvf : vFrac r1 with
        | none => rw [hvf] at h; simp at h
        | some r2 =>
          simp only [hvf] at h
          cases hve : vExp r2 with
          | none => rw [hve] at h; simp at h
          | some r3 =>
            simp only [hve] at h
            have hr3 : r3 = [] := by simpa using h
            subst hr3
            obtain ⟨w1, hw1, ha1⟩ := vInt_chars t' r1 hvi
            obtain ⟨w2, hw2, ha2⟩ := vFrac_chars r1 r2 hvf
            obtain ⟨w3, hw3, ha3⟩ := vExp_chars r2 [] hve
            refine ⟨⟨c, t', rfl, by simp [hm]⟩, ?_⟩
            intro x hx
            rcases List.mem_cons.mp hx with hx | hx
            · subst hx; simp [numChar, hm]
            · rw [hw1] at hx
              rcases List.mem_append.mp hx with hx | hx
              · exact ha1 x hx
              · rw [hw2] at hx
                rcases List.mem_append.mp hx with hx | hx
                · exact ha2 x hx
                · rw [hw3] at hx
                  rcases List.mem_append.mp hx with hx | hx
                  · exact ha3 x hx
                  · simp at hx
    · rw [if_neg hm] at h
      cases hvi : vInt (c :: t') with
      | none => rw [hvi] at h; simp at h
      | some r1 =>
        simp only [hvi] at h
        cases hvf : vFrac r1 with
        | none => rw [hvf] at h; simp at h
        | some r2 =>
          simp only [hvf] at h
          cases hve : vExp r2 with
          | none => rw [hve] at h; simp at h
          | some r3 =>
            simp only [hve] at h
            have hr3 : r3 = [] := by simpa using h
            subst hr3
            obtain ⟨w1, hw1, ha1⟩ := vInt_chars (c :: t') r1 hvi
            obtain ⟨w2, hw2, ha2⟩ := vFrac_chars r1 r2 hvf
            obtain ⟨w3, hw3, ha3⟩ := vExp_chars r2 [] hve
            have hhead : (c.isDigit || c = '-') = true := by
              cases c0 : vInt (c :: t') with
              | none => rw [c0] at hvi; cases hvi
              | some _ =>
                simp only [vInt] at c0
                by_cases h0 : c = '0'
                · simp [Char.isDigit, h0]
                · rw [if_neg h0] at c0
                  by_cases hd : c.isDigit
                  · simp [hd]
                  · rw [if_neg hd] at c0; cases c0
            refine ⟨⟨c, t', rfl, hhead⟩, ?_⟩
            intro x hx
            have hx' : x ∈ (c :: t' : List Char) := hx
            rw [hw1] at hx'
            rcases List.mem_append.mp hx' with hx' | hx'
            · exact ha1 x hx'
            · rw [hw2] at hx'
              rcases List.mem_append.mp hx' with hx' | hx'
              · exact ha2 x hx'
              · rw [hw3] at hx'
                rcases List.mem_append.mp hx' with hx' | hx'
                · exact ha3 x hx'
                · simp at hx'

theorem validNumber_ne_nil {t : List Char} (h : validNumber t = true) : t ≠ [] := by
  obtain ⟨⟨c, t', ht, _⟩, _⟩ := validNumber_shape h
  rw [ht]
  simp

/-! ### Delimiter facts -/

theorem delimOk_not_numChar {c : Char} {r : List Char} (h : delimOk (c :: r) = true) :
    numChar c = false := by
  simp only [delimOk, Bool.or_eq_true_iff] at h
  rcases h with ((hw | hw) | hw) | hw
  · simp only [isWsChar, Bool.or_eq_true_iff] at hw
    rcases hw with ((h1 | h1) | h1) | h1 <;>
      · rw [show c = _ from by exact_mod_cast of_decide_eq_true h1]
        decide
  · rw [show c = ',' from of_decide_eq_true hw]; decide
  · rw [show c = '}' from of_decide_eq_true hw]; decide
  · rw [show c = ']' from of_decide_eq_true hw]; decide

theorem delimOk_not_alpha {c : Char} {r : List Char} (h : delimOk (c :: r) = true) :
    c.isAlpha = false := by
  simp only [delimOk, Bool.or_eq_true_iff] at h
  rcases h with ((hw | hw) | hw) | hw
  · simp only [isWsChar, Bool.or_eq_true_iff] at hw
    rcases hw with ((h1 | h1) | h1) | h1 <;>
      · rw [show c = _ from by exact_mod_cast of_decide_eq_true h1]
        decide
  · rw [show c = ',' from of_decide_eq_true hw]; decide
  · rw [show c = '}' from of_decide_eq_true hw]; decide
  · rw [show c = ']' from of_decide_eq_true hw]; decide

/-! ### Escape round-trip -/

theorem hexVal_hexDig {n : Nat} (h : n < 16) : hexVal (hexDig n) = some n := by
  interval_cases n <;> decide

theorem psb_escChar (c : Char) (tail : List Char) (s r : List Char)
    (ih : parseStrBody tail = some (s, r)) :
    parseStrBody (escChar c ++ tail) = some (c :: s, r) := by
  unfold escChar
  by_cases h1 : c = '"'
  · rw [if_pos h1]
    rw [show (['\\', '"'] : List Char) ++ tail = '\\' :: '"' :: tail from rfl]
    rw [psb_esc_code (by decide) (show escCode '"' = some '"' from rfl), ih]
    simp [h1]
  · rw [if_neg h1]
    by_cases h2 : c = '\\'
    · rw [if_pos h2]
      rw [show (['\\', '\\'] : List Char) ++ tail = '\\' :: '\\' :: tail from rfl]
      rw [psb_esc_code (by decide) (show escCode '\\' = some '\\' from rfl), ih]
      simp [h2]
    · rw [if_neg h2]
      by_cases h3 : c = '\n'
      · rw [if_pos h3]
        rw [show (['\\', 'n'] : List Char) ++ tail = '\\' :: 'n' :: tail from rfl]
        rw [psb_esc_code (by decide) (show escCode 'n' = some '\n' from rfl), ih]
        simp [h3]
      · rw [if_neg h3]
        by_cases h4 : c = '\r'
        · rw [if_pos h4]
          rw [show (['\\', 'r'] : List Char) ++ tail = '\\' :: 'r' :: tail from rfl]
          rw [psb_esc_code (by decide) (show escCode 'r' = some '\r' from rfl), ih]
          simp [h4]
        · rw [if_neg h4]
          by_cases h5 : c = '\t'
          · rw [if_pos h5]
            rw [show (['\\', 't'] : List Char) ++ tail = '\\' :: 't' :: tail from rfl]
            rw [psb_esc_code (by decide) (show escCode 't' = some '\t' from rfl), ih]
            simp [h5]
          · rw [if_neg h5]
            by_cases h6 : c = Char.ofNat 8
            · rw [if_pos h6]
              rw [show (['\\', 'b'] : List Char) ++ tail = '\\' :: 'b' :: tail from rfl]
              rw [psb_esc_code (by decide) (show escCode 'b' = some (Char.ofNat 8) from rfl), ih]
              simp [h6]
            · rw [if_neg h6]
              by_cases h7 : c = Char.ofNat 12
              · rw [if_pos h7]
                rw [show (['\\', 'f'] : List Char) ++ tail = '\\' :: 'f' :: tail from rfl]
                rw [psb_esc_code (by decide)
                  (show escCode 'f' = some (Char.ofNat 12) from rfl), ih]
                simp [h7]
              · rw [if_neg h7]
                by_cases h8 : c.toNat < 32
                · rw [if_pos h8]
                  have hq : c.toNat / 16 < 16 := by omega
                  have hr : c.toNat % 16 < 16 := Nat.mod_lt _ (by omega)
                  rw [show (['\\', 'u', '0', '0', hexDig (c.toNat / 16),
                        hexDig (c.toNat % 16)] : List Char) ++ tail =
                      '\\' :: 'u' :: '0' :: '0' :: hexDig (c.toNat / 16) ::
                        hexDig (c.toNat % 16) :: tail from rfl]
                  rw [psb_u_ok (show hexVal '0' = some 0 from rfl)
                    (show hexVal '0' = some 0 from rfl) (hexVal_hexDig hq) (hexVal_hexDig hr), ih]
                  simp only [Option.map_some']
                  congr 2
                  have harith : ((0 * 16 + 0) * 16 + c.toNat / 16) * 16 + c.toNat % 16 =
                      c.toNat := by omega
                  rw [harith, Char.ofNat_toNat]
                · rw [if_neg h8]
                  rw [show ([c] : List Char) ++ tail = c :: tail from rfl]
                  rw [psb_other h1 h2 h8, ih]
                  simp

theorem psb_escBody : ∀ (s r : List Char),
    parseStrBody (escBody s ++ '"' :: r) = some (s, r)
  | [], r => by
    rw [show escBody [] = [] from rfl]
    exact psb_quote r
  | c :: s, r => by
    rw [show escBody (c :: s) = escChar c ++ escBody s from by simp [escBody]]
    rw [List.append_assoc]
    exact psb_escChar c _ s r (psb_escBody s r)

/-! ### Object insertion and well-formedness -/

theorem hasKey_objInsert_ne {t : List (List Char × JsonValue)} {k k' : List Char} {v : JsonValue}
    (hne : k' ≠ k) : hasKey (objInsert t k v) k' = hasKey t k' := by
  induction t with
  | nil => simp [objInsert, hasKey, Ne.symm hne]
  | cons m t ih =>
    obtain ⟨k₀, v₀⟩ := m
    by_cases hk : k₀ = k
    · subst hk
      simp only [objInsert, if_pos rfl]
      simp [hasKey, Ne.symm hne]
    · simp only [objInsert, if_neg hk]
      simp only [hasKey, List.any_cons] at ih ⊢
      rw [ih]

theorem objInsert_append {acc : List (List Char × JsonValue)} {k : List Char} {v : JsonValue}
    (h : hasKey acc k = false) : objInsert acc k v = acc ++ [(k, v)] := by
  induction acc with
  | nil => rfl
  | cons m t ih =>
    obtain ⟨k₀, v₀⟩ := m
    simp only [hasKey, List.any_cons, Bool.or_eq_false_iff] at h
    obtain ⟨h1, h2⟩ := h
    have hk : k₀ ≠ k := by simpa using h1
    simp only [objInsert, if_neg hk, List.cons_append]
    congr 1
    exact ih h2

theorem wfObj_objInsert {acc : List (List Char × JsonValue)} {k : List Char} {v : JsonValue}
    (ha : wfObj acc = true) (hv : wfV v = true) : wfObj (objInsert acc k v) = true := by
  induction acc with
  | nil => simp [objInsert, wfObj, hasKey, hv]
  | cons m t ih =>
    obtain ⟨k₀, v₀⟩ := m
    simp only [wfObj, Bool.and_eq_true, Bool.not_eq_true'] at ha
    obtain ⟨⟨hv₀, hhk⟩, ht⟩ := ha
    by_cases hk : k₀ = k
    · subst hk
      simp only [objInsert, if_pos rfl]
      simp [wfObj, hv, hhk, ht]
    · simp only [objInsert, if_neg hk]
      simp only [wfObj, Bool.and_eq_true, Bool.not_eq_true']
      exact ⟨⟨hv₀, by rw [hasKey_objInsert_ne hk]; exact hhk⟩, ih ht⟩

theorem wfArr_snoc {acc : List JsonValue} {v : JsonValue}
    (ha : wfArr acc = true) (hv : wfV v = true) : wfArr (acc ++ [v]) = true := by
  induction acc with
  | nil => simp [wfArr, hv]
  | cons w t ih =>
    simp only [wfArr, Bool.and_eq_true] at ha
    simp only [List.cons_append, wfArr, Bool.and_eq_true]
    exact ⟨ha.1, ih ha.2⟩

/-! ### The parser only produces well-formed values -/

theorem parser_wf : ∀ f : Nat,
    (∀ s v r, parseVal f s = some (v, r) → wfV v = true) ∧
    (∀ s k v r, parseMember f s = some (k, v, r) → wfV v = true) ∧
    (∀ acc s v r, wfObj acc = true → parseMembersTail f acc s = some (v, r) → wfV v = true) ∧
    (∀ acc s v r, wfArr acc = true → parseElemsTail f acc s = some (v, r) → wfV v = true) := by
  intro f
  induction f with
  | zero =>
    refine ⟨?_, ?_, ?_, ?_⟩
    · intro s v r h; simp [parseVal] at h
    · intro s k v r h; simp [parseMember] at h
    · intro acc s v r ha h; simp [parseMembersTail] at h
    · intro acc s v r ha h; simp [parseElemsTail] at h
  | succ f ih =>
    obtain ⟨ihv, ihm, ihmt, ihet⟩ := ih
    refine ⟨?_, ?_, ?_, ?_⟩
    · intro s v r h
      simp only [parseVal] at h
      cases hds : dropWs s with
      | nil => rw [hds] at h; cases h
      | cons c r0 =>
        rw [hds] at h
        simp only at h
        by_cases h1 : c = 'n'
        · rw [if_pos h1] at h
          split at h
          · injection h with h'
            injection h' with hv hr
            subst hv
            rfl
          · cases h
        · rw [if_neg h1] at h
          by_cases h2 : c = 't'
          · rw [if_pos h2] at h
            split at h
            · injection h with h'
              injection h' with hv hr
              subst hv
              rfl
            · cases h
          · rw [if_neg h2] at h
            by_cases h3 : c = 'f'
            · rw [if_pos h3] at h
              split at h
              · injection h with h'
                injection h' with hv hr
                subst hv
                rfl
              · cases h
            · rw [if_neg h3] at h
              by_cases h4 : c = '"'
              · rw [if_pos h4] at h
                cases hp : parseStrBody r0 with
                | none => rw [hp] at h; cases h
                | some p =>
                  rw [hp] at h
                  simp only [Option.map_some'] at h
                  injection h with h'
                  injection h' with hv hr
                  subst hv
                  rfl
              · rw [if_neg h4] at h
                by_cases h5 : c = '{'
                · rw [if_pos h5] at h
                  cases hds2 : dropWs r0 with
                  | nil => rw [hds2] at h; cases h
                  | cons c' r' =>
                    rw [hds2] at h
                    simp only at h
                    by_cases h6 : c' = '}'
                    · rw [if_pos h6] at h
                      injection h with h'
                      injection h' with hv hr
                      subst hv
                      rfl
                    · rw [if_neg h6] at h
                      cases hm : parseMember f (c' :: r') with
                      | none => rw [hm] at h; cases h
                      | some kv =>
                        obtain ⟨k0, v0, r1⟩ := kv
                        rw [hm] at h
                        simp only at h
                        have hv0 : wfV v0 = true := ihm _ _ _ _ hm
                        exact ihmt (objInsert [] k0 v0) r1 v r
                          (wfObj_objInsert rfl hv0) h
                · rw [if_neg h5] at h
                  by_cases h7 : c = '['
                  · rw [if_pos h7] at h
                    cases hds2 : dropWs r0 with
                    | nil => rw [hds2] at h; cases h
                    | cons c' r' =>
                      rw [hds2] at h
                      simp only at h
                      by_cases h8 : c' = ']'
                      · rw [if_pos h8] at h
                        injection h with h'
                        injection h' with hv hr
                        subst hv
                        rfl
                      · rw [if_neg h8] at h
                        cases hv1 : parseVal f (c' :: r') with
                        | none => rw [hv1] at h; cases h
                        | some p =>
                          obtain ⟨v0, r1⟩ := p
                          rw [hv1] at h
                          simp only at h
                          have hv0 : wfV v0 = true := ihv _ _ _ hv1
                          exact ihet [v0] r1 v r (by simp [wfArr, hv0]) h
                  · rw [if_neg h7] at h
                    by_cases h9 : (c.isDigit || c = '-') = true
                    · rw [if_pos h9] at h
                      by_cases h10 : validNumber ((c :: r0).takeWhile numChar) = true
                      · rw [if_pos h10] at h
                        injection h with h'
                        injection h' with hv hr
                        subst hv
                        simpa [wfV] using h10
                      · rw [if_neg h10] at h
                        cases h
                    · rw [if_neg h9] at h
                      cases h
    · intro s k v r h
      simp only [parseMember] at h
      cases hds : dropWs s with
      | nil => rw [hds] at h; cases h
      | cons c r0 =>
        rw [hds] at h
        simp only at h
        by_cases h1 : c = '"'
        · rw [if_pos h1] at h
          cases hp : parseStrBody r0 with
          | none => rw [hp] at h; cases h
          | some p =>
            obtain ⟨k0, r1⟩ := p
            rw [hp] at h
            simp only at h
            cases hds2 : dropWs r1 with
            | nil => rw [hds2] at h; cases h
            | cons c' r2 =>
              rw [hds2] at h
              simp only at h
              by_cases h2 : c' = ':'
              · rw [if_pos h2] at h
                cases hv1 : parseVal f r2 with
                | none => rw [hv1] at h; cases h
                | some p2 =>
                  obtain ⟨v0, r3⟩ := p2
                  rw [hv1] at h
                  simp only at h
                  injection h with h'
                  injection h' with hk hvr
                  injection hvr with hv2 hr
                  subst hv2
                  exact ihv _ _ _ hv1
              · rw [if_neg h2] at h; cases h
        · rw [if_neg h1] at h; cases h
    · intro acc s v r hacc h
      simp only [parseMembersTail] at h
      cases hds : dropWs s with
      | nil => rw [hds] at h; cases h
      | cons c r0 =>
        rw [hds] at h
        simp only at h
        by_cases h1 : c = ','
        · rw [if_pos h1] at h
          cases hm : parseMember f r0 with
          | none => rw [hm] at h; cases h
          | some kv =>
            obtain ⟨k0, v0, r1⟩ := kv
            rw [hm] at h
            simp only at h
            exact ihmt (objInsert acc k0 v0) r1 v r
              (wfObj_objInsert hacc (ihm _ _ _ _ hm)) h
        · rw [if_neg h1] at h
          by_cases h2 : c = '}'
          · rw [if_pos h2] at h
            injection h with h'
            injection h' with hv hr
            subst hv
            simpa [wfV] using hacc
          · rw [if_neg h2] at h; cases h
    · intro acc s v r hacc h
      simp only [parseElemsTail] at h
      cases hds : dropWs s with
      | nil => rw [hds] at h; cases h
      | cons c r0 =>
        rw [hds] at h
        simp only at h
        by_cases h1 : c = ','
        · rw [if_pos h1] at h
          cases hv1 : parseVal f r0 with
          | none => rw [hv1] at h; cases h
          | some p =>
            obtain ⟨v0, r1⟩ := p
            rw [hv1] at h
            simp only at h
            exact ihet (acc ++ [v0]) r1 v r (wfArr_snoc hacc (ihv _ _ _ hv1)) h
        · rw [if_neg h1] at h
          by_cases h2 : c = ']'
          · rw [if_pos h2] at h
            injection h with h'
            injection h' with hv hr
            subst hv
            simpa [wfV] using hacc
          · rw [if_neg h2] at h; cases h

/-- `parseJson` only produces well-formed values. -/
theorem parseJson_wf {s : List Char} {v : JsonValue} (h : parseJson s = some v) :
    wfV v = true := by
  unfold parseJson at h
  cases hp : parseVal (s.length + 1) s with
  | none => rw [hp] at h; cases h
  | some p =>
    obtain ⟨v0, r⟩ := p
    rw [hp] at h
    simp only at h
    by_cases he : (dropWs r).isEmpty = true
    · rw [if_pos he] at h
      injection h with h'
      subst h'
      exact (parser_wf _).1 _ _ _ hp
    · rw [if_neg he] at h; cases h

/-- The coercion always yields a well-formed value. -/
theorem coercePath_wf (raw : Option (List Char)) : wfV (coercePath raw) = true := by
  unfold coercePath
  cases hp : parseJson (match raw with | some r => r | none => nullTok) with
  | none => rfl
  | some v => exact parseJson_wf hp

/-! ### Serialization shape lemmas -/

theorem membersText_split : ∀ (ms : List (List Char × JsonValue)) (k : List Char)
    (v : JsonValue) (ii io : Nat),
    stringifyMembersI ((k, v) :: ms) ii ++ '\n' :: spacesN io ++ ['}'] =
      spacesN ii ++ quoteStr k ++ ':' :: ' ' :: stringifyI v ii ++ membersTailText ms ii io
  | [], k, v, ii, io => by
    simp [stringifyMembersI, membersTailText]
  | (k', v') :: ms, k, v, ii, io => by
    have ih := membersText_split ms k' v' ii io
    simp only [stringifyMembersI, membersTailText]
    simp only [List.append_assoc, List.cons_append] at ih ⊢
    rw [ih]

theorem elemsText_split : ∀ (vs : List JsonValue) (v : JsonValue) (ii io : Nat),
    stringifyItemsI (v :: vs) ii ++ '\n' :: spacesN io ++ [']'] =
      spacesN ii ++ stringifyI v ii ++ elemsTailText vs ii io
  | [], v, ii, io => by
    simp [stringifyItemsI, elemsTailText]
  | v' :: vs, v, ii, io => by
    have ih := elemsText_split vs v' ii io
    simp only [stringifyItemsI, elemsTailText]
    simp only [List.append_assoc, List.cons_append] at ih ⊢
    rw [ih]

theorem stringifyI_obj_cons (k : List Char) (v : JsonValue)
    (ms : List (List Char × JsonValue)) (ind : Nat) :
    stringifyI (.obj ((k, v) :: ms)) ind =
      '{' :: '\n' :: spacesN (ind + 2) ++ quoteStr k ++ ':' :: ' ' ::
        stringifyI v (ind + 2) ++ membersTailText ms (ind + 2) ind := by
  show '{' :: '\n' :: stringifyMembersI ((k, v) :: ms) (ind + 2) ++ '\n' :: spacesN ind ++ ['}'] =
    _
  have := membersText_split ms k v (ind + 2) ind
  simp only [List.cons_append, List.append_assoc] at this ⊢
  rw [this]

theorem stringifyI_arr_cons (v : JsonValue) (vs : List JsonValue) (ind : Nat) :
    stringifyI (.arr (v :: vs)) ind =
      '[' :: '\n' :: spacesN (ind + 2) ++ stringifyI v (ind + 2) ++
        elemsTailText vs (ind + 2) ind := by
  show '[' :: '\n' :: stringifyItemsI (v :: vs) (ind + 2) ++ '\n' :: spacesN ind ++ [']'] = _
  have := elemsText_split vs v (ind + 2) ind
  simp only [List.cons_append, List.append_assoc] at this ⊢
  rw [this]

/-! ### Character class helpers for serialized text -/

theorem digitStart_facts {c : Char} (h : (c.isDigit || c = '-') = true) :
    isWsChar c = false ∧ c ≠ 'n' ∧ c ≠ 't' ∧ c ≠ 'f' ∧ c ≠ '"' ∧ c ≠ '{' ∧ c ≠ '[' ∧
      c ≠ ']' ∧ c ≠ '}' := by
  rcases Bool.or_eq_true_iff.mp h with hd | hd
  · refine ⟨?_, ?_, ?_, ?_, ?_, ?_, ?_, ?_, ?_⟩
    · by_cases hw : isWsChar c = true
      · simp only [isWsChar, Bool.or_eq_true_iff] at hw
        rcases hw with ((h1 | h1) | h1) | h1 <;>
          · rw [show c = _ from of_decide_eq_true h1] at hd
            exact absurd hd (by decide)
      · simpa using hw
    all_goals
      intro he
      rw [he] at hd
      exact absurd hd (by decide)
  · rw [show c = '-' from of_decide_eq_true hd]
    refine ⟨by decide, by decide, by decide, by decide, by decide, by decide, by decide,
      by decide, by decide⟩

theorem spacesN_all_ws (n : Nat) : ∀ c ∈ spacesN n, isWsChar c = true := by
  intro c hc
  rw [show c = ' ' from List.eq_of_mem_replicate hc]
  decide

theorem nl_spaces_all_ws (n : Nat) : ∀ c ∈ '\n' :: spacesN n, isWsChar c = true := by
  intro c hc
  rcases List.mem_cons.mp hc with hc | hc
  · subst hc; decide
  · exact spacesN_all_ws n c hc

theorem dropWs_cons_not {c : Char} (h : isWsChar c = false) (s : List Char) :
    dropWs (c :: s) = c :: s := by
  unfold dropWs
  rw [List.dropWhile_cons_of_neg (by simp [h])]

theorem stringify_head : ∀ (v : JsonValue) (ind : Nat), wfV v = true →
    ∃ c0 cs, stringifyI v ind = c0 :: cs ∧ isWsChar c0 = false ∧ c0 ≠ ']' ∧ c0 ≠ '}' ∧
      c0 ≠ ',' := by
  intro v ind hwf
  match v with
  | .null => exact ⟨'n', _, rfl, by decide, by decide, by decide, by decide⟩
  | .bool true => exact ⟨'t', _, rfl, by decide, by decide, by decide, by decide⟩
  | .bool false => exact ⟨'f', _, rfl, by decide, by decide, by decide, by decide⟩
  | .num t =>
    obtain ⟨⟨c, t', ht, hhead⟩, _⟩ := validNumber_shape (by simpa [wfV] using hwf)
    obtain ⟨hws, _, _, _, _, _, _, h8, h9⟩ := digitStart_facts hhead
    refine ⟨c, t', ?_, hws, h8, h9, ?_⟩
    · show t = c :: t'
      exact ht
    · rcases Bool.or_eq_true_iff.mp hhead with hd | hd
      · intro he; rw [he] at hd; exact absurd hd (by decide)
      · rw [show c = '-' from of_decide_eq_true hd]; decide
  | .str s => exact ⟨'"', _, rfl, by decide, by decide, by decide, by decide⟩
  | .arr [] => exact ⟨'[', _, rfl, by decide, by decide, by decide, by decide⟩
  | .arr (v :: vs) =>
    rw [stringifyI_arr_cons]
    exact ⟨'[', _, rfl, by decide, by decide, by decide, by decide⟩
  | .obj [] => exact ⟨'{', _, rfl, by decide, by decide, by decide, by decide⟩
  | .obj (m :: ms) =>
    obtain ⟨k, v⟩ := m
    rw [stringifyI_obj_cons]
    exact ⟨'{', _, rfl, by decide, by decide, by decide, by decide⟩

theorem parseVal_congr_ws {f : Nat} {s₁ s₂ : List Char} (h : dropWs s₁ = dropWs s₂) :
    parseVal f s₁ = parseVal f s₂ := by
  cases f with
  | zero => rfl
  | succ f => simp only [parseVal, h]

theorem delimOk_membersTail (ms : List (List Char × JsonValue)) (ii io : Nat)
    (rest : List Char) : delimOk (membersTailText ms ii io ++ rest) = true := by
  cases ms with
  | nil => rfl
  | cons m ms => obtain ⟨k, v⟩ := m; rfl

theorem delimOk_elemsTail (vs : List JsonValue) (ii io : Nat) (rest : List Char) :
    delimOk (elemsTailText vs ii io ++ rest) = true := by
  cases vs with
  | nil => rfl
  | cons v vs => rfl

theorem len_spacesN (n : Nat) : (spacesN n).length = n := by simp [spacesN]

theorem len_quoteStr_ge (k : List Char) : 2 ≤ (quoteStr k).length := by
  simp [quoteStr]

theorem len_stringify_pos (v : JsonValue) (ind : Nat) (hwf : wfV v = true) :
    1 ≤ (stringifyI v ind).length := by
  obtain ⟨c0, cs, he, _⟩ := stringify_head v ind hwf
  rw [he]
  simp

/-! ### Object middle well-formedness -/

theorem hasKey_append (a b : List (List Char × JsonValue)) (k : List Char) :
    hasKey (a ++ b) k = (hasKey a k || hasKey b k) := by
  simp [hasKey, List.any_append]

theorem hasKey_nil (k : List Char) : hasKey [] k = false := rfl

theorem hasKey_cons (k : List Char) (v : JsonValue) (ms : List (List Char × JsonValue))
    (k₀ : List Char) : hasKey ((k, v) :: ms) k₀ = (decide (k = k₀) || hasKey ms k₀) := by
  simp [hasKey]

theorem wfObj_mid : ∀ (acc : List (List Char × JsonValue)) (k : List Char) (v : JsonValue)
    (ms : List (List Char × JsonValue)), wfObj (acc ++ (k, v) :: ms) = true →
    hasKey acc k = false ∧ wfV v = true ∧ wfObj ((acc ++ [(k, v)]) ++ ms) = true
  | [], k, v, ms => by
    intro h
    simp only [List.nil_append] at h ⊢
    simp only [wfObj, Bool.and_eq_true] at h
    exact ⟨rfl, h.1.1, by simp only [wfObj, Bool.and_eq_true]; exact h⟩
  | (k₀, v₀) :: t, k, v, ms => by
    intro h
    simp only [List.cons_append, wfObj, Bool.and_eq_true, Bool.not_eq_true', List.append_eq] at h
    obtain ⟨⟨hv₀, hkey₀⟩, ht⟩ := h
    obtain ⟨ht1, hv, ht3⟩ := wfObj_mid t k v ms ht
    rw [hasKey_append, hasKey_cons, Bool.or_eq_false_iff, Bool.or_eq_false_iff,
      decide_eq_false_iff_not] at hkey₀
    obtain ⟨hk1, hk2, hk3⟩ := hkey₀
    have hkne : k₀ ≠ k := fun he => hk2 he.symm
    refine ⟨?_, hv, ?_⟩
    · rw [hasKey_cons, Bool.or_eq_false_iff]
      exact ⟨decide_eq_false_iff_not.mpr hkne, ht1⟩
    · simp only [List.cons_append, wfObj, Bool.and_eq_true, Bool.not_eq_true', List.append_eq]
      refine ⟨⟨hv₀, ?_⟩, ht3⟩
      rw [hasKey_append, hasKey_append, hasKey_cons, hasKey_nil, hk1, hk3,
        decide_eq_false_iff_not.mpr hk2]
      rfl

theorem dropWs_cons_ws {c : Char} (h : isWsChar c = true) (s : List Char) :
    dropWs (c :: s) = dropWs s := by
  unfold dropWs
  rw [List.dropWhile_cons_of_pos h]

/-! ### Round-trip of the member and element loops -/

theorem parseMembersTail_comma (f : Nat) (acc : List (List Char × JsonValue))
    (s r r₁ : List Char) (k : List Char) (v : JsonValue)
    (h : dropWs s = ',' :: r) (hm : parseMember f r = some (k, v, r₁)) :
    parseMembersTail (f + 1) acc s = parseMembersTail f (objInsert acc k v) r₁ := by
  conv_lhs => rw [parseMembersTail.eq_def]
  simp [h, hm]

theorem parseElemsTail_comma (f : Nat) (acc : List JsonValue)
    (s r r₁ : List Char) (v : JsonValue)
    (h : dropWs s = ',' :: r) (hv : parseVal f r = some (v, r₁)) :
    parseElemsTail (f + 1) acc s = parseElemsTail f (acc ++ [v]) r₁ := by
  conv_lhs => rw [parseElemsTail.eq_def]
  simp [h, hv]

theorem rtMembersTail : ∀ (ms : List (List Char × JsonValue))
    (acc : List (List Char × JsonValue)) (ii io f : Nat) (rest : List Char),
    (∀ k w, (k, w) ∈ ms → ∀ (ind : Nat) (rest' : List Char) (f' : Nat),
      delimOk rest' = true → (stringifyI w ind).length < f' →
      parseVal f' (stringifyI w ind ++ rest') = some (w, rest')) →
    wfObj (acc ++ ms) = true →
    delimOk rest = true →
    (membersTailText ms ii io).length < f →
    parseMembersTail f acc (membersTailText ms ii io ++ rest) = some (.obj (acc ++ ms), rest)
  | [], acc, ii, io, f, rest => by
    intro hmem hwf hrest hfuel
    have hlen : (membersTailText ([] : List (List Char × JsonValue)) ii io).length = 2 + io := by
      simp [membersTailText, len_spacesN]
      omega
    obtain ⟨f₀, rfl⟩ : ∃ f₀, f = f₀ + 1 := by
      cases f
      · omega
      · exact ⟨_, rfl⟩
    have hdrop : dropWs (membersTailText ([] : List (List Char × JsonValue)) ii io ++ rest) =
        '}' :: rest := by
      show dropWs (('\n' :: spacesN io ++ ['}']) ++ rest) = '}' :: rest
      rw [show ('\n' :: spacesN io ++ ['}']) ++ rest = ('\n' :: spacesN io) ++ '}' :: rest by simp]
      exact dropWs_append_of '}' rest (nl_spaces_all_ws io) (by decide)
    simp only [parseMembersTail, hdrop]
    simp
  | (k, v) :: ms', acc, ii, io, f, rest => by
    intro hmem hwf hrest hfuel
    obtain ⟨hkacc, hwv, hwf'⟩ := wfObj_mid acc k v ms' hwf
    have hlen : (membersTailText ((k, v) :: ms') ii io).length =
        2 + ii + (quoteStr k).length + 2 + (stringifyI v ii).length +
          (membersTailText ms' ii io).length := by
      simp [membersTailText, len_spacesN]
      omega
    have hq := len_quoteStr_ge k
    have hs := len_stringify_pos v ii hwv
    obtain ⟨f₂, rfl⟩ : ∃ f₂, f = f₂ + 2 := by
      refine ⟨f - 2, ?_⟩
      omega
    have hshape : membersTailText ((k, v) :: ms') ii io ++ rest =
        ',' :: (('\n' :: spacesN ii) ++
          ('"' :: (escBody k ++ '"' :: (':' :: ' ' :: (stringifyI v ii ++
            (membersTailText ms' ii io ++ rest)))))) := by
      show (',' :: '\n' :: spacesN ii ++ quoteStr k ++ ':' :: ' ' :: stringifyI v ii ++
        membersTailText ms' ii io) ++ rest = _
      simp [quoteStr]
    rw [hshape]
    show parseMembersTail (f₂ + 1 + 1) acc _ = _
    have hmemres : parseMember (f₂ + 1)
        (('\n' :: spacesN ii) ++
          ('"' :: (escBody k ++ '"' :: (':' :: ' ' :: (stringifyI v ii ++
            (membersTailText ms' ii io ++ rest)))))) =
        some (k, v, membersTailText ms' ii io ++ rest) := by
      simp only [parseMember]
      rw [dropWs_append_of _ _ (nl_spaces_all_ws ii) (by decide)]
      simp only []
      rw [if_true]
      rw [psb_escBody]
      simp only []
      rw [dropWs_cons_not (by decide)]
      simp only []
      rw [if_true]
      have hpv : parseVal f₂ (' ' :: (stringifyI v ii ++ (membersTailText ms' ii io ++ rest))) =
          some (v, membersTailText ms' ii io ++ rest) := by
        rw [parseVal_congr_ws (dropWs_cons_ws (by decide) _)]
        exact hmem k v (List.mem_cons_self _ _) ii _ f₂ (delimOk_membersTail ms' ii io rest)
          (by omega)
      rw [hpv]
    have hrec := rtMembersTail ms' (acc ++ [(k, v)]) ii io (f₂ + 1) rest
      (fun k' w hm ind rest' f' h1 h2 => hmem k' w (List.mem_cons_of_mem _ hm) ind rest' f' h1 h2)
      hwf' hrest (by omega)
    rw [parseMembersTail_comma (f₂ + 1) acc _ _ _ k v (@dropWs_cons_not ',' (by decide) _) hmemres]
    rw [objInsert_append hkacc, hrec]
    simp

theorem rtElemsTail : ∀ (vs : List JsonValue) (acc : List JsonValue) (ii io f : Nat)
    (rest : List Char),
    (∀ w, w ∈ vs → ∀ (ind : Nat) (rest' : List Char) (f' : Nat),
      delimOk rest' = true → (stringifyI w ind).length < f' →
      parseVal f' (stringifyI w ind ++ rest') = some (w, rest')) →
    (∀ w ∈ vs, wfV w = true) →
    delimOk rest = true →
    (elemsTailText vs ii io).length < f →
    parseElemsTail f acc (elemsTailText vs ii io ++ rest) = some (.arr (acc ++ vs), rest)
  | [], acc, ii, io, f, rest => by
    intro hmem hwfs hrest hfuel
    have hlen : (elemsTailText ([] : List JsonValue) ii io).length = 2 + io := by
      simp [elemsTailText, len_spacesN]
      omega
    obtain ⟨f₀, rfl⟩ : ∃ f₀, f = f₀ + 1 := by
      cases f
      · omega
      · exact ⟨_, rfl⟩
    have hdrop : dropWs (elemsTailText ([] : List JsonValue) ii io ++ rest) = ']' :: rest := by
      show dropWs (('\n' :: spacesN io ++ [']']) ++ rest) = ']' :: rest
      rw [show ('\n' :: spacesN io ++ [']']) ++ rest = ('\n' :: spacesN io) ++ ']' :: rest by simp]
      exact dropWs_append_of ']' rest (nl_spaces_all_ws io) (by decide)
    simp only [parseElemsTail, hdrop]
    simp
  | v :: vs', acc, ii, io, f, rest => by
    intro hmem hwfs hrest hfuel
    have hwv : wfV v = true := hwfs v (List.mem_cons_self _ _)
    have hlen : (elemsTailText (v :: vs') ii io).length =
        2 + ii + (stringifyI v ii).length + (elemsTailText vs' ii io).length := by
      simp [elemsTailText, len_spacesN]
      omega
    have hs := len_stringify_pos v ii hwv
    obtain ⟨f₀, rfl⟩ : ∃ f₀, f = f₀ + 1 := by
      cases f
      · omega
      · exact ⟨_, rfl⟩
    have hshape : elemsTailText (v :: vs') ii io ++ rest =
        ',' :: (('\n' :: spacesN ii) ++ (stringifyI v ii ++ (elemsTailText vs' ii io ++ rest))) := by
      show (',' :: '\n' :: spacesN ii ++ stringifyI v ii ++ elemsTailText vs' ii io) ++ rest = _
      simp
    rw [hshape]
    have hpv : parseVal f₀
        (('\n' :: spacesN ii) ++ (stringifyI v ii ++ (elemsTailText vs' ii io ++ rest))) =
        some (v, elemsTailText vs' ii io ++ rest) := by
      obtain ⟨c0, cs, he, hc0, _, _, _⟩ := stringify_head v ii hwv
      have hdw : dropWs (('\n' :: spacesN ii) ++ (stringifyI v ii ++
          (elemsTailText vs' ii io ++ rest))) =
          dropWs (stringifyI v ii ++ (elemsTailText vs' ii io ++ rest)) := by
        rw [he]
        show dropWs (('\n' :: spacesN ii) ++ (c0 :: (cs ++ (elemsTailText vs' ii io ++ rest)))) = _
        rw [dropWs_append_of _ _ (nl_spaces_all_ws ii) hc0]
        rw [List.cons_append]
        rw [dropWs_cons_not hc0]
      rw [parseVal_congr_ws hdw]
      exact hmem v (List.mem_cons_self _ _) ii _ f₀ (delimOk_elemsTail vs' ii io rest) (by omega)
    have hrec := rtElemsTail vs' (acc ++ [v]) ii io f₀ rest
      (fun w hm ind rest' f' h1 h2 => hmem w (List.mem_cons_of_mem _ hm) ind rest' f' h1 h2)
      (fun w hm => hwfs w (List.mem_cons_of_mem _ hm)) hrest (by omega)
    rw [parseElemsTail_comma f₀ acc _ _ _ v (@dropWs_cons_not ',' (by decide) _) hpv]
    rw [hrec]
    simp

/-! ### Size measure facts -/

theorem jsize_pos (v : JsonValue) : 1 ≤ jsize v := by
  cases v <;> · simp only [jsize]; omega

theorem jsizeA_mem : ∀ (vs : List JsonValue) (v : JsonValue), v ∈ vs →
    jsize v < jsizeA vs + 1
  | [], v, h => absurd h (List.not_mem_nil v)
  | w :: vs, v, h => by
    simp only [jsizeA]
    rcases List.mem_cons.mp h with h | h
    · subst h; omega
    · have := jsizeA_mem vs v h
      omega

theorem jsizeO_mem : ∀ (ms : List (List Char × JsonValue)) (k : List Char) (v : JsonValue),
    (k, v) ∈ ms → jsize v < jsizeO ms + 1
  | [], _, _, h => absurd h (List.not_mem_nil _)
  | (k₀, v₀) :: ms, k, v, h => by
    simp only [jsizeO]
    rcases List.mem_cons.mp h with h | h
    · injection h with h1 h2
      subst h2
      omega
    · have := jsizeO_mem ms k v h
      omega

theorem wfArr_mem : ∀ (vs : List JsonValue) (v : JsonValue), wfArr vs = true → v ∈ vs →
    wfV v = true
  | [], _, _, h => absurd h (List.not_mem_nil _)
  | w :: vs, v, hw, h => by
    simp only [wfArr, Bool.and_eq_true] at hw
    rcases List.mem_cons.mp h with h | h
    · subst h; exact hw.1
    · exact wfArr_mem vs v hw.2 h

theorem wfObj_mem : ∀ (ms : List (List Char × JsonValue)) (k : List Char) (v : JsonValue),
    wfObj ms = true → (k, v) ∈ ms → wfV v = true
  | [], _, _, _, h => absurd h (List.not_mem_nil _)
  | (k₀, v₀) :: ms, k, v, hw, h => by
    simp only [wfObj, Bool.and_eq_true] at hw
    rcases List.mem_cons.mp h with h | h
    · injection h with h1 h2
      subst h2
      exact hw.1.1
    · exact wfObj_mem ms k v hw.2 h

/-! ### takeWhile/dropWhile over fully-matching text -/

theorem takeWhile_all_self {p : Char → Bool} : ∀ {w : List Char},
    (∀ c ∈ w, p c = true) → w.takeWhile p = w
  | [], _ => rfl
  | c :: w, hw => by
    rw [List.takeWhile_cons_of_pos (hw c (by simp))]
    rw [takeWhile_all_self (fun c hc => hw c (by simp [hc]))]

theorem dropWhile_all {p : Char → Bool} : ∀ {w : List Char},
    (∀ c ∈ w, p c = true) → w.dropWhile p = []
  | [], _ => rfl
  | c :: w, hw => by
    rw [List.dropWhile_cons_of_pos (hw c (by simp))]
    exact dropWhile_all (fun c hc => hw c (by simp [hc]))

/-! ### The parser accepts each serialized scalar -/

theorem parseVal_null (f : Nat) (rest : List Char) :
    parseVal (f + 1) (nullTok ++ rest) = some (.null, rest) := by
  have h : dropWs (nullTok ++ rest) = 'n' :: ('u' :: 'l' :: 'l' :: rest) := by
    show dropWs ('n' :: ('u' :: 'l' :: 'l' :: rest)) = _
    exact dropWs_cons_not (by decide) _
  conv_lhs => rw [parseVal.eq_def]
  simp [h]

theorem parseVal_true (f : Nat) (rest : List Char) :
    parseVal (f + 1) (trueTok ++ rest) = some (.bool true, rest) := by
  have h : dropWs (trueTok ++ rest) = 't' :: ('r' :: 'u' :: 'e' :: rest) := by
    show dropWs ('t' :: ('r' :: 'u' :: 'e' :: rest)) = _
    exact dropWs_cons_not (by decide) _
  conv_lhs => rw [parseVal.eq_def]
  simp [h]

theorem parseVal_false (f : Nat) (rest : List Char) :
    parseVal (f + 1) (falseTok ++ rest) = some (.bool false, rest) := by
  have h : dropWs (falseTok ++ rest) = 'f' :: ('a' :: 'l' :: 's' :: 'e' :: rest) := by
    show dropWs ('f' :: ('a' :: 'l' :: 's' :: 'e' :: rest)) = _
    exact dropWs_cons_not (by decide) _
  conv_lhs => rw [parseVal.eq_def]
  simp [h]

theorem parseVal_str (f : Nat) (s rest : List Char) :
    parseVal (f + 1) (quoteStr s ++ rest) = some (.str s, rest) := by
  have hsh : quoteStr s ++ rest = '"' :: (escBody s ++ '"' :: rest) := by simp [quoteStr]
  rw [hsh]
  have h : dropWs ('"' :: (escBody s ++ '"' :: rest)) = '"' :: (escBody s ++ '"' :: rest) :=
    dropWs_cons_not (by decide) _
  conv_lhs => rw [parseVal.eq_def]
  simp [h, psb_escBody]

theorem parseVal_num (f : Nat) (t rest : List Char) (hv : validNumber t = true)
    (hrest : delimOk rest = true) :
    parseVal (f + 1) (t ++ rest) = some (.num t, rest) := by
  obtain ⟨⟨c, t', ht, hhead⟩, hall⟩ := validNumber_shape hv
  obtain ⟨hws, hn, hts, hfs, hq, hbr, hbk, _, _⟩ := digitStart_facts hhead
  subst ht
  have h : dropWs ((c :: t') ++ rest) = c :: (t' ++ rest) := by
    rw [List.cons_append]
    exact dropWs_cons_not hws _
  have htok : (c :: (t' ++ rest)).takeWhile numChar = c :: t' := by
    cases rest with
    | nil => rw [List.append_nil]; exact takeWhile_all_self hall
    | cons c₀ r₀ => exact takeWhile_all_append hall (delimOk_not_numChar hrest) r₀
  have hdw : (c :: (t' ++ rest)).dropWhile numChar = rest := by
    cases rest with
    | nil => rw [List.append_nil]; exact dropWhile_all hall
    | cons c₀ r₀ => exact dropWhile_all_append hall (delimOk_not_numChar hrest) r₀
  have hor : c.isDigit = true ∨ c = '-' := by
    rcases Bool.or_eq_true_iff.mp hhead with hd | hd
    · exact Or.inl hd
    · exact Or.inr (of_decide_eq_true hd)
  have h' : dropWs (c :: (t' ++ rest)) = c :: (t' ++ rest) := dropWs_cons_not hws _
  conv_lhs => rw [parseVal.eq_def]
  simp [h', hn, hts, hfs, hq, hbr, hbk, hor, htok, hdw, hv]

theorem parseVal_obj_nil (f : Nat) (rest : List Char) :
    parseVal (f + 1) (['{', '}'] ++ rest) = some (.obj [], rest) := by
  have h : dropWs ('{' :: ('}' :: rest)) = '{' :: ('}' :: rest) := dropWs_cons_not (by decide) _
  have h2 : dropWs ('}' :: rest) = '}' :: rest := dropWs_cons_not (by decide) _
  conv_lhs => rw [parseVal.eq_def]
  simp [h, h2]

theorem parseVal_arr_nil (f : Nat) (rest : List Char) :
    parseVal (f + 1) (['[', ']'] ++ rest) = some (.arr [], rest) := by
  have h : dropWs ('[' :: (']' :: rest)) = '[' :: (']' :: rest) := dropWs_cons_not (by decide) _
  have h2 : dropWs (']' :: rest) = ']' :: rest := dropWs_cons_not (by decide) _
  conv_lhs => rw [parseVal.eq_def]
  simp [h, h2]

/-! ### Branch steps of the parser for containers -/

theorem parseVal_arr_step (f : Nat) (s r r' : List Char) (c0 : Char) (v : JsonValue)
    (r₁ : List Char) (h : dropWs s = '[' :: r) (h2 : dropWs r = c0 :: r') (hc0 : c0 ≠ ']')
    (hv : parseVal f (c0 :: r') = some (v, r₁)) :
    parseVal (f + 1) s = parseElemsTail f [v] r₁ := by
  conv_lhs => rw [parseVal.eq_def]
  simp [h, h2, hc0, hv]

theorem parseVal_obj_step (f : Nat) (s r r' : List Char) (c0 : Char) (k : List Char)
    (v : JsonValue) (r₁ : List Char) (h : dropWs s = '{' :: r) (h2 : dropWs r = c0 :: r')
    (hc0 : c0 ≠ '}') (hm : parseMember f (c0 :: r') = some (k, v, r₁)) :
    parseVal (f + 1) s = parseMembersTail f (objInsert [] k v) r₁ := by
  conv_lhs => rw [parseVal.eq_def]
  simp [h, h2, hc0, hm]

theorem parseMember_step (f : Nat) (s kk r₁ r₂ : List Char) (k : List Char) (v : JsonValue)
    (r₃ : List Char) (h : dropWs s = '"' :: kk)
    (hsb : parseStrBody kk = some (k, r₁))
    (h2 : dropWs r₁ = ':' :: r₂)
    (hv : parseVal f r₂ = some (v, r₃)) :
    parseMember (f + 1) s = some (k, v, r₃) := by
  conv_lhs => rw [parseMember.eq_def]
  simp [h, hsb, h2, hv]

/-! ### The full serialization round-trip -/

theorem rt_main : ∀ (n : Nat) (v : JsonValue), jsize v ≤ n → wfV v = true →
    ∀ (ind : Nat) (rest : List Char) (f : Nat), delimOk rest = true →
    (stringifyI v ind).length < f →
    parseVal f (stringifyI v ind ++ rest) = some (v, rest) := by
  intro n
  induction n with
  | zero =>
    intro v hsz
    have := jsize_pos v
    omega
  | succ n ih =>
    intro v hsz hwf ind rest f hrest hfuel
    obtain ⟨f₁, rfl⟩ : ∃ f₁, f = f₁ + 1 := by
      have := len_stringify_pos v ind hwf
      cases f
      · omega
      · exact ⟨_, rfl⟩
    cases v with
    | null => exact parseVal_null f₁ rest
    | bool b =>
      cases b with
      | true => exact parseVal_true f₁ rest
      | false => exact parseVal_false f₁ rest
    | num t => exact parseVal_num f₁ t rest (by simpa [wfV] using hwf) hrest
    | str s => exact parseVal_str f₁ s rest
    | arr vs =>
      cases vs with
      | nil => exact parseVal_arr_nil f₁ rest
      | cons v₀ vs =>
        have hwfa : wfArr (v₀ :: vs) = true := hwf
        have hwfv : wfV v₀ = true := wfArr_mem _ _ hwfa (List.mem_cons_self _ _)
        have hwfs : ∀ w ∈ v₀ :: vs, wfV w = true := fun w hw => wfArr_mem _ _ hwfa hw
        have hmem : ∀ w ∈ v₀ :: vs, ∀ (ind' : Nat) (rest' : List Char) (f' : Nat),
            delimOk rest' = true → (stringifyI w ind').length < f' →
            parseVal f' (stringifyI w ind' ++ rest') = some (w, rest') := by
          intro w hw ind' rest' f' hd hf
          have hs : jsize w ≤ n := by
            have h1 := jsizeA_mem (v₀ :: vs) w hw
            simp only [jsize] at hsz
            omega
          exact ih w hs (hwfs w hw) ind' rest' f' hd hf
        have hlen : (stringifyI (.arr (v₀ :: vs)) ind).length =
            2 + (ind + 2) + (stringifyI v₀ (ind + 2)).length +
              (elemsTailText vs (ind + 2) ind).length := by
          rw [stringifyI_arr_cons]
          simp [len_spacesN]
          omega
        have hsv := len_stringify_pos v₀ (ind + 2) hwfv
        have hshape : stringifyI (.arr (v₀ :: vs)) ind ++ rest =
            '[' :: (('\n' :: spacesN (ind + 2)) ++ (stringifyI v₀ (ind + 2) ++
              (elemsTailText vs (ind + 2) ind ++ rest))) := by
          rw [stringifyI_arr_cons]
          simp
        rw [hshape]
        obtain ⟨c0, cs, he, hc0w, hc0b, hc0r, hc0c⟩ := stringify_head v₀ (ind + 2) hwfv
        have h1 : dropWs ('[' :: (('\n' :: spacesN (ind + 2)) ++ (stringifyI v₀ (ind + 2) ++
            (elemsTailText vs (ind + 2) ind ++ rest)))) =
            '[' :: (('\n' :: spacesN (ind + 2)) ++ (stringifyI v₀ (ind + 2) ++
              (elemsTailText vs (ind + 2) ind ++ rest))) := dropWs_cons_not (by decide) _
        have h2 : dropWs (('\n' :: spacesN (ind + 2)) ++ (stringifyI v₀ (ind + 2) ++
            (elemsTailText vs (ind + 2) ind ++ rest))) =
            c0 :: (cs ++ (elemsTailText vs (ind + 2) ind ++ rest)) := by
          rw [he]
          exact dropWs_append_of _ _ (nl_spaces_all_ws _) hc0w
        have hv0 : parseVal f₁ (c0 :: (cs ++ (elemsTailText vs (ind + 2) ind ++ rest))) =
            some (v₀, elemsTailText vs (ind + 2) ind ++ rest) := by
          rw [show c0 :: (cs ++ (elemsTailText vs (ind + 2) ind ++ rest)) =
            (c0 :: cs) ++ (elemsTailText vs (ind + 2) ind ++ rest) from rfl, ← he]
          exact hmem v₀ (List.mem_cons_self _ _) (ind + 2) _ f₁
            (delimOk_elemsTail vs (ind + 2) ind rest) (by omega)
        rw [parseVal_arr_step f₁ _ _ _ c0 v₀ _ h1 h2 hc0b hv0]
        have hrec := rtElemsTail vs [v₀] (ind + 2) ind f₁ rest
          (fun w hw => hmem w (List.mem_cons_of_mem _ hw))
          (fun w hw => hwfs w (List.mem_cons_of_mem _ hw)) hrest (by omega)
        rw [hrec]
        simp
    | obj ms =>
      cases ms with
      | nil => exact parseVal_obj_nil f₁ rest
      | cons m ms =>
        obtain ⟨k₀, w₀⟩ := m
        have hwfo : wfObj ((k₀, w₀) :: ms) = true := hwf
        have hwfv : wfV w₀ = true := wfObj_mem _ _ _ hwfo (List.mem_cons_self _ _)
        have hmem : ∀ k w, (k, w) ∈ (k₀, w₀) :: ms → ∀ (ind' : Nat) (rest' : List Char)
            (f' : Nat), delimOk rest' = true → (stringifyI w ind').length < f' →
            parseVal f' (stringifyI w ind' ++ rest') = some (w, rest') := by
          intro k w hw ind' rest' f' hd hf
          have hs : jsize w ≤ n := by
            have h1 := jsizeO_mem ((k₀, w₀) :: ms) k w hw
            simp only [jsize] at hsz
            omega
          exact ih w hs (wfObj_mem _ _ _ hwfo hw) ind' rest' f' hd hf
        have hlen : (stringifyI (.obj ((k₀, w₀) :: ms)) ind).length =
            2 + (ind + 2) + (quoteStr k₀).length + 2 + (stringifyI w₀ (ind + 2)).length +
              (membersTailText ms (ind + 2) ind).length := by
          rw [stringifyI_obj_cons]
          simp [len_spacesN]
          omega
        have hsv := len_stringify_pos w₀ (ind + 2) hwfv
        have hqk := len_quoteStr_ge k₀
        obtain ⟨f₂, rfl⟩ : ∃ f₂, f₁ = f₂ + 1 := by
          cases f₁
          · omega
          · exact ⟨_, rfl⟩
        have hshape : stringifyI (.obj ((k₀, w₀) :: ms)) ind ++ rest =
            '{' :: (('\n' :: spacesN (ind + 2)) ++
              ('"' :: (escBody k₀ ++ '"' :: (':' :: ' ' :: (stringifyI w₀ (ind + 2) ++
                (membersTailText ms (ind + 2) ind ++ rest)))))) := by
          rw [stringifyI_obj_cons]
          simp [quoteStr]
        rw [hshape]
        have h1 : dropWs ('{' :: (('\n' :: spacesN (ind + 2)) ++
            ('"' :: (escBody k₀ ++ '"' :: (':' :: ' ' :: (stringifyI w₀ (ind + 2) ++
              (membersTailText ms (ind + 2) ind ++ rest))))))) =
            '{' :: (('\n' :: spacesN (ind + 2)) ++
              ('"' :: (escBody k₀ ++ '"' :: (':' :: ' ' :: (stringifyI w₀ (ind + 2) ++
                (membersTailText ms (ind + 2) ind ++ rest)))))) := dropWs_cons_not (by decide) _
        have h2 : dropWs (('\n' :: spacesN (ind + 2)) ++
            ('"' :: (escBody k₀ ++ '"' :: (':' :: ' ' :: (stringifyI w₀ (ind + 2) ++
              (membersTailText ms (ind + 2) ind ++ rest)))))) =
            '"' :: (escBody k₀ ++ '"' :: (':' :: ' ' :: (stringifyI w₀ (ind + 2) ++
              (membersTailText ms (ind + 2) ind ++ rest)))) :=
          dropWs_append_of _ _ (nl_spaces_all_ws _) (by decide)
        have hpv : parseVal f₂ (' ' :: (stringifyI w₀ (ind + 2) ++
            (membersTailText ms (ind + 2) ind ++ rest))) =
            some (w₀, membersTailText ms (ind + 2) ind ++ rest) := by
          rw [parseVal_congr_ws (dropWs_cons_ws (by decide) _)]
          exact hmem k₀ w₀ (List.mem_cons_self _ _) (ind + 2) _ f₂
            (delimOk_membersTail ms (ind + 2) ind rest) (by omega)
        have hm : parseMember (f₂ + 1)
            ('"' :: (escBody k₀ ++ '"' :: (':' :: ' ' :: (stringifyI w₀ (ind + 2) ++
              (membersTailText ms (ind + 2) ind ++ rest))))) =
            some (k₀, w₀, membersTailText ms (ind + 2) ind ++ rest) := by
          refine parseMember_step f₂ _ _ _ _ k₀ w₀ _ (dropWs_cons_not (by decide) _)
            (psb_escBody k₀ _) (dropWs_cons_not (by decide) _) hpv
        rw [parseVal_obj_step (f₂ + 1) _ _ _ '"' k₀ w₀ _ h1 h2 (by decide) hm]
        have hrec := rtMembersTail ms (objInsert [] k₀ w₀) (ind + 2) ind (f₂ + 1) rest
          (fun k w hw => hmem k w (List.mem_cons_of_mem _ hw))
          (by
            show wfObj ((k₀, w₀) :: ms) = true
            exact hwfo) hrest (by omega)
        rw [hrec]
        simp [objInsert]

/-- The serialization of a well-formed value parses back to it, before any
trailing text at which a value may end. -/
theorem parseVal_stringify (v : JsonValue) (hwf : wfV v = true) (ind : Nat)
    (rest : List Char) (f : Nat) (hrest : delimOk rest = true)
    (hfuel : (stringifyI v ind).length < f) :
    parseVal f (stringifyI v ind ++ rest) = some (v, rest) :=
  rt_main (jsize v) v le_rfl hwf ind rest f hrest hfuel

/-- `JSON.parse` inverts `JSON.stringify(·, null, 2)` on well-formed values. -/
theorem parseJson_stringify (v : JsonValue) (hwf : wfV v = true) :
    parseJson (stringifyI v 0) = some v := by
  have h := parseVal_stringify v hwf 0 [] ((stringifyI v 0).length + 1) rfl (by omega)
  rw [List.append_nil] at h
  unfold parseJson
  rw [h]
  rfl

/-! ### The raw scanners accept each compact serialization -/

theorem hexDig_ne (n : Nat) (h : n < 16) : hexDig n ≠ '"' ∧ hexDig n ≠ '\\' := by
  interval_cases n <;> exact ⟨by decide, by decide⟩

theorem escChar_cases (c : Char) :
    (∃ e, escChar c = ['\\', e]) ∨
    (∃ h3 h4, escChar c = ['\\', 'u', '0', '0', h3, h4] ∧
      h3 ≠ '"' ∧ h3 ≠ '\\' ∧ h4 ≠ '"' ∧ h4 ≠ '\\') ∨
    (escChar c = [c] ∧ c ≠ '"' ∧ c ≠ '\\') := by
  by_cases h1 : c = '"'
  · exact Or.inl ⟨'"', by simp [escChar, h1]⟩
  by_cases h2 : c = '\\'
  · exact Or.inl ⟨'\\', by simp [escChar, h1, h2]⟩
  by_cases h3 : c = '\n'
  · exact Or.inl ⟨'n', by simp [escChar, h1, h2, h3]⟩
  by_cases h4 : c = '\r'
  · exact Or.inl ⟨'r', by simp [escChar, h1, h2, h3, h4]⟩
  by_cases h5 : c = '\t'
  · exact Or.inl ⟨'t', by simp [escChar, h1, h2, h3, h4, h5]⟩
  by_cases h6 : c = Char.ofNat 8
  · exact Or.inl ⟨'b', by simp [escChar, h1, h2, h3, h4, h5, h6]⟩
  by_cases h7 : c = Char.ofNat 12
  · exact Or.inl ⟨'f', by simp [escChar, h1, h2, h3, h4, h5, h6, h7]⟩
  by_cases h8 : c.toNat < 32
  · refine Or.inr (Or.inl ⟨hexDig (c.toNat / 16), hexDig (c.toNat % 16),
      by simp [escChar, h1, h2, h3, h4, h5, h6, h7, h8], ?_, ?_, ?_, ?_⟩)
    · exact (hexDig_ne _ (by omega)).1
    · exact (hexDig_ne _ (by omega)).2
    · exact (hexDig_ne _ (by omega)).1
    · exact (hexDig_ne _ (by omega)).2
  · exact Or.inr (Or.inr ⟨by simp [escChar, h1, h2, h3, h4, h5, h6, h7, h8], h1, h2⟩)

theorem skipStr_escBody : ∀ (s rest : List Char),
    skipStr (escBody s ++ '"' :: rest) = some (escBody s ++ ['"'], rest)
  | [], rest => by
    rw [show escBody [] = ([] : List Char) from rfl]
    simpa using skipStr_quote rest
  | c :: s, rest => by
    rw [show escBody (c :: s) = escChar c ++ escBody s from by simp [escBody]]
    rcases escChar_cases c with ⟨e, he⟩ | ⟨h3, h4, he, hq3, hb3, hq4, hb4⟩ | ⟨he, hq, hb⟩
    · rw [he]
      simp only [List.cons_append, List.nil_append, List.append_assoc]
      rw [skipStr_esc, skipStr_escBody s rest]
      simp
    · rw [he]
      simp only [List.cons_append, List.nil_append, List.append_assoc]
      rw [skipStr_esc]
      rw [skipStr_other (by decide) (by decide)]
      rw [skipStr_other (by decide) (by decide)]
      rw [skipStr_other hq3 hb3]
      rw [skipStr_other hq4 hb4]
      rw [skipStr_escBody s rest]
      simp
    · rw [he]
      simp only [List.cons_append, List.nil_append, List.append_assoc]
      rw [skipStr_other hq hb, skipStr_escBody s rest]
      simp

theorem scanDepth_strBody : ∀ (s : List Char) (d : Nat) (rest : List Char),
    scanDepth d true false (escBody s ++ '"' :: rest) =
      (scanDepth d false false rest).map (fun p => ((escBody s ++ ['"']) ++ p.1, p.2))
  | [], d, rest => by
    rw [show escBody [] = ([] : List Char) from rfl]
    rw [List.nil_append, scanDepth_str_quote]
    cases scanDepth d false false rest <;> simp
  | c :: s, d, rest => by
    rw [show escBody (c :: s) = escChar c ++ escBody s from by simp [escBody]]
    rcases escChar_cases c with ⟨e, he⟩ | ⟨h3, h4, he, hq3, hb3, hq4, hb4⟩ | ⟨he, hq, hb⟩
    · rw [he]
      simp only [List.cons_append, List.nil_append, List.append_assoc]
      rw [scanDepth_str_bs, scanDepth_esc, scanDepth_strBody s d rest]
      cases scanDepth d false false rest <;> simp
    · rw [he]
      simp only [List.cons_append, List.nil_append, List.append_assoc]
      rw [scanDepth_str_bs, scanDepth_esc]
      rw [scanDepth_str_other (by decide) (by decide)]
      rw [scanDepth_str_other (by decide) (by decide)]
      rw [scanDepth_str_other hb3 hq3]
      rw [scanDepth_str_other hb4 hq4]
      rw [scanDepth_strBody s d rest]
      cases scanDepth d false false rest <;> simp
    · rw [he]
      simp only [List.cons_append, List.nil_append, List.append_assoc]
      rw [scanDepth_str_other hb hq, scanDepth_strBody s d rest]
      cases scanDepth d false false rest <;> simp

theorem scanDepth_quoteStr (k : List Char) (d : Nat) (rest : List Char) :
    scanDepth d false false (quoteStr k ++ rest) =
      (scanDepth d false false rest).map (fun p => (quoteStr k ++ p.1, p.2)) := by
  have hsh : quoteStr k ++ rest = '"' :: (escBody k ++ '"' :: rest) := by simp [quoteStr]
  rw [hsh, scanDepth_out_quote, scanDepth_strBody k d rest]
  cases scanDepth d false false rest <;> simp [quoteStr]

theorem scanDepth_neutral : ∀ (w : List Char),
    (∀ ch ∈ w, ch ≠ '"' ∧ ch ≠ '{' ∧ ch ≠ '[' ∧ ch ≠ '}' ∧ ch ≠ ']') →
    ∀ (d : Nat) (rest : List Char), scanDepth d false false (w ++ rest) =
      (scanDepth d false false rest).map (fun p => (w ++ p.1, p.2))
  | [], _, d, rest => by
    rw [List.nil_append]
    cases scanDepth d false false rest <;> simp
  | c :: w, hw, d, rest => by
    obtain ⟨h1, h2, h3, h4, h5⟩ := hw c (by simp)
    rw [List.cons_append, scanDepth_out_other h1 h2 h3 h4 h5]
    rw [scanDepth_neutral w (fun ch hch => hw ch (by simp [hch])) d rest]
    cases scanDepth d false false rest <;> simp

theorem numChar_not_special {c : Char} (h : numChar c = true) :
    c ≠ '"' ∧ c ≠ '{' ∧ c ≠ '[' ∧ c ≠ '}' ∧ c ≠ ']' := by
  refine ⟨fun he => ?_, fun he => ?_, fun he => ?_, fun he => ?_, fun he => ?_⟩ <;>
    · subst he
      exact absurd h (by decide)

theorem scanDepth_compact : ∀ (n : Nat),
    (∀ v : JsonValue, jsize v ≤ n → wfV v = true → ∀ (d : Nat) (rest : List Char), 1 ≤ d →
      scanDepth d false false (serializeCompact v ++ rest) =
        (scanDepth d false false rest).map (fun p => (serializeCompact v ++ p.1, p.2))) ∧
    (∀ vs : List JsonValue, jsizeA vs ≤ n → wfArr vs = true →
      ∀ (d : Nat) (rest : List Char), 1 ≤ d →
      scanDepth d false false (serializeItems vs ++ rest) =
        (scanDepth d false false rest).map (fun p => (serializeItems vs ++ p.1, p.2))) ∧
    (∀ ms : List (List Char × JsonValue), jsizeO ms ≤ n → wfObj ms = true →
      ∀ (d : Nat) (rest : List Char), 1 ≤ d →
      scanDepth d false false (serializeMembers ms ++ rest) =
        (scanDepth d false false rest).map (fun p => (serializeMembers ms ++ p.1, p.2))) := by
  intro n
  induction n with
  | zero =>
    refine ⟨fun v hsz => ?_, fun vs hsz => ?_, fun ms hsz => ?_⟩
    · have := jsize_pos v
      omega
    · cases vs with
      | nil =>
        intro _ d rest _
        rw [show serializeItems [] = ([] : List Char) from rfl, List.nil_append]
        cases scanDepth d false false rest <;> simp
      | cons v vs =>
        simp only [jsizeA] at hsz
        omega
    · cases ms with
      | nil =>
        intro _ d rest _
        rw [show serializeMembers [] = ([] : List Char) from rfl, List.nil_append]
        cases scanDepth d false false rest <;> simp
      | cons m ms =>
        obtain ⟨k, v⟩ := m
        simp only [jsizeO] at hsz
        omega
  | succ n ih =>
    obtain ⟨ihv, ihA, ihO⟩ := ih
    refine ⟨fun v hsz hwf d rest hd => ?_, fun vs hsz hwf d rest hd => ?_,
      fun ms hsz hwf d rest hd => ?_⟩
    · cases v with
      | null => exact scanDepth_neutral nullTok (by decide) d rest
      | bool b =>
        cases b with
        | true => exact scanDepth_neutral trueTok (by decide) d rest
        | false => exact scanDepth_neutral falseTok (by decide) d rest
      | num t =>
        have hall := (validNumber_shape (by simpa [wfV] using hwf)).2
        exact scanDepth_neutral t (fun ch hch => numChar_not_special (hall ch hch)) d rest
      | str s => exact scanDepth_quoteStr s d rest
      | arr vs =>
        have hsh : serializeCompact (.arr vs) ++ rest =
            '[' :: (serializeItems vs ++ ']' :: rest) := by
          show ('[' :: serializeItems vs ++ [']']) ++ rest = _
          simp
        rw [hsh, scanDepth_out_open (by decide) (Or.inr rfl)]
        have hsz' : jsizeA vs ≤ n := by
          simp only [jsize] at hsz
          omega
        rw [ihA vs hsz' hwf (d + 1) (']' :: rest) (by omega)]
        rw [scanDepth_out_close_go (by decide) (by decide) (by decide) (Or.inr rfl)
          (d + 1) false rest (by omega)]
        rw [show d + 1 - 1 = d from by omega]
        cases scanDepth d false false rest <;>
          simp [show serializeCompact (.arr vs) = '[' :: serializeItems vs ++ [']'] from rfl]
      | obj ms =>
        have hsh : serializeCompact (.obj ms) ++ rest =
            '{' :: (serializeMembers ms ++ '}' :: rest) := by
          show ('{' :: serializeMembers ms ++ ['}']) ++ rest = _
          simp
        rw [hsh, scanDepth_out_open (by decide) (Or.inl rfl)]
        have hsz' : jsizeO ms ≤ n := by
          simp only [jsize] at hsz
          omega
        rw [ihO ms hsz' hwf (d + 1) ('}' :: rest) (by omega)]
        rw [scanDepth_out_close_go (by decide) (by decide) (by decide) (Or.inl rfl)
          (d + 1) false rest (by omega)]
        rw [show d + 1 - 1 = d from by omega]
        cases scanDepth d false false rest <;>
          simp [show serializeCompact (.obj ms) = '{' :: serializeMembers ms ++ ['}'] from rfl]
    · cases vs with
      | nil =>
        rw [show serializeItems [] = ([] : List Char) from rfl, List.nil_append]
        cases scanDepth d false false rest <;> simp
      | cons v vs =>
        cases vs with
        | nil =>
          have hsz' : jsize v ≤ n := by
            simp only [jsizeA] at hsz
            omega
          have hwf' : wfV v = true := by
            simp only [wfArr, Bool.and_eq_true] at hwf
            exact hwf.1
          exact ihv v hsz' hwf' d rest hd
        | cons w vs =>
          simp only [wfArr, Bool.and_eq_true] at hwf
          have hsh : serializeItems (v :: w :: vs) ++ rest =
              serializeCompact v ++ (',' :: (serializeItems (w :: vs) ++ rest)) := by
            show (serializeCompact v ++ ',' :: serializeItems (w :: vs)) ++ rest = _
            simp
          rw [hsh]
          have hszv : jsize v ≤ n := by
            simp only [jsizeA] at hsz
            omega
          have hszw : jsizeA (w :: vs) ≤ n := by
            have := jsize_pos v
            simp only [jsizeA] at hsz ⊢
            omega
          rw [ihv v hszv hwf.1 d (',' :: (serializeItems (w :: vs) ++ rest)) hd]
          rw [scanDepth_out_other (by decide) (by decide) (by decide) (by decide) (by decide)]
          rw [ihA (w :: vs) hszw (by
            simp only [wfArr, Bool.and_eq_true]
            exact hwf.2) d rest hd]
          cases scanDepth d false false rest <;>
            simp [show serializeItems (v :: w :: vs) =
              serializeCompact v ++ ',' :: serializeItems (w :: vs) from rfl]
    · cases ms with
      | nil =>
        rw [show serializeMembers [] = ([] : List Char) from rfl, List.nil_append]
        cases scanDepth d false false rest <;> simp
      | cons m ms =>
        obtain ⟨k, v⟩ := m
        cases ms with
        | nil =>
          have hsz' : jsize v ≤ n := by
            simp only [jsizeO] at hsz
            omega
          have hwf' : wfV v = true := by
            simp only [wfObj, Bool.and_eq_true] at hwf
            exact hwf.1.1
          have hsh : serializeMembers [(k, v)] ++ rest =
              quoteStr k ++ (':' :: (serializeCompact v ++ rest)) := by
            show (quoteStr k ++ ':' :: serializeCompact v) ++ rest = _
            simp
          rw [hsh, scanDepth_quoteStr]
          rw [scanDepth_out_other (by decide) (by decide) (by decide) (by decide) (by decide)]
          rw [ihv v hsz' hwf' d rest hd]
          cases scanDepth d false false rest <;>
            simp [show serializeMembers [(k, v)] =
              quoteStr k ++ ':' :: serializeCompact v from rfl]
        | cons m' ms =>
          obtain ⟨k', v'⟩ := m'
          simp only [wfObj, Bool.and_eq_true] at hwf
          have hszv : jsize v ≤ n := by
            simp only [jsizeO] at hsz
            omega
          have hszm : jsizeO ((k', v') :: ms) ≤ n := by
            have := jsize_pos v
            simp only [jsizeO] at hsz ⊢
            omega
          have hsh : serializeMembers ((k, v) :: (k', v') :: ms) ++ rest =
              quoteStr k ++ (':' :: (serializeCompact v ++
                (',' :: (serializeMembers ((k', v') :: ms) ++ rest)))) := by
            show (quoteStr k ++ ':' :: serializeCompact v ++
              ',' :: serializeMembers ((k', v') :: ms)) ++ rest = _
            simp
          rw [hsh, scanDepth_quoteStr]
          rw [scanDepth_out_other (by decide) (by decide) (by decide) (by decide) (by decide)]
          rw [ihv v hszv hwf.1.1 d _ hd]
          rw [scanDepth_out_other (by decide) (by decide) (by decide) (by decide) (by decide)]
          rw [ihO ((k', v') :: ms) hszm (by
            simp only [wfObj, Bool.and_eq_true]
            exact hwf.2) d rest hd]
          cases scanDepth d false false rest <;>
            simp [show serializeMembers ((k, v) :: (k', v') :: ms) =
              quoteStr k ++ ':' :: serializeCompact v ++
                ',' :: serializeMembers ((k', v') :: ms) from rfl]

theorem skipValue_keyword (c : Char) (w' : List Char) (hca : c.isAlpha = true)
    (hq : c ≠ '"') (hbr : c ≠ '{') (hbk : c ≠ '[')
    (hnd : (c.isDigit || c = '-') = false)
    (hall : ∀ x ∈ c :: w', x.isAlpha = true)
    (rest : List Char) (hrest : delimOk rest = true) :
    skipValue ((c :: w') ++ rest) = some (c :: w', rest) := by
  have htk : (c :: (w' ++ rest)).takeWhile Char.isAlpha = c :: w' := by
    cases rest with
    | nil => rw [List.append_nil]; exact takeWhile_all_self hall
    | cons c₀ r₀ => exact takeWhile_all_append hall (delimOk_not_alpha hrest) r₀
  have hdr : (c :: (w' ++ rest)).dropWhile Char.isAlpha = rest := by
    cases rest with
    | nil => rw [List.append_nil]; exact dropWhile_all hall
    | cons c₀ r₀ => exact dropWhile_all_append hall (delimOk_not_alpha hrest) r₀
  rw [List.cons_append, skipValue_alpha hq hbr hbk hnd hca]
  rw [htk, hdr]

/-- `skipValue` consumes exactly the compact serialization of a well-formed
value when a legal delimiter follows. -/
theorem skipValue_serialize (v : JsonValue) (hwf : wfV v = true) (rest : List Char)
    (hrest : delimOk rest = true) :
    skipValue (serializeCompact v ++ rest) = some (serializeCompact v, rest) := by
  cases v with
  | null =>
    exact skipValue_keyword 'n' ['u', 'l', 'l'] (by decide) (by decide) (by decide) (by decide)
      (by decide) (by decide) rest hrest
  | bool b =>
    cases b with
    | true =>
      exact skipValue_keyword 't' ['r', 'u', 'e'] (by decide) (by decide) (by decide) (by decide)
        (by decide) (by decide) rest hrest
    | false =>
      exact skipValue_keyword 'f' ['a', 'l', 's', 'e'] (by decide) (by decide) (by decide)
        (by decide) (by decide) (by decide) rest hrest
  | num t =>
    obtain ⟨⟨c, t', ht, hhead⟩, hall⟩ := validNumber_shape (by simpa [wfV] using hwf)
    obtain ⟨hws, hn, hts, hfs, hq, hbr, hbk, _, _⟩ := digitStart_facts hhead
    have hsh : serializeCompact (.num t) ++ rest = c :: (t' ++ rest) := by
      show t ++ rest = _
      rw [ht, List.cons_append]
    rw [hsh]
    rw [skipValue_num hq hbr hbk hhead]
    rw [ht] at hall
    have htk : (c :: (t' ++ rest)).takeWhile numChar = c :: t' := by
      cases rest with
      | nil => rw [List.append_nil]; exact takeWhile_all_self hall
      | cons c₀ r₀ => exact takeWhile_all_append hall (delimOk_not_numChar hrest) r₀
    have hdr : (c :: (t' ++ rest)).dropWhile numChar = rest := by
      cases rest with
      | nil => rw [List.append_nil]; exact dropWhile_all hall
      | cons c₀ r₀ => exact dropWhile_all_append hall (delimOk_not_numChar hrest) r₀
    rw [htk, hdr]
    show some (c :: t', rest) = some (t, rest)
    rw [ht]
  | str s =>
    have hsh : serializeCompact (.str s) ++ rest = '"' :: (escBody s ++ '"' :: rest) := by
      show quoteStr s ++ rest = _
      simp [quoteStr]
    rw [hsh, skipValue_quote, skipStr_escBody s rest]
    simp [quoteStr, show serializeCompact (.str s) = quoteStr s from rfl]
  | arr vs =>
    have hsh : serializeCompact (.arr vs) ++ rest =
        '[' :: (serializeItems vs ++ ']' :: rest) := by
      show ('[' :: serializeItems vs ++ [']']) ++ rest = _
      simp
    rw [hsh, skipValue_open (by decide) (Or.inr rfl)]
    rw [(scanDepth_compact (jsizeA vs)).2.1 vs le_rfl hwf 1 (']' :: rest) le_rfl]
    rw [scanDepth_out_close_hit (by decide) (by decide) (by decide) (Or.inr rfl)]
    simp [show serializeCompact (.arr vs) = '[' :: serializeItems vs ++ [']'] from rfl]
  | obj ms =>
    have hsh : serializeCompact (.obj ms) ++ rest =
        '{' :: (serializeMembers ms ++ '}' :: rest) := by
      show ('{' :: serializeMembers ms ++ ['}']) ++ rest = _
      simp
    rw [hsh, skipValue_open (by decide) (Or.inl rfl)]
    rw [(scanDepth_compact (jsizeO ms)).2.2 ms le_rfl hwf 1 ('}' :: rest) le_rfl]
    rw [scanDepth_out_close_hit (by decide) (by decide) (by decide) (Or.inl rfl)]
    simp [show serializeCompact (.obj ms) = '{' :: serializeMembers ms ++ ['}'] from rfl]

/-- The compact serialization of a well-formed value starts with a
non-whitespace character. -/
theorem serializeCompact_head (v : JsonValue) (hwf : wfV v = true) :
    ∃ c0 cs, serializeCompact v = c0 :: cs ∧ isWsChar c0 = false := by
  cases v with
  | null => exact ⟨'n', _, rfl, by decide⟩
  | bool b =>
    cases b with
    | true => exact ⟨'t', _, rfl, by decide⟩
    | false => exact ⟨'f', _, rfl, by decide⟩
  | num t =>
    obtain ⟨⟨c, t', ht, hhead⟩, _⟩ := validNumber_shape (by simpa [wfV] using hwf)
    exact ⟨c, t', by show t = _; rw [ht], (digitStart_facts hhead).1⟩
  | str s => exact ⟨'"', _, rfl, by decide⟩
  | arr vs => exact ⟨'[', _, rfl, by decide⟩
  | obj ms => exact ⟨'{', _, rfl, by decide⟩

/-! ### Head and extension facts for `skipValue` and `elemSkip` -/

theorem isAlpha_not_ws {c : Char} (h : c.isAlpha = true) : isWsChar c = false := by
  cases hw : isWsChar c
  · rfl
  · exfalso
    simp only [isWsChar, Bool.or_eq_true_iff, decide_eq_true_eq] at hw
    rcases hw with ((h1 | h1) | h1) | h1 <;>
      · subst h1
        exact absurd h (by decide)

theorem skipValue_head : ∀ {x t r : List Char}, skipValue x = some (t, r) →
    ∃ c0 cs, t = c0 :: cs ∧ isWsChar c0 = false ∧ x = c0 :: (cs ++ r) := by
  intro x t r h
  cases x with
  | nil => rw [skipValue_nil] at h; cases h
  | cons c x =>
    by_cases h1 : c = '"'
    · subst h1
      rw [skipValue_quote] at h
      cases hk : skipStr x with
      | none => rw [hk] at h; cases h
      | some p =>
        obtain ⟨t', r'⟩ := p
        rw [hk] at h
        simp only [Option.map_some'] at h
        injection h with h'
        rw [Prod.ext_iff] at h'
        obtain ⟨hq1, hq2⟩ := h'
        simp only at hq1 hq2
        subst hq2
        refine ⟨'"', t', hq1.symm, by decide, ?_⟩
        rw [(skipStr_spec x t' r' hk).1]
    · by_cases h2 : c = '{' ∨ c = '['
      · rw [skipValue_open h1 h2] at h
        cases hk : scanDepth 1 false false x with
        | none => rw [hk] at h; cases h
        | some p =>
          obtain ⟨t', r'⟩ := p
          rw [hk] at h
          simp only [Option.map_some'] at h
          injection h with h'
          rw [Prod.ext_iff] at h'
          obtain ⟨hq1, hq2⟩ := h'
          simp only at hq1 hq2
          subst hq2
          refine ⟨c, t', hq1.symm, ?_, ?_⟩
          · rcases h2 with h2 | h2 <;> (subst h2; decide)
          · rw [(scanDepth_spec x 1 false false t' r' hk).1]
      · have h2a : c ≠ '{' := fun hx => h2 (Or.inl hx)
        have h2b : c ≠ '[' := fun hx => h2 (Or.inr hx)
        by_cases h3 : (c.isDigit || c = '-') = true
        · rw [skipValue_num h1 h2a h2b h3] at h
          injection h with h'
          rw [Prod.ext_iff] at h'
          obtain ⟨hq1, hq2⟩ := h'
          simp only at hq1 hq2
          have hnumc : numChar c = true := by
            rcases Bool.or_eq_true_iff.mp h3 with hd | hd
            · simp [numChar, hd]
            · simp [numChar, hd]
          refine ⟨c, x.takeWhile numChar, ?_, (digitStart_facts h3).1, ?_⟩
          · rw [← hq1, List.takeWhile_cons_of_pos hnumc]
          · rw [← hq2, List.dropWhile_cons_of_pos hnumc, List.takeWhile_append_dropWhile]
        · by_cases h4 : c.isAlpha = true
          · rw [skipValue_alpha h1 h2a h2b (by simpa using h3) h4] at h
            injection h with h'
            rw [Prod.ext_iff] at h'
            obtain ⟨hq1, hq2⟩ := h'
            simp only at hq1 hq2
            refine ⟨c, x.takeWhile Char.isAlpha, ?_, isAlpha_not_ws h4, ?_⟩
            · rw [← hq1, List.takeWhile_cons_of_pos h4]
            · rw [← hq2, List.dropWhile_cons_of_pos h4, List.takeWhile_append_dropWhile]
          · rw [skipValue_bad h1 h2a h2b (by simpa using h3) (by simpa using h4)] at h
            cases h

theorem skipValue_extend_comma {x t W s₂ : List Char}
    (hs : skipValue x = some (t, W ++ ',' :: s₂)) (Z : List Char) :
    skipValue (t ++ (W ++ ',' :: Z)) = some (t, W ++ ',' :: Z) := by
  cases W with
  | nil => simpa using skipValue_extend (by simpa using hs) Z
  | cons w0 W' =>
    have h := skipValue_extend (by simpa using hs) (W' ++ ',' :: Z)
    simpa using h

theorem elemSkip_succ (i : Nat) (s t₀ s₁ s₂ : List Char)
    (h1 : skipValue (dropWs s) = some (t₀, s₁))
    (h2 : dropWs s₁ = ',' :: s₂) :
    elemSkip (i + 1) s =
      (elemSkip i s₂).map (fun q => (takeWs s ++ t₀ ++ takeWs s₁ ++ ',' :: q.1, q.2)) := by
  conv_lhs => rw [elemSkip.eq_def]
  simp [h1, h2]

theorem elemSkip_extend : ∀ (i : Nat) (s pre rest : List Char),
    elemSkip i s = some (pre, rest) →
    ∀ rest', elemSkip i (pre ++ rest') = some (pre, rest')
  | 0, s, pre, rest => by
    intro h rest'
    simp only [elemSkip] at h
    injection h with h'
    rw [Prod.ext_iff] at h'
    obtain ⟨hq1, hq2⟩ := h'
    simp only at hq1 hq2
    subst hq1
    simp [elemSkip]
  | i + 1, s, pre, rest => by
    intro h rest'
    simp only [elemSkip] at h
    cases hsv : skipValue (dropWs s) with
    | none => rw [hsv] at h; cases h
    | some p0 =>
      obtain ⟨t₀, s₁⟩ := p0
      rw [hsv] at h
      simp only at h
      cases hds : dropWs s₁ with
      | nil => rw [hds] at h; cases h
      | cons cc s₂ =>
        rw [hds] at h
        simp only at h
        by_cases hcc : cc = ','
        · rw [if_pos hcc] at h
          subst hcc
          cases hes : elemSkip i s₂ with
          | none => rw [hes] at h; cases h
          | some q =>
            obtain ⟨q1, q2⟩ := q
            rw [hes] at h
            simp only [Option.map_some'] at h
            injection h with h'
            rw [Prod.ext_iff] at h'
            obtain ⟨hq1, hq2⟩ := h'
            simp only at hq1 hq2
            subst hq2
            subst hq1
            obtain ⟨c0, cs0, ht0, hc0, hx0⟩ := skipValue_head hsv
            have hs₁ : s₁ = takeWs s₁ ++ ',' :: s₂ := by
              conv_lhs => rw [← takeWs_dropWs s₁]
              rw [hds]
            have hsv' : skipValue (dropWs s) = some (t₀, takeWs s₁ ++ ',' :: s₂) := by
              rw [hsv, ← hs₁]
            have hext := skipValue_extend_comma hsv' (q1 ++ rest')
            have hshape : (takeWs s ++ t₀ ++ takeWs s₁ ++ ',' :: q1) ++ rest' =
                takeWs s ++ (c0 :: (cs0 ++ (takeWs s₁ ++ ',' :: (q1 ++ rest')))) := by
              rw [ht0]
              simp
            have hdw : dropWs ((takeWs s ++ t₀ ++ takeWs s₁ ++ ',' :: q1) ++ rest') =
                t₀ ++ (takeWs s₁ ++ ',' :: (q1 ++ rest')) := by
              rw [hshape, dropWs_append_of _ _ (allWs_takeWs s) hc0, ht0]
              simp
            have htkS : takeWs ((takeWs s ++ t₀ ++ takeWs s₁ ++ ',' :: q1) ++ rest') =
                takeWs s := by
              rw [hshape]
              exact takeWs_append_of _ _ (allWs_takeWs s) hc0
            have hdw2 : dropWs (takeWs s₁ ++ ',' :: (q1 ++ rest')) = ',' :: (q1 ++ rest') :=
              dropWs_append_of _ _ (allWs_takeWs s₁) (by decide)
            have htk2 : takeWs (takeWs s₁ ++ ',' :: (q1 ++ rest')) = takeWs s₁ :=
              takeWs_append_of _ _ (allWs_takeWs s₁) (by decide)
            rw [elemSkip_succ i _ t₀ (takeWs s₁ ++ ',' :: (q1 ++ rest')) (q1 ++ rest')
              (by rw [hdw]; exact hext) hdw2]
            rw [elemSkip_extend i s₂ q1 q2 hes rest']
            simp only [Option.map_some']
            rw [htkS, htk2]
        · rw [if_neg hcc] at h
          cases h

/-! ### Branch steps of the resolver -/

theorem resolve_nil_step (f : Nat) (s t a : List Char)
    (h1 : skipValue (dropWs s) = some (t, a)) (h2 : delimOk a = true) :
    resolve (f + 1) s [] = some (takeWs s, t, a) := by
  conv_lhs => rw [resolve.eq_def]
  simp [h1, h2]

theorem resolve_key_step (f : Nat) (s s₁ : List Char) (k : List Char) (ps : List Seg)
    (h1 : dropWs s = '{' :: s₁) :
    resolve (f + 1) s (.key k :: ps) =
      (membLoop f k ps s₁).map (fun q => (takeWs s ++ '{' :: q.1, q.2.1, q.2.2)) := by
  conv_lhs => rw [resolve.eq_def]
  simp [h1]

theorem resolve_idx_step (f : Nat) (s s₁ pre rest : List Char) (i : Nat) (ps : List Seg)
    (h1 : dropWs s = '[' :: s₁) (h2 : elemSkip i s₁ = some (pre, rest)) :
    resolve (f + 1) s (.idx i :: ps) =
      (resolve f rest ps).map (fun q => (takeWs s ++ '[' :: pre ++ q.1, q.2.1, q.2.2)) := by
  conv_lhs => rw [resolve.eq_def]
  simp [h1, h2]

theorem membLoop_hit_step (g : Nat) (k : List Char) (ps : List Seg) (s s₁ : List Char)
    (key s₂ s₄ : List Char)
    (h1 : dropWs s = '"' :: s₁) (h2 : parseStrBody s₁ = some (key, s₂))
    (h3 : dropWs s₂ = ':' :: s₄) (h4 : key = k) :
    membLoop (g + 1) k ps s =
      (resolve g s₄ ps).map (fun q =>
        (takeWs s ++ '"' :: s₁.take (s₁.length - s₂.length) ++ takeWs s₂ ++ ':' :: q.1,
          q.2.1, q.2.2)) := by
  conv_lhs => rw [membLoop.eq_def]
  simp [h1, h2, h3, h4]

theorem membLoop_skip_step (g : Nat) (k : List Char) (ps : List Seg) (s s₁ : List Char)
    (key s₂ s₄ t₀ s₅ s₇ : List Char)
    (h1 : dropWs s = '"' :: s₁) (h2 : parseStrBody s₁ = some (key, s₂))
    (h3 : dropWs s₂ = ':' :: s₄) (h4 : key ≠ k)
    (h5 : skipValue (dropWs s₄) = some (t₀, s₅)) (h6 : dropWs s₅ = ',' :: s₇) :
    membLoop (g + 1) k ps s =
      (membLoop g k ps s₇).map (fun q =>
        (takeWs s ++ '"' :: s₁.take (s₁.length - s₂.length) ++ takeWs s₂ ++
          ':' :: takeWs s₄ ++ t₀ ++ takeWs s₅ ++ ',' :: q.1, q.2.1, q.2.2)) := by
  conv_lhs => rw [membLoop.eq_def]
  simp [h1, h2, h3, h4, h5, h6]

/-! ### Stability of the resolver under replacement of the target -/

theorem resolve_membLoop_stab (c : List Char) (c0 : Char) (cs : List Char)
    (hc : c = c0 :: cs) (hc0 : isWsChar c0 = false)
    (hcsv : ∀ rest, delimOk rest = true → skipValue (c ++ rest) = some (c, rest)) :
    ∀ f : Nat,
    (∀ s p b t a, resolve f s p = some (b, t, a) →
      delimOk a = true ∧
      ∀ f', b.length + 1 ≤ f' → resolve f' (b ++ c ++ a) p = some (b, c, a)) ∧
    (∀ k ps s b t a, membLoop f k ps s = some (b, t, a) →
      delimOk a = true ∧
      ∀ f', b.length + 1 ≤ f' → membLoop f' k ps (b ++ c ++ a) = some (b, c, a)) := by
  intro f
  induction f with
  | zero =>
    constructor
    · intro s p b t a h; simp [resolve] at h
    · intro k ps s b t a h; simp [membLoop] at h
  | succ f ih =>
    obtain ⟨ihr, ihm⟩ := ih
    constructor
    · intro s p b t a h
      cases p with
      | nil =>
        simp only [resolve] at h
        cases hsv : skipValue (dropWs s) with
        | none => rw [hsv] at h; cases h
        | some p0 =>
          obtain ⟨t₀, a₀⟩ := p0
          rw [hsv] at h
          simp only at h
          by_cases hd : delimOk a₀
          · rw [if_pos hd] at h
            simp only [Option.some.injEq, Prod.mk.injEq] at h
            obtain ⟨hb, ht, ha⟩ := h
            subst hb; subst ht; subst ha
            refine ⟨hd, ?_⟩
            intro f' hf'
            obtain ⟨f'', rfl⟩ : ∃ f'', f' = f'' + 1 := by
              cases f'
              · omega
              · exact ⟨_, rfl⟩
            have hdw : dropWs (takeWs s ++ c ++ a₀) = c ++ a₀ := by
              rw [hc]
              simpa using dropWs_append_of c0 (cs ++ a₀) (allWs_takeWs s) hc0
            have htk : takeWs (takeWs s ++ c ++ a₀) = takeWs s := by
              rw [hc]
              simpa using takeWs_append_of c0 (cs ++ a₀) (allWs_takeWs s) hc0
            have hstep := resolve_nil_step f'' (takeWs s ++ c ++ a₀) c a₀
              (by rw [hdw]; exact hcsv a₀ hd) hd
            rw [hstep, htk]
          · rw [if_neg hd] at h; cases h
      | cons seg ps =>
        cases seg with
        | key k =>
          simp only [resolve] at h
          cases hds : dropWs s with
          | nil => rw [hds] at h; cases h
          | cons cc s₁ =>
            rw [hds] at h
            simp only at h
            by_cases hcc : cc = '{'
            · rw [if_pos hcc] at h
              subst hcc
              cases hm : membLoop f k ps s₁ with
              | none => rw [hm] at h; cases h
              | some q =>
                obtain ⟨q1, q2, q3⟩ := q
                rw [hm] at h
                simp only [Option.map_some', Option.some.injEq, Prod.mk.injEq] at h
                obtain ⟨hb, ht, ha⟩ := h
                subst hb; subst ht; subst ha
                obtain ⟨hda, hstab⟩ := ihm k ps s₁ q1 q2 q3 hm
                refine ⟨hda, ?_⟩
                intro f' hf'
                obtain ⟨f'', rfl⟩ : ∃ f'', f' = f'' + 1 := by
                  cases f'
                  · omega
                  · exact ⟨_, rfl⟩
                have hsh : (takeWs s ++ '{' :: q1) ++ c ++ q3 =
                    takeWs s ++ ('{' :: (q1 ++ c ++ q3)) := by simp
                have hds' : dropWs ((takeWs s ++ '{' :: q1) ++ c ++ q3) =
                    '{' :: (q1 ++ c ++ q3) := by
                  rw [hsh]
                  exact dropWs_append_of _ _ (allWs_takeWs s) (by decide)
                have htk : takeWs ((takeWs s ++ '{' :: q1) ++ c ++ q3) = takeWs s := by
                  rw [hsh]
                  exact takeWs_append_of _ _ (allWs_takeWs s) (by decide)
                rw [resolve_key_step f'' _ _ k ps hds']
                rw [hstab f'' (by
                  simp only [List.length_append, List.length_cons] at hf'
                  omega)]
                simp only [Option.map_some']
                rw [htk]
            · rw [if_neg hcc] at h; cases h
        | idx i =>
          simp only [resolve] at h
          cases hds : dropWs s with
          | nil => rw [hds] at h; cases h
          | cons cc s₁ =>
            rw [hds] at h
            simp only at h
            by_cases hcc : cc = '['
            · rw [if_pos hcc] at h
              subst hcc
              cases hes : elemSkip i s₁ with
              | none => rw [hes] at h; cases h
              | some pr =>
                obtain ⟨pre, rest₀⟩ := pr
                rw [hes] at h
                simp only at h
                cases hr : resolve f rest₀ ps with
                | none => rw [hr] at h; cases h
                | some q =>
                  obtain ⟨q1, q2, q3⟩ := q
                  rw [hr] at h
                  simp only [Option.map_some', Option.some.injEq, Prod.mk.injEq] at h
                  obtain ⟨hb, ht, ha⟩ := h
                  subst hb; subst ht; subst ha
                  obtain ⟨hda, hstab⟩ := ihr rest₀ ps q1 q2 q3 hr
                  refine ⟨hda, ?_⟩
                  intro f' hf'
                  obtain ⟨f'', rfl⟩ : ∃ f'', f' = f'' + 1 := by
                    cases f'
                    · omega
                    · exact ⟨_, rfl⟩
                  have hsh : (takeWs s ++ '[' :: pre ++ q1) ++ c ++ q3 =
                      takeWs s ++ ('[' :: (pre ++ (q1 ++ c ++ q3))) := by simp
                  have hds' : dropWs ((takeWs s ++ '[' :: pre ++ q1) ++ c ++ q3) =
                      '[' :: (pre ++ (q1 ++ c ++ q3)) := by
                    rw [hsh]
                    exact dropWs_append_of _ _ (allWs_takeWs s) (by decide)
                  have htk : takeWs ((takeWs s ++ '[' :: pre ++ q1) ++ c ++ q3) = takeWs s := by
                    rw [hsh]
                    exact takeWs_append_of _ _ (allWs_takeWs s) (by decide)
                  have hes' := elemSkip_extend i s₁ pre rest₀ hes (q1 ++ c ++ q3)
                  rw [resolve_idx_step f'' _ _ pre (q1 ++ c ++ q3) i ps hds' hes']
                  rw [hstab f'' (by
                    simp only [List.length_append, List.length_cons] at hf'
                    omega)]
                  simp only [Option.map_some']
                  rw [htk]
            · rw [if_neg hcc] at h; cases h
    · intro k ps s b t a h
      simp only [membLoop] at h
      cases hds : dropWs s with
      | nil => rw [hds] at h; cases h
      | cons cc s₁ =>
        rw [hds] at h
        simp only at h
        by_cases hcc : cc = '"'
        · rw [if_pos hcc] at h
          subst hcc
          cases hp : parseStrBody s₁ with
          | none => rw [hp] at h; cases h
          | some pk =>
            obtain ⟨key, s₂⟩ := pk
            rw [hp] at h
            simp only at h
            cases hds2 : dropWs s₂ with
            | nil => rw [hds2] at h; cases h
            | cons c₂ s₄ =>
              rw [hds2] at h
              simp only at h
              by_cases hc2 : c₂ = ':'
              · rw [if_pos hc2] at h
                subst hc2
                obtain ⟨raw, hraw, hpext⟩ := parseStrBody_spec s₁ key s₂ hp
                have hrawkey : s₁.take (s₁.length - s₂.length) = raw := by
                  rw [hraw, rawkey_eq]
                by_cases hkey : key = k
                · rw [if_pos hkey] at h
                  cases hr : resolve f s₄ ps with
                  | none => rw [hr] at h; cases h
                  | some q =>
                    obtain ⟨q1, q2, q3⟩ := q
                    rw [hr] at h
                    simp only [Option.map_some', Option.some.injEq, Prod.mk.injEq] at h
                    obtain ⟨hb, ht, ha⟩ := h
                    subst hb; subst ht; subst ha
                    obtain ⟨hda, hstab⟩ := ihr s₄ ps q1 q2 q3 hr
                    refine ⟨hda, ?_⟩
                    intro f' hf'
                    obtain ⟨f'', rfl⟩ : ∃ f'', f' = f'' + 1 := by
                      cases f'
                      · omega
                      · exact ⟨_, rfl⟩
                    have hsh : (takeWs s ++ '"' :: s₁.take (s₁.length - s₂.length) ++
                        takeWs s₂ ++ ':' :: q1) ++ c ++ q3 =
                        takeWs s ++ ('"' :: (s₁.take (s₁.length - s₂.length) ++
                          (takeWs s₂ ++ ':' :: (q1 ++ c ++ q3)))) := by simp
                    have hds' : dropWs ((takeWs s ++ '"' :: s₁.take (s₁.length - s₂.length) ++
                        takeWs s₂ ++ ':' :: q1) ++ c ++ q3) =
                        '"' :: (s₁.take (s₁.length - s₂.length) ++
                          (takeWs s₂ ++ ':' :: (q1 ++ c ++ q3))) := by
                      rw [hsh]
                      exact dropWs_append_of _ _ (allWs_takeWs s) (by decide)
                    have htkS : takeWs ((takeWs s ++ '"' :: s₁.take (s₁.length - s₂.length) ++
                        takeWs s₂ ++ ':' :: q1) ++ c ++ q3) = takeWs s := by
                      rw [hsh]
                      exact takeWs_append_of _ _ (allWs_takeWs s) (by decide)
                    have hp' : parseStrBody (s₁.take (s₁.length - s₂.length) ++
                        (takeWs s₂ ++ ':' :: (q1 ++ c ++ q3))) =
                        some (key, takeWs s₂ ++ ':' :: (q1 ++ c ++ q3)) := by
                      rw [hrawkey]
                      exact hpext _
                    have h3' : dropWs (takeWs s₂ ++ ':' :: (q1 ++ c ++ q3)) =
                        ':' :: (q1 ++ c ++ q3) :=
                      dropWs_append_of _ _ (allWs_takeWs s₂) (by decide)
                    rw [membLoop_hit_step f'' k ps _ _ key _ _ hds' hp' h3' hkey]
                    rw [hstab f'' (by
                      simp only [List.length_append, List.length_cons] at hf'
                      omega)]
                    simp only [Option.map_some']
                    rw [htkS]
                    rw [rawkey_eq (s₁.take (s₁.length - s₂.length))
                      (takeWs s₂ ++ ':' :: (q1 ++ c ++ q3))]
                    rw [takeWs_append_of _ _ (allWs_takeWs s₂) (by decide)]
                · rw [if_neg hkey] at h
                  cases hsv : skipValue (dropWs s₄) with
                  | none => rw [hsv] at h; cases h
                  | some pv =>
                    obtain ⟨t₀, s₅⟩ := pv
                    rw [hsv] at h
                    simp only at h
                    cases hds5 : dropWs s₅ with
                    | nil => rw [hds5] at h; cases h
                    | cons c₃ s₇ =>
                      rw [hds5] at h
                      simp only at h
                      by_cases hc3 : c₃ = ','
                      · rw [if_pos hc3] at h
                        subst hc3
                        cases hm : membLoop f k ps s₇ with
                        | none => rw [hm] at h; cases h
                        | some q =>
                          obtain ⟨q1, q2, q3⟩ := q
                          rw [hm] at h
                          simp only [Option.map_some', Option.some.injEq, Prod.mk.injEq] at h
                          obtain ⟨hb, ht, ha⟩ := h
                          subst hb; subst ht; subst ha
                          obtain ⟨hda, hstab⟩ := ihm k ps s₇ q1 q2 q3 hm
                          refine ⟨hda, ?_⟩
                          intro f' hf'
                          obtain ⟨f'', rfl⟩ : ∃ f'', f' = f'' + 1 := by
                            cases f'
                            · omega
                            · exact ⟨_, rfl⟩
                          obtain ⟨d0, ds0, ht0, hd0, hx0⟩ := skipValue_head hsv
                          have hs₅ : s₅ = takeWs s₅ ++ ',' :: s₇ := by
                            conv_lhs => rw [← takeWs_dropWs s₅]
                            rw [hds5]
                          have hsv' : skipValue (dropWs s₄) =
                              some (t₀, takeWs s₅ ++ ',' :: s₇) := by
                            rw [hsv, ← hs₅]
                          have hext := skipValue_extend_comma hsv' (q1 ++ c ++ q3)
                          have hsh : (takeWs s ++ '"' :: s₁.take (s₁.length - s₂.length) ++
                              takeWs s₂ ++ ':' :: takeWs s₄ ++ t₀ ++ takeWs s₅ ++ ',' :: q1) ++
                              c ++ q3 =
                              takeWs s ++ ('"' :: (s₁.take (s₁.length - s₂.length) ++
                                (takeWs s₂ ++ ':' :: (takeWs s₄ ++ (t₀ ++ (takeWs s₅ ++
                                  ',' :: (q1 ++ c ++ q3))))))) := by simp
                          have hds' : dropWs ((takeWs s ++
                              '"' :: s₁.take (s₁.length - s₂.length) ++ takeWs s₂ ++
                              ':' :: takeWs s₄ ++ t₀ ++ takeWs s₅ ++ ',' :: q1) ++ c ++ q3) =
                              '"' :: (s₁.take (s₁.length - s₂.length) ++
                                (takeWs s₂ ++ ':' :: (takeWs s₄ ++ (t₀ ++ (takeWs s₅ ++
                                  ',' :: (q1 ++ c ++ q3)))))) := by
                            rw [hsh]
                            exact dropWs_append_of _ _ (allWs_takeWs s) (by decide)
                          have htkS : takeWs ((takeWs s ++
                              '"' :: s₁.take (s₁.length - s₂.length) ++ takeWs s₂ ++
                              ':' :: takeWs s₄ ++ t₀ ++ takeWs s₅ ++ ',' :: q1) ++ c ++ q3) =
                              takeWs s := by
                            rw [hsh]
                            exact takeWs_append_of _ _ (allWs_takeWs s) (by decide)
                          have hp' : parseStrBody (s₁.take (s₁.length - s₂.length) ++
                              (takeWs s₂ ++ ':' :: (takeWs s₄ ++ (t₀ ++ (takeWs s₅ ++
                                ',' :: (q1 ++ c ++ q3)))))) =
                              some (key, takeWs s₂ ++ ':' :: (takeWs s₄ ++ (t₀ ++ (takeWs s₅ ++
                                ',' :: (q1 ++ c ++ q3))))) := by
                            rw [hrawkey]
                            exact hpext _
                          have h3' : dropWs (takeWs s₂ ++ ':' :: (takeWs s₄ ++ (t₀ ++
                              (takeWs s₅ ++ ',' :: (q1 ++ c ++ q3))))) =
                              ':' :: (takeWs s₄ ++ (t₀ ++ (takeWs s₅ ++
                                ',' :: (q1 ++ c ++ q3)))) :=
                            dropWs_append_of _ _ (allWs_takeWs s₂) (by decide)
                          have h5' : skipValue (dropWs (takeWs s₄ ++ (t₀ ++ (takeWs s₅ ++
                              ',' :: (q1 ++ c ++ q3))))) =
                              some (t₀, takeWs s₅ ++ ',' :: (q1 ++ c ++ q3)) := by
                            have hdw4 : dropWs (takeWs s₄ ++ (t₀ ++ (takeWs s₅ ++
                                ',' :: (q1 ++ c ++ q3)))) =
                                t₀ ++ (takeWs s₅ ++ ',' :: (q1 ++ c ++ q3)) := by
                              rw [ht0]
                              simpa using dropWs_append_of d0
                                (ds0 ++ (takeWs s₅ ++ ',' :: (q1 ++ c ++ q3)))
                                (allWs_takeWs s₄) hd0
                            rw [hdw4]
                            exact hext
                          have h6' : dropWs (takeWs s₅ ++ ',' :: (q1 ++ c ++ q3)) =
                              ',' :: (q1 ++ c ++ q3) :=
                            dropWs_append_of _ _ (allWs_takeWs s₅) (by decide)
                          rw [membLoop_skip_step f'' k ps _ _ key _ _ t₀ _ _
                            hds' hp' h3' hkey h5' h6']
                          rw [hstab f'' (by
                            simp only [List.length_append, List.length_cons] at hf'
                            omega)]
                          simp only [Option.map_some']
                          rw [htkS]
                          rw [rawkey_eq (s₁.take (s₁.length - s₂.length)) _]
                          rw [takeWs_append_of _ _ (allWs_takeWs s₂) (by decide)]
                          rw [show takeWs (takeWs s₄ ++ (t₀ ++ (takeWs s₅ ++
                              ',' :: (q1 ++ c ++ q3)))) = takeWs s₄ from by
                            rw [ht0]
                            simpa using takeWs_append_of d0
                              (ds0 ++ (takeWs s₅ ++ ',' :: (q1 ++ c ++ q3)))
                              (allWs_takeWs s₄) hd0]
                          rw [takeWs_append_of _ _ (allWs_takeWs s₅) (by decide)]
                      · rw [if_neg hc3] at h
                        cases h
              · rw [if_neg hc2] at h; cases h
        · rw [if_neg hcc] at h; cases h

/-- Stability of the resolver at the natural fuels: re-resolving the same
path on the spliced document finds exactly the replacement span. -/
theorem resolveTop_stab {d : List Char} {p : List Seg} {b t a : List Char}
    (h : resolveTop d p = some (b, t, a)) (c : List Char) (c0 : Char) (cs : List Char)
    (hc : c = c0 :: cs) (hc0 : isWsChar c0 = false)
    (hcsv : ∀ rest, delimOk rest = true → skipValue (c ++ rest) = some (c, rest)) :
    resolveTop (b ++ c ++ a) p = some (b, c, a) := by
  have hs := (resolve_membLoop_stab c c0 cs hc hc0 hcsv (d.length + 1)).1 d p b t a h
  exact hs.2 ((b ++ c ++ a).length + 1) (by
    simp only [List.length_append]
    omega)

/-! ### Root-mode computation helpers -/

theorem coerceRoot_wf (raw : Option (List Char)) : wfV (coerceRoot raw) = true :=
  coercePath_wf raw

theorem applyEditBody_root (d : List Char) (v : Option (List Char)) (p : Option (List Seg))
    (hp : p = none ∨ p = some []) :
    applyEditBody d p v = (match parseJson d with
      | none => Except.error ()
      | some _ => Except.ok (stringifyI (coerceRoot v) 0)) := by
  rcases hp with rfl | rfl <;> rfl

/-! ### Claim theorems -/

/-- C6: root replacement round-trip.  For every document that parses as
valid JSON and every well-formed JSON value `v`, replacing the root
(empty path) with the serialization of `v` produces text that
`JSON.parse` maps back to a value structurally equal to `v`. -/
theorem root_replacement_round_trip (d : List Char) (j v : JsonValue)
    (hd : parseJson d = some j) (hv : wfV v = true) :
    parseJson (applyEditToJson d (some []) (some (stringifyI v 0))) = some v := by
  have hc : coerceRoot (some (stringifyI v 0)) = v := by
    show (match parseJson (stringifyI v 0) with
      | some w => w
      | none => JsonValue.str (stringifyI v 0)) = v
    rw [parseJson_stringify v hv]
  have hb : applyEditBody d (some []) (some (stringifyI v 0)) =
      .ok (stringifyI v 0) := by
    show (match parseJson d with
      | none => Except.error ()
      | some _ => Except.ok (stringifyI (coerceRoot (some (stringifyI v 0))) 0)) =
      Except.ok (stringifyI v 0)
    rw [hd, hc]
  have ha : applyEditToJson d (some []) (some (stringifyI v 0)) = stringifyI v 0 := by
    unfold applyEditToJson
    rw [hb]
  rw [ha]
  exact parseJson_stringify v hv

theorem root_replacement_round_trip_witness :
    parseJson ['{', '}'] = some (.obj []) ∧ wfV .null = true ∧
      parseJson (applyEditToJson ['{', '}'] (some []) (some (stringifyI .null 0))) =
        some .null :=
  ⟨rfl, rfl, root_replacement_round_trip ['{', '}'] (.obj []) .null rfl rfl⟩

/-- C5 counterexample: with the node-absent insertion mode of spec 4.1
modelled, applying the same edit twice is not always the same as applying
it once.  On the empty-array document `[]`, writing raw value `7` at index
1 first appends the element (the index is beyond the length, giving `[7]`);
index 1 is still beyond the new length 1, so the second application appends
again, giving `[7,7]`. -/
theorem applyEditToJson_insert_not_idempotent :
    applyEditToJson (applyEditToJson ['[', ']'] (some [.idx 1]) (some ['7']))
        (some [.idx 1]) (some ['7']) ≠
      applyEditToJson ['[', ']'] (some [.idx 1]) (some ['7']) := by
  decide

/-- C5 (amended): `applyEditToJson` is idempotent on every non-inserting
edit — root replacement, paths that resolve to an existing node, and edits
that fail entirely.  The hypothesis states exactly that the edit does not
insert: for a nonempty path whose replacement resolution fails, the
insertion resolution fails as well. -/
theorem applyEditToJson_idempotent_of_not_insert (d : List Char) (p : Option (List Seg))
    (v : Option (List Char))
    (hni : ∀ seg segs, p = some (seg :: segs) →
      resolveTop d (seg :: segs) = none →
      resolveInsTop d (seg :: segs) (coercePath v) = none) :
    applyEditToJson (applyEditToJson d p v) p v = applyEditToJson d p v := by
  have hroot : ∀ (hp : p = none ∨ p = some []),
      applyEditToJson (applyEditToJson d p v) p v = applyEditToJson d p v := by
    intro hp
    have hb := applyEditBody_root d v p hp
    cases hd : parseJson d with
    | none =>
      have h1 : applyEditToJson d p v = d := by
        unfold applyEditToJson
        rw [hb, hd]
      rw [h1]
      exact h1
    | some j =>
      have h1 : applyEditToJson d p v = stringifyI (coerceRoot v) 0 := by
        unfold applyEditToJson
        rw [hb, hd]
      have hd2 : parseJson (stringifyI (coerceRoot v) 0) = some (coerceRoot v) :=
        parseJson_stringify _ (coerceRoot_wf v)
      have hb2 := applyEditBody_root (stringifyI (coerceRoot v) 0) v p hp
      have h2 : applyEditToJson (stringifyI (coerceRoot v) 0) p v =
          stringifyI (coerceRoot v) 0 := by
        unfold applyEditToJson
        rw [hb2, hd2]
      rw [h1, h2]
  match p with
  | none => exact hroot (Or.inl rfl)
  | some [] => exact hroot (Or.inr rfl)
  | some (seg :: segs) =>
    cases hres : resolveTop d (seg :: segs) with
    | none =>
      have h1 := @applyEdit_path_fallback d seg segs v hres (hni seg segs rfl hres)
      rw [h1]
      exact h1
    | some q =>
      obtain ⟨b, t, a⟩ := q
      obtain ⟨c0, cs, hcc, hw⟩ :=
        serializeCompact_head (coercePath v) (coercePath_wf v)
      have h1 := @applyEdit_path_formula d seg segs v b t a hres
      have hres2 := resolveTop_stab hres (serializeCompact (coercePath v)) c0 cs hcc hw
        (fun rest hr => skipValue_serialize (coercePath v) (coercePath_wf v) rest hr)
      have h2 := @applyEdit_path_formula (b ++ serializeCompact (coercePath v) ++ a) seg segs v
        b (serializeCompact (coercePath v)) a hres2
      rw [h1, h2]

theorem applyEditToJson_idempotent_of_not_insert_witness :
    applyEditToJson
        (applyEditToJson ['{', '"', 'a', '"', ':', '1', '}'] (some [.key ['a']]) (some ['2']))
        (some [.key ['a']]) (some ['2']) =
      applyEditToJson ['{', '"', 'a', '"', ':', '1', '}'] (some [.key ['a']]) (some ['2']) :=
  applyEditToJson_idempotent_of_not_insert _ _ _ (by
    intro seg segs hp hr
    injection hp with h1
    injection h1 with h2 h3
    subst h2
    subst h3
    exact absurd hr (by decide))



/-- C1: `applyEditToJson` is a total function of its three inputs; every
internal failure of the try-block (root-parse error, unresolvable path,
failing patch computation) is caught and yields the original document
unchanged, and no exception escapes: the result is either the try-block's
output or exactly `documentText`. -/
theorem applyEditToJson_never_throws :
    ∀ (d : List Char) (p : Option (List Seg)) (v : Option (List Char)),
      ((∃ e, applyEditBody d p v = Except.error e) → applyEditToJson d p v = d) ∧
      (∀ out, applyEditBody d p v = Except.ok out → applyEditToJson d p v = out) := by
  intro d p v
  constructor
  · rintro ⟨e, he⟩
    unfold applyEditToJson
    rw [he]
  · intro out hout
    unfold applyEditToJson
    rw [hout]

theorem applyEditToJson_never_throws_witness :
    applyEditToJson ['b', 'a', 'd'] (some []) (some ['4', '2']) = ['b', 'a', 'd'] :=
  (applyEditToJson_never_throws ['b', 'a', 'd'] (some []) (some ['4', '2'])).1 ⟨(), rfl⟩

/-- C3 counterexample: with a document that is not valid JSON, the
root-replacement mode does *not* return the serialized coerced value — the
initial `JSON.parse(originalJson)` throws and the document comes back
unchanged, so the output does depend on the prior document text. -/
theorem root_replacement_depends_on_document :
    applyEditToJson ['x', 'y', 'z'] (some []) (some ['4', '2']) = ['x', 'y', 'z'] ∧
    stringifyI (coerceRoot (some ['4', '2'])) 0 = ['4', '2'] ∧
    (['x', 'y', 'z'] : List Char) ≠ ['4', '2'] :=
  ⟨rfl, rfl, by decide⟩

/-- C3 amended: when `documentText` parses as JSON, an empty or absent path
replaces the whole document with the coerced new value serialized at
2-space indentation, independent of the prior document's content. -/
theorem root_replacement_of_valid_document :
    ∀ (d : List Char) (p : Option (List Seg)) (v : Option (List Char)) (j : JsonValue),
      parseJson d = some j → (p = none ∨ p = some []) →
      applyEditToJson d p v = stringifyI (coerceRoot v) 0 := by
  intro d p v j hparse hp
  rcases hp with rfl | rfl <;> simp [applyEditToJson, applyEditBody, hparse]

theorem root_replacement_of_valid_document_witness :
    applyEditToJson ['7'] none (some ['4', '2']) = stringifyI (coerceRoot (some ['4', '2'])) 0 :=
  root_replacement_of_valid_document ['7'] none (some ['4', '2']) (.num ['7']) rfl (Or.inl rfl)

/-- C4 counterexample: the code's patch application (reverse the descriptor
list, then splice) is *not* deterministic regardless of the input ordering:
two orderings of the same valid non-overlapping descriptor pair yield
different outputs, because the code reverses instead of sorting. -/
theorem applyEdits_order_dependent :
    editSep ⟨0, 1, ['X', 'X']⟩ ⟨1, 1, ['Y']⟩ ∧
    (0 : Nat) + 1 ≤ (['a', 'b'] : List Char).length ∧
    (1 : Nat) + 1 ≤ (['a', 'b'] : List Char).length ∧
    List.Perm [(⟨0, 1, ['X', 'X']⟩ : Edit), ⟨1, 1, ['Y']⟩]
      [⟨1, 1, ['Y']⟩, ⟨0, 1, ['X', 'X']⟩] ∧
    applyEdits ['a', 'b'] [⟨0, 1, ['X', 'X']⟩, ⟨1, 1, ['Y']⟩] ≠
      applyEdits ['a', 'b'] [⟨1, 1, ['Y']⟩, ⟨0, 1, ['X', 'X']⟩] := by
  refine ⟨by decide, by decide, by decide, List.Perm.swap _ _ _, by decide⟩

/-- C4 amended: the code reverses the descriptor sequence rather than
sorting it; on sequences sorted ascending by offset (the order the library
emits) this agrees with the spec's sort-by-offset-descending algorithm, and
that algorithm is deterministic regardless of the input ordering for valid,
non-overlapping, distinct-offset descriptor sequences. -/
theorem applyEdits_sorted_behavior :
    (∀ (s : List Char) (l : List Edit), ascNonOverlap l →
      applyEdits s l = applyEditsSortedDesc s l) ∧
    (∀ (s : List Char) (l₁ l₂ : List Edit), l₁.Perm l₂ → l₁.Pairwise editSep →
      (∀ e ∈ l₁, e.offset + e.length ≤ s.length) →
      applyEditsSortedDesc s l₁ = applyEditsSortedDesc s l₂) := by
  constructor
  · intro s l hasc
    unfold applyEdits applyEditsSortedDesc
    rw [insertionSort_eq_reverse hasc]
  · intro s l₁ l₂ hp hsep _
    unfold applyEditsSortedDesc
    rw [insertionSort_perm_eq hp (hsep.imp (fun h => h.2))]

theorem applyEdits_sorted_behavior_witness :
    applyEditsSortedDesc ['a', 'b'] [(⟨0, 1, ['X']⟩ : Edit), ⟨1, 1, ['Y']⟩] =
      applyEditsSortedDesc ['a', 'b'] [⟨1, 1, ['Y']⟩, ⟨0, 1, ['X']⟩] :=
  applyEdits_sorted_behavior.2 ['a', 'b'] [⟨0, 1, ['X']⟩, ⟨1, 1, ['Y']⟩]
    [⟨1, 1, ['Y']⟩, ⟨0, 1, ['X']⟩] (List.Perm.swap _ _ _) (by decide) (by decide)

/-- C7: `jsonPathToString` renders the empty or absent path as `$`, and a
nonempty path as `$` followed by one bracketed chunk per segment — numeric
segments bare, string segments wrapped in double quotes; in particular
`["customer", 0, "name"]` renders as `$["customer"][0]["name"]`. -/
theorem jsonPathToString_rendering :
    jsonPathToString none = ['$'] ∧
    jsonPathToString (some []) = ['$'] ∧
    jsonPathToString
        (some [.key ['c', 'u', 's', 't', 'o', 'm', 'e', 'r'], .idx 0,
          .key ['n', 'a', 'm', 'e']]) =
      "$[\"customer\"][0][\"name\"]".data ∧
    ∀ (g : Seg) (gs : List Seg),
      jsonPathToString (some (g :: gs)) =
        '$' :: ((g :: gs).map (fun x => '[' :: renderSeg x ++ [']'])).flatten := by
  refine ⟨rfl, rfl, rfl, fun g gs => ?_⟩
  show '$' :: '[' :: List.intercalate [']', '['] ((g :: gs).map renderSeg) ++ [']'] = _
  rw [show '$' :: '[' :: List.intercalate [']', '['] ((g :: gs).map renderSeg) ++ [']'] =
    '$' :: ('[' :: List.intercalate [']', '['] ((g :: gs).map renderSeg) ++ [']']) from rfl]
  rw [intercalate_chunks]

/-- C8: an empty or absent node-row set normalizes to the two-character
text `{}`, not to the empty string. -/
theorem normalizeNodeData_empty_object :
    normalizeNodeData none = ['{', '}'] ∧ normalizeNodeData (some []) = ['{', '}'] ∧
    (['{', '}'] : List Char) ≠ ([] : List Char) :=
  ⟨rfl, rfl, by decide⟩

/-- C10: with more than one row, or a single row whose key is truthy,
`normalizeNodeData` returns the 2-space-indented serialization of the
object built from exactly the rows with a truthy key and non-container
type (others are dropped); a single keyless row returns its value converted
to a string. -/
theorem normalizeNodeData_object_shape :
    (∀ (r : Row) (rs : List Row), rs ≠ [] ∨ keyTruthy r.key = true →
      normalizeNodeData (some (r :: rs)) = stringifyI (.obj (buildObj (r :: rs))) 0) ∧
    (∀ rows : List Row,
      buildObj rows = buildObj (rows.filter (fun r => rowScalar r && keyTruthy r.key))) ∧
    (∀ r : Row, keyTruthy r.key = false → normalizeNodeData (some [r]) = jsToStr r.value) := by
  refine ⟨fun r rs h => ?_, buildObj_filter, fun r h => ?_⟩
  · unfold normalizeNodeData
    rcases h with h | h
    · cases rs with
      | nil => exact absurd rfl h
      | cons r' rs' => simp
    · simp [h]
  · unfold normalizeNodeData
    simp [h]

theorem normalizeNodeData_object_shape_witness :
    normalizeNodeData (some [⟨some ['a'], .rnum ['1'], ['n', 'u', 'm', 'b', 'e', 'r']⟩,
        ⟨some ['b'], .rstr ['x'], ['s', 't', 'r', 'i', 'n', 'g']⟩]) =
      stringifyI (.obj (buildObj [⟨some ['a'], .rnum ['1'], ['n', 'u', 'm', 'b', 'e', 'r']⟩,
        ⟨some ['b'], .rstr ['x'], ['s', 't', 'r', 'i', 'n', 'g']⟩])) 0 :=
  normalizeNodeData_object_shape.1 _ _ (Or.inl (by decide))

/-- C2: the two-tier value coercion — parse the raw text as JSON, and fall
back to treating it as a string literal — is written identically in the
root-replacement and path-replacement branches, and determines the value
written in both modes: raw `42` writes the number 42, raw `true` writes the
boolean true, raw `hello` writes the string `"hello"`. -/
theorem coercion_two_tier :
    (∀ raw, coerceRoot raw = coercePath raw) ∧
    (∀ (r : List Char) (v : JsonValue), parseJson r = some v → coercePath (some r) = v) ∧
    (∀ r : List Char, parseJson r = none → coercePath (some r) = .str r) ∧
    applyEditToJson ['{', '"', 'a', '"', ':', '1', '}'] (some [.key ['a']]) (some ['4', '2']) =
      ['{', '"', 'a', '"', ':', '4', '2', '}'] ∧
    applyEditToJson ['{', '"', 'a', '"', ':', '1', '}'] (some [.key ['a']])
      (some ['t', 'r', 'u', 'e']) =
      ['{', '"', 'a', '"', ':', 't', 'r', 'u', 'e', '}'] ∧
    applyEditToJson ['{', '"', 'a', '"', ':', '1', '}'] (some [.key ['a']])
      (some ['h', 'e', 'l', 'l', 'o']) =
      ['{', '"', 'a', '"', ':', '"', 'h', 'e', 'l', 'l', 'o', '"', '}'] ∧
    (∀ (d : List Char) (j : JsonValue) (v : Option (List Char)), parseJson d = some j →
      applyEditToJson d (some []) v = stringifyI (coerceRoot v) 0) ∧
    (∀ (d : List Char) (seg : Seg) (segs : List Seg) (v : Option (List Char)) (b t a : List Char),
      resolveTop d (seg :: segs) = some (b, t, a) →
      applyEditToJson d (some (seg :: segs)) v = b ++ serializeCompact (coercePath v) ++ a) := by
  refine ⟨fun raw => rfl, ?_, ?_, rfl, rfl, rfl, ?_, ?_⟩
  · intro r v h
    simp [coercePath, h]
  · intro r h
    simp [coercePath, h]
  · intro d j v h
    simp [applyEditToJson, applyEditBody, h]
  · intro d seg segs v b t a h
    exact applyEdit_path_formula h

theorem coercion_two_tier_witness :
    applyEditToJson ['{', '"', 'b', '"', ':', '2', '}'] (some [.key ['b']]) (some ['9']) =
      ['{', '"', 'b', '"', ':'] ++ serializeCompact (coercePath (some ['9'])) ++ ['}'] :=
  coercion_two_tier.2.2.2.2.2.2.2 ['{', '"', 'b', '"', ':', '2', '}'] (.key ['b']) [] (some ['9'])
    ['{', '"', 'b', '"', ':'] ['2'] ['}'] rfl

/-- C9: an absent `newValueRaw` is coerced by parsing the default text
`null`, so the value written is JSON null — at the root of a valid document
the output is the text `null`, and at a resolvable path the target span is
replaced by `null`. -/
theorem absent_raw_value_writes_null :
    coerceRoot none = JsonValue.null ∧
    coercePath none = JsonValue.null ∧
    serializeCompact JsonValue.null = nullTok ∧
    (∀ (d : List Char) (j : JsonValue), parseJson d = some j →
      applyEditToJson d none none = nullTok) ∧
    (∀ (d : List Char) (seg : Seg) (segs : List Seg) (b t a : List Char),
      resolveTop d (seg :: segs) = some (b, t, a) →
      applyEditToJson d (some (seg :: segs)) none = b ++ nullTok ++ a) := by
  refine ⟨rfl, rfl, rfl, ?_, ?_⟩
  · intro d j h
    simp [applyEditToJson, applyEditBody, h]
    rfl
  · intro d seg segs b t a h
    rw [applyEdit_path_formula h]
    rfl

theorem absent_raw_value_writes_null_witness :
    applyEditToJson ['5'] none none = nullTok :=
  absent_raw_value_writes_null.2.2.2.1 ['5'] (.num ['5']) rfl

end NodeModal
